import Mathlib

/-!
# psmevents: the peeking stream decoder, the subscription handshake and the diff renderer

A shallow embedding of `peekingdecoder.go` and `main.go`.

The program is layered over three libraries: `bufio.Reader`, `encoding/json`
(`json.Decoder`, `json.MarshalIndent`) and `github.com/pmezard/go-difflib`.
Their observable behaviour is embedded here as executable definitions, each
named after the library function it stands for: the JSON scanner is the state
machine of `scanner.go`, the sequence matcher is the one of `difflib.go`.

Modelling conventions:

* a byte is a `Fin 256`; a Go `string` is the list of its bytes;
* the underlying byte source is a finite stream that ends with `io.EOF`;
  blocking and timing are not represented;
* the decoder cursor is the pair of buffers the program can observe: the unread
  part of the JSON decoder's internal buffer (`Decoder.Buffered()`) and the
  bytes the buffered reader `rd` has still to deliver;
* how the reads are chunked is an input (`peekingDecoder.ahead`): the theorems
  hold for every chunking;
* a Go `int` is 64 bits wide: where a library adds to or subtracts from the
  flag value `diffContextLines`, the result wraps around (`wrapInt`), and a
  slice expression with bounds out of range panics; the positions the
  sequence matcher computes are natural numbers, bounded by the lengths of the
  two sequences;
* an error value stands for its kind and message, which is what the program
  prints; the byte offset carried by a `*json.SyntaxError` is not represented;
* loops whose number of rounds is not a structural bound take fuel; for the
  loop of `readResult`, the value builder of the JSON decoder and the
  recursion of the sequence matcher the fuel is shown to suffice
  (`readResult_loop_fuel`, `nextValue_unmarshal`, `matchBlocks_fuel`).

The file has two parts: the definitions, then the theorems.
-/

namespace PsmEvents

set_option maxRecDepth 8000

/-! ## Bytes and Go strings -/

/-- One byte of a stream. -/
abbrev Byte := Fin 256

/-- The bytes of an ASCII literal (used to write inputs readably). -/
def bytesOf (s : String) : List Byte := s.toList.map (fun c => Fin.ofNat c.toNat)

/-- Go error values the program can observe.  `syntaxErr c ctx` is a
`*json.SyntaxError` whose message is `invalid character <c> <ctx>`;
`unmarshalType v t` is a `*json.UnmarshalTypeError` (`cannot unmarshal v into
Go value of type t`); `phase` is the decoder's internal "out of sync" failure;
`new m` is `errors.New(m)`. -/
inductive GoError
  | EOF
  | UnexpectedEOF
  | syntaxErr (c : Byte) (ctx : String)
  | unmarshalType (value : String) (goType : String)
  | phase
  | new (msg : List Byte)
  deriving DecidableEq, Repr

/-! ## `bytes.TrimSpace` on a one-byte slice -/

/-- `len(bytes.TrimSpace([]byte{b})) == 0`: the byte is one of the six ASCII
white-space bytes `\t \n \v \f \r ' '`.  A byte `>= 0x80` alone is not valid
UTF-8, decodes to `utf8.RuneError` and is therefore never trimmed. -/
def isSpace (b : Byte) : Bool :=
  b.val == 0x09 || b.val == 0x0a || b.val == 0x0b || b.val == 0x0c || b.val == 0x0d
    || b.val == 0x20

/-- `isSpace` of `encoding/json` (scanner.go): the four JSON white-space bytes
`' ' \t \r \n`. -/
def jsonIsSpace (c : Byte) : Bool :=
  c.val == 0x20 || c.val == 0x09 || c.val == 0x0d || c.val == 0x0a

/-! ## The decoder cursor -/

/-- The state of a `peekingDecoder`.

* `buf`   : `Decoder.buf[Decoder.scanp:]`, the bytes the JSON decoder has read
            from `rd` and not yet consumed (what `Decoder.Buffered()` reads);
* `err`   : `Decoder.err`, the sticky error of the JSON decoder;
* `rd`    : the bytes `rd` (the `bufio.Reader`) has still to deliver, followed
            by `io.EOF`;
* `ahead` : for each future `Decode` that has to refill its buffer, how many
            bytes beyond the ones it needs the reads happen to bring in (the
            chunking of the byte source, which the program does not control). -/
structure peekingDecoder where
  buf : List Byte
  err : Option GoError
  rd : List Byte
  ahead : List Nat
  deriving DecidableEq, Repr

/-- `newPeekingDecoder(r)` over the stream `input`, with the given read chunking. -/
def newPeekingDecoder (input : List Byte) (ahead : List Nat) : peekingDecoder :=
  { buf := [], err := none, rd := input, ahead := ahead }

/-- The unread input: decoder buffer first, then the I/O buffer. -/
def peekingDecoder.remaining (d : peekingDecoder) : List Byte := d.buf ++ d.rd

/-- First loop of `NextByte`: read `Decoder.Buffered()` byte by byte, skipping
white space; `none` when the reader runs out (`err != nil || n != 1`). -/
def NextByte.scanBuffered : List Byte → Option Byte
  | [] => none
  | b :: bs => if isSpace b then NextByte.scanBuffered bs else some b

/-- Second loop of `NextByte`: `rd.Peek(1)`; a white-space byte is discarded
with `rd.Discard(1)` and the loop continues; any other byte is returned and
stays in `rd`; at the end of the stream `Peek` fails with `io.EOF`. -/
def NextByte.peekLoop : List Byte → (Byte × Option GoError) × List Byte
  | [] => ((0, some GoError.EOF), [])
  | b :: bs => if isSpace b then NextByte.peekLoop bs else ((b, none), b :: bs)

/-- `func (d *peekingDecoder) NextByte() (byte, error)`: the returned pair and
the state afterwards. -/
def NextByte (d : peekingDecoder) : (Byte × Option GoError) × peekingDecoder :=
  match NextByte.scanBuffered d.buf with
  | some b => ((b, none), d)
  | none =>
    let r := NextByte.peekLoop d.rd
    (r.1, { d with rd := r.2 })

/-- The state after `n` consecutive calls of `NextByte`. -/
def NextByte.times : Nat → peekingDecoder → peekingDecoder
  | 0, d => d
  | n + 1, d => NextByte.times n (NextByte d).2

/-- What the two loops of `NextByte` look for: the first byte of `s` that the
code's own test, `bytes.TrimSpace`, leaves in place. -/
def firstUntrimmed (s : List Byte) : Option Byte := s.find? (fun b => !isSpace b)

/-- The reference the look-ahead is specified against: the first byte of the
remaining input that is not white space, white space being what the next
`Decode` skips in front of a value (space, `\t`, `\r`, `\n`). -/
def firstNonWhitespace (s : List Byte) : Option Byte := s.find? (fun b => !jsonIsSpace b)

/-- The pair `NextByte` returns for a byte found, or for none. -/
def peekResult : Option Byte → Byte × Option GoError
  | some b => (b, none)
  | none => (0, some GoError.EOF)

/-! ## `encoding/json`: the scanner (scanner.go) -/

/-- The scanner's result codes (`scanContinue` ... `scanError`). -/
inductive ScanOp
  | scanContinue | scanBeginLiteral | scanBeginObject | scanObjectKey | scanObjectValue
  | scanEndObject | scanBeginArray | scanArrayValue | scanEndArray | scanSkipSpace
  | scanEnd | scanError
  deriving DecidableEq, Repr

/-- What the scanner is in the middle of (`parseObjectKey`, `parseObjectValue`,
`parseArrayValue`). -/
inductive ParseState
  | parseObjectKey | parseObjectValue | parseArrayValue
  deriving DecidableEq, Repr

/-- The scanner's transition functions, by name: `Step.beginValue` is
`stateBeginValue`, and so on. -/
inductive Step
  | beginValueOrEmpty | beginValue | beginStringOrEmpty | beginString | endValue | endTop
  | inString | inStringEsc | inStringEscU | inStringEscU1 | inStringEscU12 | inStringEscU123
  | neg | one | zero | dot | dot0 | e | eSign | e0
  | t | tr | tru | f | fa | fal | fals | n | nu | nul
  | error
  deriving DecidableEq, Repr

/-- The `scanner` of `encoding/json`.  `parseState` is the stack of things
being parsed, innermost first. -/
structure scanner where
  step : Step
  endTop : Bool
  parseState : List ParseState
  err : Option GoError
  deriving DecidableEq, Repr

/-- `maxNestingDepth` of scanner.go. -/
def maxNestingDepth : Nat := 10000

/-- `scanner.reset`. -/
def scanner.reset : scanner :=
  { step := Step.beginValue, endTop := false, parseState := [], err := none }

/-- `scanner.error(c, context)`. -/
def scanner.error (s : scanner) (c : Byte) (context : String) : scanner × ScanOp :=
  ({ s with step := Step.error, err := some (GoError.syntaxErr c context) }, ScanOp.scanError)

/-- `scanner.pushParseState(c, newParseState, successState)`. -/
def scanner.pushParseState (s : scanner) (c : Byte) (newParseState : ParseState)
    (successState : ScanOp) : scanner × ScanOp :=
  let s1 := { s with parseState := newParseState :: s.parseState }
  if s1.parseState.length ≤ maxNestingDepth then (s1, successState)
  else s1.error c "exceeded max depth"

/-- `scanner.popParseState`. -/
def scanner.popParseState (s : scanner) : scanner :=
  let ps := s.parseState.tail
  if ps.length = 0 then { s with parseState := ps, step := Step.endTop, endTop := true }
  else { s with parseState := ps, step := Step.endValue }

/-- Replace the innermost parse state (`s.parseState[n-1] = p`). -/
def scanner.setTop (s : scanner) (p : ParseState) : scanner :=
  { s with parseState := p :: s.parseState.tail }

/-- Is the byte an ASCII digit `0`..`9`. -/
def isDigit (c : Byte) : Bool := 0x30 ≤ c.val && c.val ≤ 0x39

/-- Is the byte an ASCII digit `1`..`9`. -/
def isDigit19 (c : Byte) : Bool := 0x31 ≤ c.val && c.val ≤ 0x39

/-- Is the byte a hexadecimal digit. -/
def isHex (c : Byte) : Bool :=
  (0x30 ≤ c.val && c.val ≤ 0x39) || (0x61 ≤ c.val && c.val ≤ 0x66)
    || (0x41 ≤ c.val && c.val ≤ 0x46)

/-- `stateEndTop`: the top-level value ended before this byte. -/
def stateEndTop (s : scanner) (c : Byte) : scanner × ScanOp :=
  if !jsonIsSpace c then ((s.error c "after top-level value").1, ScanOp.scanEnd)
  else (s, ScanOp.scanEnd)

/-- `stateEndValue`: after a value, such as after reading `{}` or `true`. -/
def stateEndValue (s : scanner) (c : Byte) : scanner × ScanOp :=
  match s.parseState with
  | [] => stateEndTop { s with step := Step.endTop, endTop := true } c
  | ps :: _ =>
    if jsonIsSpace c then ({ s with step := Step.endValue }, ScanOp.scanSkipSpace)
    else match ps with
      | ParseState.parseObjectKey =>
        if c.val = 0x3a then
          ({ s.setTop ParseState.parseObjectValue with step := Step.beginValue },
            ScanOp.scanObjectKey)
        else s.error c "after object key"
      | ParseState.parseObjectValue =>
        if c.val = 0x2c then
          ({ s.setTop ParseState.parseObjectKey with step := Step.beginString },
            ScanOp.scanObjectValue)
        else if c.val = 0x7d then (s.popParseState, ScanOp.scanEndObject)
        else s.error c "after object key:value pair"
      | ParseState.parseArrayValue =>
        if c.val = 0x2c then ({ s with step := Step.beginValue }, ScanOp.scanArrayValue)
        else if c.val = 0x5d then (s.popParseState, ScanOp.scanEndArray)
        else s.error c "after array element"

/-- `stateBeginValue`: the beginning of input or of a value. -/
def stateBeginValue (s : scanner) (c : Byte) : scanner × ScanOp :=
  if jsonIsSpace c then (s, ScanOp.scanSkipSpace)
  else if c.val = 0x7b then
    { s with step := Step.beginStringOrEmpty }.pushParseState c ParseState.parseObjectKey
      ScanOp.scanBeginObject
  else if c.val = 0x5b then
    { s with step := Step.beginValueOrEmpty }.pushParseState c ParseState.parseArrayValue
      ScanOp.scanBeginArray
  else if c.val = 0x22 then ({ s with step := Step.inString }, ScanOp.scanBeginLiteral)
  else if c.val = 0x2d then ({ s with step := Step.neg }, ScanOp.scanBeginLiteral)
  else if c.val = 0x30 then ({ s with step := Step.zero }, ScanOp.scanBeginLiteral)
  else if c.val = 0x74 then ({ s with step := Step.t }, ScanOp.scanBeginLiteral)
  else if c.val = 0x66 then ({ s with step := Step.f }, ScanOp.scanBeginLiteral)
  else if c.val = 0x6e then ({ s with step := Step.n }, ScanOp.scanBeginLiteral)
  else if isDigit19 c then ({ s with step := Step.one }, ScanOp.scanBeginLiteral)
  else s.error c "looking for beginning of value"

/-- `stateBeginValueOrEmpty`: after reading `[`. -/
def stateBeginValueOrEmpty (s : scanner) (c : Byte) : scanner × ScanOp :=
  if jsonIsSpace c then (s, ScanOp.scanSkipSpace)
  else if c.val = 0x5d then stateEndValue s c
  else stateBeginValue s c

/-- `stateBeginString`: after reading `{"key": value,`. -/
def stateBeginString (s : scanner) (c : Byte) : scanner × ScanOp :=
  if jsonIsSpace c then (s, ScanOp.scanSkipSpace)
  else if c.val = 0x22 then ({ s with step := Step.inString }, ScanOp.scanBeginLiteral)
  else s.error c "looking for beginning of object key string"

/-- `stateBeginStringOrEmpty`: after reading `{`. -/
def stateBeginStringOrEmpty (s : scanner) (c : Byte) : scanner × ScanOp :=
  if jsonIsSpace c then (s, ScanOp.scanSkipSpace)
  else if c.val = 0x7d then stateEndValue (s.setTop ParseState.parseObjectValue) c
  else stateBeginString s c

/-- `stateInString`: after reading a quote. -/
def stateInString (s : scanner) (c : Byte) : scanner × ScanOp :=
  if c.val = 0x22 then ({ s with step := Step.endValue }, ScanOp.scanContinue)
  else if c.val = 0x5c then ({ s with step := Step.inStringEsc }, ScanOp.scanContinue)
  else if c.val < 0x20 then s.error c "in string literal"
  else (s, ScanOp.scanContinue)

/-- `stateInStringEsc`: after reading a backslash in a string. -/
def stateInStringEsc (s : scanner) (c : Byte) : scanner × ScanOp :=
  if c.val = 0x62 || c.val = 0x66 || c.val = 0x6e || c.val = 0x72 || c.val = 0x74
      || c.val = 0x5c || c.val = 0x2f || c.val = 0x22 then
    ({ s with step := Step.inString }, ScanOp.scanContinue)
  else if c.val = 0x75 then ({ s with step := Step.inStringEscU }, ScanOp.scanContinue)
  else s.error c "in string escape code"

/-- `stateInStringEscU`, `...U1`, `...U12`, `...U123`: a hexadecimal digit
moves on to `next`. -/
def stateInStringEscHex (next : Step) (s : scanner) (c : Byte) : scanner × ScanOp :=
  if isHex c then ({ s with step := next }, ScanOp.scanContinue)
  else s.error c "in \\u hexadecimal character escape"

/-- `state0`: after reading `0` in a number. -/
def state0 (s : scanner) (c : Byte) : scanner × ScanOp :=
  if c.val = 0x2e then ({ s with step := Step.dot }, ScanOp.scanContinue)
  else if c.val = 0x65 || c.val = 0x45 then ({ s with step := Step.e }, ScanOp.scanContinue)
  else stateEndValue s c

/-- `state1`: after reading a non-zero integer in a number. -/
def state1 (s : scanner) (c : Byte) : scanner × ScanOp :=
  if isDigit c then ({ s with step := Step.one }, ScanOp.scanContinue)
  else state0 s c

/-- `stateNeg`: after reading `-` in a number. -/
def stateNeg (s : scanner) (c : Byte) : scanner × ScanOp :=
  if c.val = 0x30 then ({ s with step := Step.zero }, ScanOp.scanContinue)
  else if isDigit19 c then ({ s with step := Step.one }, ScanOp.scanContinue)
  else s.error c "in numeric literal"

/-- `stateDot`: after reading the integer and decimal point. -/
def stateDot (s : scanner) (c : Byte) : scanner × ScanOp :=
  if isDigit c then ({ s with step := Step.dot0 }, ScanOp.scanContinue)
  else s.error c "after decimal point in numeric literal"

/-- `stateDot0`: after reading the integer, decimal point and digits. -/
def stateDot0 (s : scanner) (c : Byte) : scanner × ScanOp :=
  if isDigit c then (s, ScanOp.scanContinue)
  else if c.val = 0x65 || c.val = 0x45 then ({ s with step := Step.e }, ScanOp.scanContinue)
  else stateEndValue s c

/-- `stateESign`: after reading the mantissa, `e` and a sign. -/
def stateESign (s : scanner) (c : Byte) : scanner × ScanOp :=
  if isDigit c then ({ s with step := Step.e0 }, ScanOp.scanContinue)
  else s.error c "in exponent of numeric literal"

/-- `stateE`: after reading the mantissa and `e`. -/
def stateE (s : scanner) (c : Byte) : scanner × ScanOp :=
  if c.val = 0x2b || c.val = 0x2d then ({ s with step := Step.eSign }, ScanOp.scanContinue)
  else stateESign s c

/-- `stateE0`: after reading the mantissa, `e`, optional sign and a digit. -/
def stateE0 (s : scanner) (c : Byte) : scanner × ScanOp :=
  if isDigit c then (s, ScanOp.scanContinue)
  else stateEndValue s c

/-- `stateT`, `stateTr`, ... `stateNul`: inside `true`, `false` or `null`, the
byte `want` moves on to `next`. -/
def stateLiteral (want : Byte) (next : Step) (context : String) (s : scanner) (c : Byte) :
    scanner × ScanOp :=
  if c = want then ({ s with step := next }, ScanOp.scanContinue)
  else s.error c context

/-- `s.step(s, c)`: run the current transition function on the byte `c`. -/
def scanner.doStep (s : scanner) (c : Byte) : scanner × ScanOp :=
  match s.step with
  | Step.beginValueOrEmpty => stateBeginValueOrEmpty s c
  | Step.beginValue => stateBeginValue s c
  | Step.beginStringOrEmpty => stateBeginStringOrEmpty s c
  | Step.beginString => stateBeginString s c
  | Step.endValue => stateEndValue s c
  | Step.endTop => stateEndTop s c
  | Step.inString => stateInString s c
  | Step.inStringEsc => stateInStringEsc s c
  | Step.inStringEscU => stateInStringEscHex Step.inStringEscU1 s c
  | Step.inStringEscU1 => stateInStringEscHex Step.inStringEscU12 s c
  | Step.inStringEscU12 => stateInStringEscHex Step.inStringEscU123 s c
  | Step.inStringEscU123 => stateInStringEscHex Step.inString s c
  | Step.neg => stateNeg s c
  | Step.one => state1 s c
  | Step.zero => state0 s c
  | Step.dot => stateDot s c
  | Step.dot0 => stateDot0 s c
  | Step.e => stateE s c
  | Step.eSign => stateESign s c
  | Step.e0 => stateE0 s c
  | Step.t => stateLiteral 0x72 Step.tr "in literal true (expecting 'r')" s c
  | Step.tr => stateLiteral 0x75 Step.tru "in literal true (expecting 'u')" s c
  | Step.tru => stateLiteral 0x65 Step.endValue "in literal true (expecting 'e')" s c
  | Step.f => stateLiteral 0x61 Step.fa "in literal false (expecting 'a')" s c
  | Step.fa => stateLiteral 0x6c Step.fal "in literal false (expecting 'l')" s c
  | Step.fal => stateLiteral 0x73 Step.fals "in literal false (expecting 's')" s c
  | Step.fals => stateLiteral 0x65 Step.endValue "in literal false (expecting 'e')" s c
  | Step.n => stateLiteral 0x75 Step.nu "in literal null (expecting 'u')" s c
  | Step.nu => stateLiteral 0x6c Step.nul "in literal null (expecting 'l')" s c
  | Step.nul => stateLiteral 0x6c Step.endValue "in literal null (expecting 'l')" s c
  | Step.error => (s, ScanOp.scanError)

/-! ## `encoding/json`: values and `decodeState` (decode.go) -/

/-- What `Decode` stores into an `interface{}` (with `UseNumber`): `nil`,
`bool`, `json.Number` (the literal's text), `string`, `[]interface{}` and
`map[string]interface{}`.  A map is kept as an association list with one
entry per key. -/
inductive JValue
  | null
  | bool (b : Bool)
  | number (lit : List Byte)
  | string (s : List Byte)
  | array (xs : List JValue)
  | object (kvs : List (List Byte × JValue))
  deriving Repr

/-- A Go `map[string]interface{}`. -/
abbrev JMap := List (List Byte × JValue)

/-- `m[key]`, with the comma-ok result as an `Option`. -/
def JMap.get (m : JMap) (key : List Byte) : Option JValue := List.lookup key m

/-- `m[key] = v`. -/
def JMap.set : JMap → List Byte → JValue → JMap
  | [], key, v => [(key, v)]
  | (k, w) :: rest, key, v =>
    if k = key then (k, v) :: rest else (k, w) :: JMap.set rest key v

/-- Length of the well-formed UTF-8 sequence at the head of `s`, as
`utf8.DecodeRune` accepts it; `none` when `DecodeRune` gives
`(RuneError, 1)`. -/
def utf8SeqLen : List Byte → Option Nat
  | [] => none
  | b0 :: rest =>
    let cont (lo hi : Nat) (b : Byte) : Bool := lo ≤ b.val && b.val ≤ hi
    if b0.val < 0x80 then some 1
    else if 0xc2 ≤ b0.val && b0.val ≤ 0xdf then
      match rest with
      | b1 :: _ => if cont 0x80 0xbf b1 then some 2 else none
      | _ => none
    else if 0xe0 ≤ b0.val && b0.val ≤ 0xef then
      let lo := if b0.val = 0xe0 then 0xa0 else 0x80
      let hi := if b0.val = 0xed then 0x9f else 0xbf
      match rest with
      | b1 :: b2 :: _ => if cont lo hi b1 && cont 0x80 0xbf b2 then some 3 else none
      | _ => none
    else if 0xf0 ≤ b0.val && b0.val ≤ 0xf4 then
      let lo := if b0.val = 0xf0 then 0x90 else 0x80
      let hi := if b0.val = 0xf4 then 0x8f else 0xbf
      match rest with
      | b1 :: b2 :: b3 :: _ =>
        if cont lo hi b1 && cont 0x80 0xbf b2 && cont 0x80 0xbf b3 then some 4 else none
      | _ => none
    else none

/-- The UTF-8 encoding of `utf8.RuneError` (U+FFFD). -/
def runeErrorBytes : List Byte := [0xef, 0xbf, 0xbd]

/-- `utf8.EncodeRune`. -/
def encodeRune (r : Nat) : List Byte :=
  if r < 0x80 then [Fin.ofNat r]
  else if r < 0x800 then [Fin.ofNat (0xc0 + r / 64), Fin.ofNat (0x80 + r % 64)]
  else if (0xd800 ≤ r && r < 0xe000) || 0x10ffff < r then runeErrorBytes
  else if r < 0x10000 then
    [Fin.ofNat (0xe0 + r / 4096), Fin.ofNat (0x80 + r / 64 % 64), Fin.ofNat (0x80 + r % 64)]
  else
    [Fin.ofNat (0xf0 + r / 262144), Fin.ofNat (0x80 + r / 4096 % 64),
      Fin.ofNat (0x80 + r / 64 % 64), Fin.ofNat (0x80 + r % 64)]

/-- Value of a hexadecimal digit. -/
def hexVal (c : Byte) : Option Nat :=
  if 0x30 ≤ c.val && c.val ≤ 0x39 then some (c.val - 0x30)
  else if 0x61 ≤ c.val && c.val ≤ 0x66 then some (c.val - 0x61 + 10)
  else if 0x41 ≤ c.val && c.val ≤ 0x46 then some (c.val - 0x41 + 10)
  else none

/-- `getu4`: the rune of a leading `\uXXXX`, `none` for Go's `-1`. -/
def getu4 : List Byte → Option Nat
  | b :: u :: h1 :: h2 :: h3 :: h4 :: _ =>
    if b.val = 0x5c && u.val = 0x75 then
      match hexVal h1, hexVal h2, hexVal h3, hexVal h4 with
      | some a, some b, some c, some d => some (a * 4096 + b * 256 + c * 16 + d)
      | _, _, _, _ => none
    else none
  | _ => none

/-- `utf16.DecodeRune(r1, r2)`, with `none` standing for a missing second escape. -/
def utf16DecodeRune (r1 : Nat) (r2 : Option Nat) : Nat :=
  match r2 with
  | some r2 =>
    if 0xd800 ≤ r1 && r1 < 0xdc00 && 0xdc00 ≤ r2 && r2 < 0xe000 then
      (r1 - 0xd800) * 1024 + (r2 - 0xdc00) + 0x10000
    else 0xfffd
  | none => 0xfffd

/-- The body of `unquoteBytes`, on the text between the quotes: escapes are
resolved and ill-formed UTF-8 is coerced byte by byte to U+FFFD; `none` is Go's
`ok == false`. -/
def unquoteBody : Nat → List Byte → Option (List Byte)
  | _, [] => some []
  | 0, _ :: _ => none
  | fuel + 1, c :: cs =>
    if c.val = 0x5c then
      match cs with
      | [] => none
      | e :: rest =>
        let lit (b : Byte) : Option (List Byte) := (unquoteBody fuel rest).map (b :: ·)
        if e.val = 0x22 || e.val = 0x5c || e.val = 0x2f || e.val = 0x27 then lit e
        else if e.val = 0x62 then lit 0x08
        else if e.val = 0x66 then lit 0x0c
        else if e.val = 0x6e then lit 0x0a
        else if e.val = 0x72 then lit 0x0d
        else if e.val = 0x74 then lit 0x09
        else if e.val = 0x75 then
          match getu4 (c :: cs) with
          | none => none
          | some rr =>
            let after := cs.drop 5
            if 0xd800 ≤ rr && rr < 0xe000 then
              let dec := utf16DecodeRune rr (getu4 after)
              if dec ≠ 0xfffd then
                (unquoteBody fuel (after.drop 6)).map (encodeRune dec ++ ·)
              else (unquoteBody fuel after).map (encodeRune 0xfffd ++ ·)
            else (unquoteBody fuel after).map (encodeRune rr ++ ·)
        else none
    else if c.val = 0x22 || c.val < 0x20 then none
    else if c.val < 0x80 then (unquoteBody fuel cs).map (c :: ·)
    else
      match utf8SeqLen (c :: cs) with
      | some n => (unquoteBody fuel ((c :: cs).drop n)).map ((c :: cs).take n ++ ·)
      | none => (unquoteBody fuel cs).map (runeErrorBytes ++ ·)

/-- `unquote` / `unquoteBytes`: the Go string a quoted JSON string literal
stands for. -/
def unquote (item : List Byte) : Option (List Byte) :=
  match item with
  | q :: rest =>
    if q.val = 0x22 && rest.getLast? = some 0x22 then
      unquoteBody rest.length rest.dropLast
    else none
  | [] => none

/-- `rescanLiteral` on a string: the literal from its opening quote (already
taken) up to and including the closing quote, and what follows it. -/
def rescanString : List Byte → List Byte → Option (List Byte × List Byte)
  | _, [] => none
  | acc, c :: cs =>
    if c.val = 0x22 then some ((c :: acc).reverse, cs)
    else if c.val = 0x5c then
      match cs with
      | e :: rest => rescanString (e :: c :: acc) rest
      | [] => none
    else rescanString (c :: acc) cs

/-- The bytes `rescanLiteral` accepts inside a number. -/
def isNumberByte (c : Byte) : Bool :=
  isDigit c || c.val = 0x2e || c.val = 0x65 || c.val = 0x45 || c.val = 0x2b || c.val = 0x2d

/-- A quoted string at the head of the input (after white space), unquoted. -/
def parseString (s : List Byte) : Option (List Byte × List Byte) :=
  match s.dropWhile jsonIsSpace with
  | q :: cs =>
    if q.val = 0x22 then
      match rescanString [q] cs with
      | some (item, rest) => (unquote item).map (fun str => (str, rest))
      | none => none
    else none
  | [] => none

mutual
/-- `decodeState.valueInterface`: the value at the head of data that the
scanner has already validated, and the data after it.  `none` stands for
`panic(phasePanicMsg)`, and for running out of fuel; neither happens on a value
the scanner has delimited (`nextValue_unmarshal`). -/
def valueInterface : Nat → List Byte → Option (JValue × List Byte)
  | 0, _ => none
  | fuel + 1, s =>
    match s.dropWhile jsonIsSpace with
    | [] => none
    | c :: cs =>
      if c.val = 0x7b then
        match cs.dropWhile jsonIsSpace with
        | [] => none
        | c1 :: rest =>
          if c1.val = 0x7d then some (JValue.object [], rest)
          else objectInterface fuel (c1 :: rest) []
      else if c.val = 0x5b then
        match cs.dropWhile jsonIsSpace with
        | [] => none
        | c1 :: rest =>
          if c1.val = 0x5d then some (JValue.array [], rest)
          else arrayInterface fuel (c1 :: rest) []
      else if c.val = 0x22 then
        (parseString (c :: cs)).map (fun r => (JValue.string r.1, r.2))
      else if c.val = 0x6e then some (JValue.null, cs.drop 3)
      else if c.val = 0x74 then some (JValue.bool true, cs.drop 3)
      else if c.val = 0x66 then some (JValue.bool false, cs.drop 4)
      else if c.val = 0x2d || isDigit c then
        some (JValue.number (c :: cs.takeWhile isNumberByte), cs.dropWhile isNumberByte)
      else none
/-- `decodeState.objectInterface`, from the first key on: members are read
until the closing brace, each stored with `m[key] = value`. -/
def objectInterface : Nat → List Byte → JMap → Option (JValue × List Byte)
  | 0, _, _ => none
  | fuel + 1, s, m =>
    match parseString s with
    | none => none
    | some (key, afterKey) =>
      match afterKey.dropWhile jsonIsSpace with
      | [] => none
      | colon :: afterColon =>
        if colon.val ≠ 0x3a then none
        else match valueInterface fuel afterColon with
          | none => none
          | some (v, afterValue) =>
            match afterValue.dropWhile jsonIsSpace with
            | [] => none
            | sep :: rest =>
              if sep.val = 0x7d then some (JValue.object (m.set key v), rest)
              else if sep.val = 0x2c then objectInterface fuel rest (m.set key v)
              else none
/-- `decodeState.arrayInterface`, from the first element on. -/
def arrayInterface : Nat → List Byte → List JValue → Option (JValue × List Byte)
  | 0, _, _ => none
  | fuel + 1, s, acc =>
    match valueInterface fuel s with
    | none => none
    | some (v, afterValue) =>
      match afterValue.dropWhile jsonIsSpace with
      | [] => none
      | sep :: rest =>
        if sep.val = 0x5d then some (JValue.array (acc ++ [v]), rest)
        else if sep.val = 0x2c then arrayInterface fuel rest (acc ++ [v])
        else none
end

/-- `decodeState.unmarshal` into an `interface{}`: the value of the validated
bytes `data`. -/
def unmarshal (data : List Byte) : Except GoError JValue :=
  let item := data.dropWhile jsonIsSpace
  match valueInterface (2 * item.length + 2) item with
  | some (v, _) => Except.ok v
  | none => Except.error GoError.phase

/-! ## `encoding/json`: `Decoder.Decode` (stream.go) -/

/-- What `Decoder.readValue` found: `result` is the length of the next value
(leading white space included) or the error; `looked` counts the bytes the
scan had to have in the decoder's buffer, the end of the stream counting as one
more. -/
structure ReadValue where
  result : Except GoError Nat
  looked : Nat

/-- The scanning loop of `Decoder.readValue` over the unread bytes, refills
included: `n` bytes have been scanned so far; `nonSpace` is `nonSpace(dec.buf)`
for the moment the stream ends. -/
def readValue.loop (nonSpace : Bool) : scanner → List Byte → Nat → ReadValue
  | s, [], n =>
    if (s.doStep 0x20).2 = ScanOp.scanEnd then { result := Except.ok n, looked := n + 1 }
    else if nonSpace then { result := Except.error GoError.UnexpectedEOF, looked := n + 1 }
    else { result := Except.error GoError.EOF, looked := n + 1 }
  | s, c :: cs, n =>
    let r := s.doStep c
    match r.2 with
    | ScanOp.scanEnd => { result := Except.ok n, looked := n + 1 }
    | ScanOp.scanEndObject | ScanOp.scanEndArray =>
      let e := stateEndValue r.1 0x20
      if e.2 = ScanOp.scanEnd then { result := Except.ok (n + 1), looked := n + 1 }
      else readValue.loop nonSpace e.1 cs (n + 1)
    | ScanOp.scanError =>
      { result := Except.error (r.1.err.getD GoError.phase), looked := n + 1 }
    | _ => readValue.loop nonSpace r.1 cs (n + 1)

/-- `Decoder.readValue` on the unread stream (decoder buffer, then `rd`). -/
def readValue (stream : List Byte) : ReadValue :=
  readValue.loop (stream.any (fun c => !jsonIsSpace c)) scanner.reset stream 0

/-- The next value of a stream, as `readValue` delimits it: the value's bytes
(without the white space in front) and the stream after the value, or the
error of `readValue`. -/
def nextValue (stream : List Byte) : Except GoError (List Byte × List Byte) :=
  match (readValue stream).result with
  | Except.ok n => Except.ok ((stream.take n).dropWhile jsonIsSpace, stream.drop n)
  | Except.error e => Except.error e

/-- The value or error a `Decode` on a decoder without sticky error gives, as
a function of the unread stream. -/
def decodeResult (stream : List Byte) : Except GoError JValue :=
  match nextValue stream with
  | Except.ok (item, _) => unmarshal item
  | Except.error e => Except.error e

/-- The stream `s` carries the JSON values `values` one after the other (each
given by its bytes, white space between them dropped) and then `post`. -/
def carries : List Byte → List (List Byte) → List Byte → Bool
  | s, [], post => s = post
  | s, v :: vs, post =>
    match nextValue s with
    | Except.ok (item, rest) => item = v && carries rest vs post
    | Except.error _ => false

/-- The bytes of a value decode: `unmarshal` builds a value from them. -/
def decodes (item : List Byte) : Bool :=
  match unmarshal item with
  | Except.ok _ => true
  | Except.error _ => false

/-- The map a reply decodes to: what `v` holds after `Decode(&v)` on the bytes
of the reply. -/
def replyMap (reply : List Byte) : JMap :=
  match unmarshal reply with
  | Except.ok (JValue.object m) => m
  | _ => []

/-! ### What the scanner accepts, for the agreement of scanner and builder -/

/-- The scan from state `s`, with `k` bytes scanned before, reads all of `w`
and ends exactly at its end. -/
def ScansAll (ns : Bool) (s : scanner) (w : List Byte) (k : Nat) : Prop :=
  (readValue.loop ns s w k).result = Except.ok (k + w.length)

/-- The state is one a value has just ended in: every byte that cannot continue
a number is handled by `stateEndValue`. -/
def EndState (s : scanner) : Prop :=
  ∀ c, isNumberByte c = false → s.doStep c = stateEndValue s c

/-- The scanner is inside a number. -/
def isNumStep (st : Step) : Bool :=
  st = Step.neg || st = Step.zero || st = Step.one || st = Step.dot || st = Step.dot0
    || st = Step.e || st = Step.eSign || st = Step.e0

/-- The scanner is inside a number that may end here. -/
def isEndNumStep (st : Step) : Bool :=
  st = Step.zero || st = Step.one || st = Step.dot0 || st = Step.e0

/-- The escapes the scanner accepts after a backslash, `u` apart. -/
def isSimpleEsc (e : Byte) : Bool :=
  e.val = 0x62 || e.val = 0x66 || e.val = 0x6e || e.val = 0x72 || e.val = 0x74
    || e.val = 0x5c || e.val = 0x2f || e.val = 0x22

/-- The text between the quotes of a string literal the scanner accepts. -/
inductive StrBody : List Byte → Prop
  | nil : StrBody []
  | char (c : Byte) (rest : List Byte) : c.val ≠ 0x22 → c.val ≠ 0x5c → 0x20 ≤ c.val →
      StrBody rest → StrBody (c :: rest)
  | esc (e : Byte) (rest : List Byte) : isSimpleEsc e = true → StrBody rest →
      StrBody (0x5c :: e :: rest)
  | uni (h1 h2 h3 h4 : Byte) (rest : List Byte) : isHex h1 = true → isHex h2 = true →
      isHex h3 = true → isHex h4 = true → StrBody rest →
      StrBody (0x5c :: 0x75 :: h1 :: h2 :: h3 :: h4 :: rest)

/-- What follows a value that was scanned with the stack `π` of enclosing
values: nothing when the value is the top-level one, otherwise bytes the
scanner reads to their end from `stateEndValue` with the same stack. -/
def AfterValue (ns : Bool) (π : List ParseState) (w : List Byte) : Prop :=
  (π = [] ∧ w = []) ∨ (π ≠ [] ∧ ∃ s : scanner, s.step = Step.endValue ∧ s.parseState = π
    ∧ ScansAll ns s w 0)

/-- With `fuel`, `valueInterface` builds every value the scanner accepts at the
head of an input of less than `fuel / 2` bytes, and stops where the scanner
ends the value. -/
def ValueOk (ns : Bool) (fuel : Nat) : Prop :=
  ∀ (w : List Byte) (s : scanner), s.step = Step.beginValue → ScansAll ns s w 0 →
    2 * w.length < fuel →
    ∃ v w', valueInterface fuel w = some (v, w') ∧ w'.length < w.length
      ∧ AfterValue ns s.parseState w'

/-- With `fuel`, `objectInterface` builds the object whose members, from the
first key on, the scanner accepts. -/
def ObjectOk (ns : Bool) (fuel : Nat) : Prop :=
  ∀ (w : List Byte) (s : scanner) (π : List ParseState) (m : JMap),
    s.step = Step.beginString → s.parseState = ParseState.parseObjectKey :: π →
    ScansAll ns s w 0 → 2 * w.length + 1 < fuel →
    ∃ v w', objectInterface fuel w m = some (v, w') ∧ w'.length < w.length
      ∧ AfterValue ns π w'

/-- With `fuel`, `arrayInterface` builds the array whose elements, from the
first one on, the scanner accepts. -/
def ArrayOk (ns : Bool) (fuel : Nat) : Prop :=
  ∀ (w : List Byte) (s : scanner) (π : List ParseState) (acc : List JValue),
    s.step = Step.beginValue → s.parseState = ParseState.parseArrayValue :: π →
    ScansAll ns s w 0 → 2 * w.length + 1 < fuel →
    ∃ v w', arrayInterface fuel w acc = some (v, w') ∧ w'.length < w.length
      ∧ AfterValue ns π w'

/-- The scanner is not waiting for the first element of an array that was
never opened. -/
def Good (s : scanner) : Prop := s.step = Step.beginValueOrEmpty → s.parseState ≠ []

/-- `func (dec *Decoder) Decode(v any) error` with `v` a `*interface{}`: the
stored value or the error, and the state afterwards.

The value read is decided by the unread stream alone.  The chunking of the
reads only decides how many bytes end up in the decoder's buffer: none are read
when the scan ends inside the buffer, otherwise everything the scan looked at
plus the next `ahead` figure. -/
def Decode (d : peekingDecoder) : Except GoError JValue × peekingDecoder :=
  match d.err with
  | some e => (Except.error e, d)
  | none =>
    let stream := d.buf ++ d.rd
    let r := readValue stream
    let refilled : Bool := d.buf.length < r.looked
    let inBuf := if refilled then min stream.length (r.looked + d.ahead.headD 0)
      else d.buf.length
    let ahead := if refilled then d.ahead.tail else d.ahead
    match r.result with
    | Except.error e =>
      (Except.error e,
        { buf := stream.take inBuf, err := some e, rd := stream.drop inBuf, ahead := ahead })
    | Except.ok n =>
      (unmarshal (stream.take n),
        { buf := (stream.take inBuf).drop n, err := none, rd := stream.drop inBuf,
          ahead := ahead })

/-- `Decode(&v)` with `var v map[string]interface{}` (a nil map): the map `v`
holds afterwards, the returned error, and the state afterwards.  An object
fills the map, `null` leaves it nil, any other value is an
`UnmarshalTypeError`; a stream error leaves `v` untouched. -/
def DecodeMap (d : peekingDecoder) : (JMap × Option GoError) × peekingDecoder :=
  let r := Decode d
  let goType := "map[string]interface {}"
  match r.1 with
  | Except.error e => (([], some e), r.2)
  | Except.ok (JValue.object m) => ((m, none), r.2)
  | Except.ok JValue.null => (([], none), r.2)
  | Except.ok (JValue.bool _) => (([], some (GoError.unmarshalType "bool" goType)), r.2)
  | Except.ok (JValue.number _) => (([], some (GoError.unmarshalType "number" goType)), r.2)
  | Except.ok (JValue.string _) => (([], some (GoError.unmarshalType "string" goType)), r.2)
  | Except.ok (JValue.array _) => (([], some (GoError.unmarshalType "array" goType)), r.2)

/-! ## main.go: the subscription handshake -/

/-- How a Go function call ends: it returns its `error` result (`none` is
`nil`), or a run-time panic aborts it. -/
inductive Outcome
  | returned (err : Option GoError)
  | panicked (what : String)
  deriving DecidableEq, Repr

/-- How the skipping loop of `readResult` ends: `reply` is the `break` on a
peeked `{`, `fail e` is one of the two `return err`. -/
inductive LoopExit
  | reply
  | fail (e : GoError)
  | outOfFuel
  deriving DecidableEq, Repr

/-- The first `for` loop of `readResult`: peek; return on an error; stop on
`{`; otherwise decode one value into `ignore` and go round again. -/
def readResult.loop : Nat → peekingDecoder → LoopExit × peekingDecoder
  | 0, d => (LoopExit.outOfFuel, d)
  | fuel + 1, d =>
    let nb := NextByte d
    match nb.1.2 with
    | some e => (LoopExit.fail e, nb.2)
    | none =>
      if nb.1.1.val = 0x7b then (LoopExit.reply, nb.2)
      else
        let dec := Decode nb.2
        match dec.1 with
        | Except.error e => (LoopExit.fail e, dec.2)
        | Except.ok _ => readResult.loop fuel dec.2

/-- The end of `readResult`, once `pr.Decode(&v)` has run (its error is not
looked at): `v["error"]`, then the two unchecked type assertions
`err.(map[string]interface{})["message"].(string)`. -/
def readResult.reply (v : JMap) : Outcome :=
  match JMap.get v (bytesOf "error") with
  | none => Outcome.returned none
  | some (JValue.object e) =>
    match JMap.get e (bytesOf "message") with
    | some (JValue.string m) => Outcome.returned (some (GoError.new m))
    | _ => Outcome.panicked "interface conversion: interface {} is not string"
  | some _ =>
    Outcome.panicked "interface conversion: interface {} is not map[string]interface {}"

/-- `func readResult(pr *peekingDecoder) error`, and the state afterwards.
The skipping loop is given one round more than there are unread bytes, which
it cannot use up (`readResult_loop_fuel`). -/
def readResult (pr : peekingDecoder) : Outcome × peekingDecoder :=
  let l := readResult.loop (pr.remaining.length + 1) pr
  match l.1 with
  | LoopExit.fail e => (Outcome.returned (some e), l.2)
  | LoopExit.outOfFuel => (Outcome.panicked "unreachable", l.2)
  | LoopExit.reply =>
    let dec := DecodeMap l.2
    (readResult.reply dec.1.1, dec.2)

/-- `subscribeSessions`, `subscribeSubscribers` and `subscribeGroups`: write
the request line with `fmt.Fprintln` (`writeErr` is what the write returns),
then `readResult`. -/
def subscribe (writeErr : Option GoError) (pr : peekingDecoder) : Outcome × peekingDecoder :=
  match writeErr with
  | some e => (Outcome.returned (some e), pr)
  | none => readResult pr

/-- `subscribeSessions(conn, pr)`. -/
def subscribeSessions := subscribe

/-- `subscribeSubscribers(conn, pr)`. -/
def subscribeSubscribers := subscribe

/-- `subscribeGroups(conn, pr)`. -/
def subscribeGroups := subscribe

/-! ## `encoding/json`: `MarshalIndent` (encode.go, indent.go) -/

/-- `strings.Compare(x, y) < 0`: byte-wise lexicographic order of Go strings. -/
def strLess : List Byte → List Byte → Bool
  | [], [] => false
  | [], _ :: _ => true
  | _ :: _, [] => false
  | x :: xs, y :: ys => if x.val < y.val then true else if y.val < x.val then false
    else strLess xs ys

/-- Insert one rendered member at its place among members sorted by key. -/
def insertByKey (kv : List Byte × List Byte) : List (List Byte × List Byte) →
    List (List Byte × List Byte)
  | [] => [kv]
  | x :: rest => if strLess kv.1 x.1 then kv :: x :: rest else x :: insertByKey kv rest

/-- Sort rendered members by key, as the encoder sorts the keys of a map. -/
def sortByKey (kvs : List (List Byte × List Byte)) : List (List Byte × List Byte) :=
  kvs.foldr insertByKey []

/-- The digit of `"0123456789abcdef"` at index `n`. -/
def hexDigit (n : Nat) : Byte := Fin.ofNat (if n < 10 then 0x30 + n else 0x61 + (n - 10))

/-- The body of `appendString(dst, src, escapeHTML = true)`, between the quotes. -/
def appendString.body : Nat → List Byte → List Byte
  | _, [] => []
  | 0, _ :: _ => []
  | fuel + 1, b :: rest =>
    if b.val < 0x80 then
      let tail := appendString.body fuel rest
      if b.val = 0x5c || b.val = 0x22 then 0x5c :: b :: tail
      else if b.val = 0x08 then 0x5c :: 0x62 :: tail
      else if b.val = 0x0c then 0x5c :: 0x66 :: tail
      else if b.val = 0x0a then 0x5c :: 0x6e :: tail
      else if b.val = 0x0d then 0x5c :: 0x72 :: tail
      else if b.val = 0x09 then 0x5c :: 0x74 :: tail
      else if b.val < 0x20 || b.val = 0x3c || b.val = 0x3e || b.val = 0x26 then
        0x5c :: 0x75 :: 0x30 :: 0x30 :: hexDigit (b.val / 16) :: hexDigit (b.val % 16) :: tail
      else b :: tail
    else
      match utf8SeqLen (b :: rest) with
      | none => bytesOf "\\ufffd" ++ appendString.body fuel rest
      | some n =>
        let seq := (b :: rest).take n
        let tail := appendString.body fuel ((b :: rest).drop n)
        if seq = [0xe2, 0x80, 0xa8] then bytesOf "\\u2028" ++ tail
        else if seq = [0xe2, 0x80, 0xa9] then bytesOf "\\u2029" ++ tail
        else seq ++ tail

/-- `appendString(dst, src, true)`: the quoted JSON string for a Go string. -/
def appendString (src : List Byte) : List Byte :=
  0x22 :: (appendString.body src.length src ++ [0x22])

/-- Drop a run of digits. -/
def dropDigits (s : List Byte) : List Byte := s.dropWhile isDigit

/-- `isValidNumber`: the encoder's check of a `json.Number`. -/
def isValidNumber (s : List Byte) : Bool :=
  let s1 := match s with
    | c :: rest => if c.val = 0x2d then rest else s
    | [] => s
  match s1 with
  | [] => false
  | c :: rest =>
    if c.val = 0x30 || isDigit19 c then
      let s2 := if c.val = 0x30 then rest else dropDigits rest
      let s3 := match s2 with
        | p :: d :: more => if p.val = 0x2e && isDigit d then dropDigits more else s2
        | _ => s2
      let s4 := match s3 with
        | e :: x :: more =>
          if e.val = 0x65 || e.val = 0x45 then
            if x.val = 0x2b || x.val = 0x2d then
              (if more = [] then none else some (dropDigits more))
            else some (dropDigits (x :: more))
          else some s3
        | _ => some s3
      s4 = some []
    else false

mutual
/-- Can the encoder write the value: every `json.Number` in it is a valid
number literal (the empty one is written as `0`). -/
def marshalOk : JValue → Bool
  | JValue.number lit => lit = [] || isValidNumber lit
  | JValue.array xs => marshalOkList xs
  | JValue.object kvs => marshalOkMembers kvs
  | _ => true
/-- `marshalOk` for every element of an array. -/
def marshalOkList : List JValue → Bool
  | [] => true
  | x :: xs => marshalOk x && marshalOkList xs
/-- `marshalOk` for every member of a map. -/
def marshalOkMembers : List (List Byte × JValue) → Bool
  | [] => true
  | (_, v) :: rest => marshalOk v && marshalOkMembers rest
end

/-- `appendNewline(dst, prefix = "", indent = "  ", depth)`. -/
def appendNewline (depth : Nat) : List Byte := 0x0a :: List.replicate (2 * depth) 0x20

/-- Join rendered items with `,` and a new line at `depth`. -/
def joinItems (depth : Nat) : List (List Byte) → List Byte
  | [] => []
  | [x] => x
  | x :: y :: rest => x ++ 0x2c :: appendNewline depth ++ joinItems depth (y :: rest)

mutual
/-- The indented encoding of a value at nesting `depth`: what `Marshal`
followed by `Indent(prefix = "", indent = "  ")` writes. -/
def encodeIndent : Nat → JValue → List Byte
  | _, JValue.null => bytesOf "null"
  | _, JValue.bool true => bytesOf "true"
  | _, JValue.bool false => bytesOf "false"
  | _, JValue.number lit => if lit = [] then bytesOf "0" else lit
  | _, JValue.string s => appendString s
  | depth, JValue.array xs =>
    match encodeElems (depth + 1) xs with
    | [] => bytesOf "[]"
    | items => 0x5b :: appendNewline (depth + 1) ++ joinItems (depth + 1) items
        ++ appendNewline depth ++ [0x5d]
  | depth, JValue.object kvs =>
    match sortByKey (encodeMembers (depth + 1) kvs) with
    | [] => bytesOf "{}"
    | members =>
      0x7b :: appendNewline (depth + 1)
        ++ joinItems (depth + 1) (members.map (fun kv => appendString kv.1 ++ 0x3a :: 0x20 :: kv.2))
        ++ appendNewline depth ++ [0x7d]
/-- The encodings of the elements of an array. -/
def encodeElems : Nat → List JValue → List (List Byte)
  | _, [] => []
  | depth, x :: xs => encodeIndent depth x :: encodeElems depth xs
/-- The members of a map, each key with the encoding of its value. -/
def encodeMembers : Nat → List (List Byte × JValue) → List (List Byte × List Byte)
  | _, [] => []
  | depth, (k, v) :: rest => (k, encodeIndent depth v) :: encodeMembers depth rest
end

/-- `json.MarshalIndent(m, "", "  ")` for a (non-nil) map `m`: the bytes, or
`none` when the encoder reports an error (then the returned slice is nil). -/
def MarshalIndent (m : JMap) : Option (List Byte) :=
  if marshalOk (JValue.object m) then some (encodeIndent 0 (JValue.object m)) else none

/-! ## `go-difflib`: `SequenceMatcher` and `WriteUnifiedDiff` -/

/-- A line of text. -/
abbrev Line := List Byte

/-- `difflib.SplitLines`: split after every `\n`, then append `\n` to the last
piece. -/
def SplitLines : List Byte → List Line
  | [] => [[0x0a]]
  | c :: cs =>
    if c.val = 0x0a then [c] :: SplitLines cs
    else match SplitLines cs with
      | l :: ls => (c :: l) :: ls
      | [] => [[c]]

/-- `difflib.Match`. -/
structure Match where
  A : Nat
  B : Nat
  Size : Nat
  deriving DecidableEq, Repr

/-- The tag of an `OpCode`: `'r'`, `'d'`, `'i'`, `'e'`. -/
inductive Tag
  | replace | delete | insert | equal
  deriving DecidableEq, Repr

/-- The value a Go `int` holds when the exact result of an addition or a
subtraction is `x`: an `int` is 64 bits wide and wraps around. -/
def wrapInt (x : Int) : Int :=
  (x + 9223372036854775808) % 18446744073709551616 - 9223372036854775808

/-- `difflib.OpCode`; the four positions are Go `int`s. -/
structure OpCode where
  Tag : Tag
  I1 : Int
  I2 : Int
  J1 : Int
  J2 : Int
  deriving DecidableEq, Repr

/-- The indices `j` of `b` (from `start` on, ascending) with `b[j] == line`. -/
def indicesOf (line : Line) : List Line → Nat → List Nat
  | [], _ => []
  | x :: xs, start =>
    if x = line then start :: indicesOf line xs (start + 1) else indicesOf line xs (start + 1)

/-- `m.b2j[line]` after `chainB` (with `IsJunk == nil` and `autoJunk`): the
indices of `line` in `b`, or nothing when `b` has at least 200 lines and the
line occurs more than `len(b)/100 + 1` times (a "popular" line). -/
def b2j (b : List Line) (line : Line) : List Nat :=
  let indices := indicesOf line b 0
  if 200 ≤ b.length && b.length / 100 + 1 < indices.length then [] else indices

/-- `j2len[j-1]`, zero when absent. -/
def j2lenPrev (j2len : List (Nat × Nat)) (j : Nat) : Nat :=
  match j with
  | 0 => 0
  | j + 1 => (List.lookup j j2len).getD 0

/-- The inner loop of `findLongestMatch` for one `i`: run through the indices
`j` of `a[i]` in `b`, keeping `newj2len` and the best match so far. -/
def findLongestMatch.inner (blo bhi i : Nat) (j2len : List (Nat × Nat)) :
    List Nat → List (Nat × Nat) → Match → List (Nat × Nat) × Match
  | [], newj2len, best => (newj2len, best)
  | j :: js, newj2len, best =>
    if j < blo then findLongestMatch.inner blo bhi i j2len js newj2len best
    else if bhi ≤ j then (newj2len, best)
    else
      let k := j2lenPrev j2len j + 1
      let best1 := if best.Size < k then { A := i + 1 - k, B := j + 1 - k, Size := k } else best
      findLongestMatch.inner blo bhi i j2len js ((j, k) :: newj2len) best1

/-- `m.b2j[a[i]]`: the indices in `b` of the line `a[i]`. -/
def b2jAt (a b : List Line) (i : Nat) : List Nat :=
  match a[i]? with
  | some line => b2j b line
  | none => []

/-- The outer loop of `findLongestMatch`: `i` runs over the next `count`
indices of `a`. -/
def findLongestMatch.outer (a b : List Line) (blo bhi : Nat) :
    Nat → Nat → List (Nat × Nat) → Match → Match
  | 0, _, _, best => best
  | count + 1, i, j2len, best =>
    let r := findLongestMatch.inner blo bhi i j2len (b2jAt a b i) [] best
    findLongestMatch.outer a b blo bhi count (i + 1) r.1 r.2

/-- `a[i] == b[j]`, for lines that exist. -/
def sameLine (a b : List Line) (i j : Nat) : Bool :=
  match a[i]?, b[j]? with
  | some x, some y => x = y
  | _, _ => false

/-- First extension loop of `findLongestMatch`: grow the match to the left
while the lines before it are equal. -/
def findLongestMatch.extendLeft (a b : List Line) (alo blo : Nat) : Nat → Match → Match
  | 0, m => m
  | fuel + 1, m =>
    if alo < m.A && blo < m.B && sameLine a b (m.A - 1) (m.B - 1) then
      findLongestMatch.extendLeft a b alo blo fuel { A := m.A - 1, B := m.B - 1, Size := m.Size + 1 }
    else m

/-- Second extension loop of `findLongestMatch`: grow the match to the right
while the lines after it are equal. -/
def findLongestMatch.extendRight (a b : List Line) (ahi bhi : Nat) : Nat → Match → Match
  | 0, m => m
  | fuel + 1, m =>
    if m.A + m.Size < ahi && m.B + m.Size < bhi && sameLine a b (m.A + m.Size) (m.B + m.Size) then
      findLongestMatch.extendRight a b ahi bhi fuel { m with Size := m.Size + 1 }
    else m

/-- `SequenceMatcher.findLongestMatch(alo, ahi, blo, bhi)`.  With no junk
function the two junk-extension loops never run. -/
def findLongestMatch (a b : List Line) (alo ahi blo bhi : Nat) : Match :=
  let best := findLongestMatch.outer a b blo bhi (ahi - alo) alo []
    { A := alo, B := blo, Size := 0 }
  let left := findLongestMatch.extendLeft a b alo blo best.A best
  findLongestMatch.extendRight a b ahi bhi ahi left

/-- The recursive `matchBlocks` of `GetMatchingBlocks`. -/
def matchBlocks (a b : List Line) : Nat → Nat → Nat → Nat → Nat → List Match → List Match
  | 0, _, _, _, _, matched => matched
  | fuel + 1, alo, ahi, blo, bhi, matched =>
    let m := findLongestMatch a b alo ahi blo bhi
    if 0 < m.Size then
      let m1 := if alo < m.A && blo < m.B then matchBlocks a b fuel alo m.A blo m.B matched
        else matched
      let m2 := m1 ++ [m]
      if m.A + m.Size < ahi && m.B + m.Size < bhi then
        matchBlocks a b fuel (m.A + m.Size) ahi (m.B + m.Size) bhi m2
      else m2
    else matched

/-- The merging loop of `GetMatchingBlocks`: adjacent blocks are collapsed;
`cur` is `(i1, j1, k1)`. -/
def mergeAdjacent : List Match → Match → List Match
  | [], cur => if 0 < cur.Size then [cur] else []
  | blk :: rest, cur =>
    if cur.A + cur.Size = blk.A && cur.B + cur.Size = blk.B then
      mergeAdjacent rest { cur with Size := cur.Size + blk.Size }
    else if 0 < cur.Size then cur :: mergeAdjacent rest blk
    else mergeAdjacent rest blk

/-- `SequenceMatcher.GetMatchingBlocks`. -/
def GetMatchingBlocks (a b : List Line) : List Match :=
  let matched := matchBlocks a b (a.length + 1) 0 a.length 0 b.length []
  mergeAdjacent matched { A := 0, B := 0, Size := 0 }
    ++ [{ A := a.length, B := b.length, Size := 0 }]

/-- The loop of `GetOpCodes` over the matching blocks, from position `(i, j)`. -/
def GetOpCodes.loop : List Match → Nat → Nat → List OpCode
  | [], _, _ => []
  | m :: rest, i, j =>
    let change : List OpCode :=
      if i < m.A && j < m.B then [{ Tag := Tag.replace, I1 := i, I2 := m.A, J1 := j, J2 := m.B }]
      else if i < m.A then [{ Tag := Tag.delete, I1 := i, I2 := m.A, J1 := j, J2 := m.B }]
      else if j < m.B then [{ Tag := Tag.insert, I1 := i, I2 := m.A, J1 := j, J2 := m.B }]
      else []
    let same : List OpCode :=
      if 0 < m.Size then
        [{ Tag := Tag.equal, I1 := m.A, I2 := m.A + m.Size, J1 := m.B, J2 := m.B + m.Size }]
      else []
    change ++ same ++ GetOpCodes.loop rest (m.A + m.Size) (m.B + m.Size)

/-- `SequenceMatcher.GetOpCodes`. -/
def GetOpCodes (a b : List Line) : List OpCode := GetOpCodes.loop (GetMatchingBlocks a b) 0 0

/-- The fix-up of a leading `equal` opcode in `GetGroupedOpCodes`: it is
trimmed to its last `n` lines (`max(i1, i2-n)`, in `int` arithmetic). -/
def trimFirst (n : Int) : List OpCode → List OpCode
  | [] => []
  | c :: rest =>
    if c.Tag = Tag.equal then
      { c with I1 := max c.I1 (wrapInt (c.I2 - n)), J1 := max c.J1 (wrapInt (c.J2 - n)) } :: rest
    else c :: rest

/-- The fix-up of a trailing `equal` opcode in `GetGroupedOpCodes`: it is
trimmed to its first `n` lines (`min(i2, i1+n)`, in `int` arithmetic). -/
def trimLast (n : Int) : List OpCode → List OpCode
  | [] => []
  | [c] =>
    if c.Tag = Tag.equal then
      [{ c with I2 := min c.I2 (wrapInt (c.I1 + n)), J2 := min c.J2 (wrapInt (c.J1 + n)) }]
    else [c]
  | c :: d :: rest => c :: trimLast n (d :: rest)

/-- The grouping loop of `GetGroupedOpCodes`, with `nn := n + n`: `group` is
the group being built; the result is the finished groups and the last group.
The test is `c.Tag == 'e' && i2-i1 > nn`. -/
def GetGroupedOpCodes.loop (n nn : Int) :
    List OpCode → List OpCode → List (List OpCode) × List OpCode
  | [], group => ([], group)
  | c :: rest, group =>
    if c.Tag = Tag.equal && decide (nn < wrapInt (c.I2 - c.I1)) then
      let closed := group ++
        [{ c with I2 := min c.I2 (wrapInt (c.I1 + n)), J2 := min c.J2 (wrapInt (c.J1 + n)) }]
      let r := GetGroupedOpCodes.loop n nn rest
        [{ c with I1 := max c.I1 (wrapInt (c.I2 - n)), J1 := max c.J1 (wrapInt (c.J2 - n)) }]
      (closed :: r.1, r.2)
    else GetGroupedOpCodes.loop n nn rest (group ++ [c])

/-- `SequenceMatcher.GetGroupedOpCodes(n)`, `n` a Go `int`: a negative `n`
becomes 3, and `n + n` and the sums `i1 + n`, `j1 + n` wrap around. -/
def GetGroupedOpCodes (a b : List Line) (n : Int) : List (List OpCode) :=
  let n : Int := if n < 0 then 3 else n
  let codes := GetOpCodes a b
  let codes := if codes = [] then [{ Tag := Tag.equal, I1 := 0, I2 := 1, J1 := 0, J2 := 1 }]
    else codes
  let codes := trimLast n (trimFirst n codes)
  let r := GetGroupedOpCodes.loop n (wrapInt (n + n)) codes []
  if 0 < r.2.length && !(r.2.length = 1 && (r.2.map (fun c => c.Tag)) = [Tag.equal]) then
    r.1 ++ [r.2]
  else r.1

/-- The decimal digits of an `int`, as `fmt.Sprintf("%d", n)` writes them. -/
def decimal (n : Int) : List Byte := bytesOf (toString n)

/-- `formatRangeUnified(start, stop)`. -/
def formatRangeUnified (start stop : Int) : List Byte :=
  let beginning := wrapInt (start + 1)
  let length := wrapInt (stop - start)
  if length = 1 then decimal beginning
  else
    let beginning := if length = 0 then wrapInt (beginning - 1) else beginning
    decimal beginning ++ 0x2c :: decimal length

/-- `difflib.UnifiedDiff`, with the fields `printEventWithDiff` sets (the
dates are empty and `Eol` takes its default `"\n"`). -/
structure UnifiedDiff where
  A : List Line
  B : List Line
  FromFile : List Byte
  ToFile : List Byte
  Context : Int

/-- The slice expression `a[i1:i2]` on a slice whose capacity is its length,
as the slices `SplitLines` returns are: `none` is the run-time panic `slice
bounds out of range`. -/
def sliceLines (a : List Line) (i1 i2 : Int) : Option (List Line) :=
  if 0 ≤ i1 ∧ i1 ≤ i2 ∧ i2 ≤ (a.length : Int) then some ((a.take i2.toNat).drop i1.toNat)
  else none

/-- The lines `a[i1:i2]`, each with `mark` in front, concatenated; `none` when
the slice expression panics. -/
def markedLines (mark : Byte) (a : List Line) (i1 i2 : Int) : Option (List Byte) :=
  (sliceLines a i1 i2).map (fun ls => (ls.map (fun line => mark :: line)).flatten)

/-- What `WriteUnifiedDiff` writes for one opcode of a group; `none` when a
slice expression panics. -/
def writeOpCode (diff : UnifiedDiff) (c : OpCode) : Option (List Byte) :=
  if c.Tag = Tag.equal then markedLines 0x20 diff.A c.I1 c.I2
  else
    match (if c.Tag = Tag.replace || c.Tag = Tag.delete then
        markedLines 0x2d diff.A c.I1 c.I2 else some []) with
    | none => none
    | some removed =>
      match (if c.Tag = Tag.replace || c.Tag = Tag.insert then
          markedLines 0x2b diff.B c.J1 c.J2 else some []) with
      | none => none
      | some added => some (removed ++ added)

/-- What `WriteUnifiedDiff` writes for the opcodes of a group, one after the
other. -/
def writeOpCodes (diff : UnifiedDiff) : List OpCode → Option (List Byte)
  | [] => some []
  | c :: rest =>
    match writeOpCode diff c with
    | none => none
    | some text => (writeOpCodes diff rest).map (fun more => text ++ more)

/-- What `WriteUnifiedDiff` writes for one group: the `@@` line and the
group's lines (`g[0]` panics on an empty group). -/
def writeGroup (diff : UnifiedDiff) (g : List OpCode) : Option (List Byte) :=
  match g.head?, g.getLast? with
  | some first, some last =>
    (writeOpCodes diff g).map (fun body =>
      bytesOf "@@ -" ++ formatRangeUnified first.I1 last.I2 ++ bytesOf " +"
        ++ formatRangeUnified first.J1 last.J2 ++ bytesOf " @@\n" ++ body)
  | _, _ => none

/-- What `WriteUnifiedDiff` writes for the groups, one after the other. -/
def writeGroups (diff : UnifiedDiff) : List (List OpCode) → Option (List Byte)
  | [] => some []
  | g :: rest =>
    match writeGroup diff g with
    | none => none
    | some text => (writeGroups diff rest).map (fun more => text ++ more)

/-- The two header lines `WriteUnifiedDiff` writes before the first group. -/
def writeHeader (diff : UnifiedDiff) : List Byte :=
  if diff.FromFile ≠ [] || diff.ToFile ≠ [] then
    bytesOf "--- " ++ diff.FromFile ++ [0x0a] ++ bytesOf "+++ " ++ diff.ToFile ++ [0x0a]
  else []

/-- `difflib.WriteUnifiedDiff` into a `bytes.Buffer`: the header before the
first group, then every group; nothing at all when there is no group; `none`
when a slice expression panics. -/
def WriteUnifiedDiff (diff : UnifiedDiff) : Option (List Byte) :=
  match GetGroupedOpCodes diff.A diff.B diff.Context with
  | [] => some []
  | groups => (writeGroups diff groups).map (fun body => writeHeader diff ++ body)

/-- `difflib.GetUnifiedDiffString`: the text and the error of
`WriteUnifiedDiff`; writing into a `bytes.Buffer` never fails.  `none` when
`WriteUnifiedDiff` panics. -/
def GetUnifiedDiffString (diff : UnifiedDiff) : Option (List Byte × Option GoError) :=
  (WriteUnifiedDiff diff).map (fun text => (text, none))

/-! ### What a match of the sequence matcher is -/

/-- The lines of a match are pairwise equal. -/
def Match.Sound (a b : List Line) (m : Match) : Prop :=
  ∀ t, t < m.Size → sameLine a b (m.A + t) (m.B + t) = true

/-- A run of `k` equal lines ends at `a[i]` and `b[j]`. -/
def EndsAt (a b : List Line) (i j k : Nat) : Prop :=
  k ≤ i + 1 ∧ k ≤ j + 1 ∧ ∀ t, t < k → sameLine a b (i - t) (j - t) = true

/-- The runs recorded in `j2len` while the outer loop is at `i`: they end at
`a[i-1]`. -/
def J2lenOk (a b : List Line) (i : Nat) (j2len : List (Nat × Nat)) : Prop :=
  ∀ p ∈ j2len, 1 ≤ i ∧ EndsAt a b (i - 1) p.1 p.2

/-- The match lies inside the ranges `a[alo:ahi]` and `b[blo:bhi]`. -/
def Match.Within (alo ahi blo bhi : Nat) (m : Match) : Prop :=
  alo ≤ m.A ∧ m.A + m.Size ≤ ahi ∧ blo ≤ m.B ∧ m.B + m.Size ≤ bhi

/-- The runs recorded in `j2len` while the outer loop is at `i` end inside
`b[blo:bhi]` and are no longer than the rows and columns looked at so far. -/
def J2lenIn (alo blo bhi i : Nat) (j2len : List (Nat × Nat)) : Prop :=
  ∀ p ∈ j2len, blo ≤ p.1 ∧ p.1 < bhi ∧ p.2 + alo ≤ i ∧ p.2 + blo ≤ p.1 + 1

/-- The blocks come in increasing order from `(i, j)` on, none overlapping the
one before, and end within `(ahi, bhi)`. -/
def Ordered : Nat → Nat → Nat → Nat → List Match → Prop
  | i, j, ahi, bhi, [] => i ≤ ahi ∧ j ≤ bhi
  | i, j, ahi, bhi, m :: rest =>
    i ≤ m.A ∧ j ≤ m.B ∧ Ordered (m.A + m.Size) (m.B + m.Size) ahi bhi rest

/-- The two ranges of the opcode are ranges of sequences of `la` and `lb`
lines. -/
def OpCode.InRange (la lb : Nat) (c : OpCode) : Prop :=
  0 ≤ c.I1 ∧ c.I1 ≤ c.I2 ∧ c.I2 ≤ la ∧ 0 ≤ c.J1 ∧ c.J1 ≤ c.J2 ∧ c.J2 ≤ lb

/-! ## main.go: the diff renderer -/

/-- The value of a comma-ok type assertion `x.(string)` on `m[key]`. -/
def asString : Option JValue → Option (List Byte)
  | some (JValue.string s) => some s
  | _ => none

/-- The value of a comma-ok type assertion `x.(map[string]interface{})` on `m[key]`. -/
def asMap : Option JValue → Option JMap
  | some (JValue.object m) => some m
  | _ => none

/-- `printEventWithDiff(event, i)` with the flag value `diffContextLines` (a Go
`int`): how the call ends and what `fmt.Println(text)` writes to standard
output. -/
def printEventWithDiff (diffContextLines : Int) (event : JMap) : Outcome × List Byte :=
  match asString (event.get (bytesOf "method")) with
  | some method =>
    if method = bytesOf "object.updated" then
      match asMap (event.get (bytesOf "params")) with
      | none => (Outcome.returned (some (GoError.new (bytesOf "no events params"))), [])
      | some params =>
        match asString (params.get (bytesOf "type")) with
        | none => (Outcome.returned (some (GoError.new (bytesOf "no type"))), [])
        | some objType =>
          match asMap (params.get (bytesOf "oldObject")) with
          | none => (Outcome.returned (some (GoError.new (bytesOf "no oldObject"))), [])
          | some oldObj =>
            match asMap (params.get (bytesOf "newObject")) with
            | none => (Outcome.returned (some (GoError.new (bytesOf "no newObject"))), [])
            | some newObj =>
              let oldBs := (MarshalIndent oldObj).getD []
              let newBs := (MarshalIndent newObj).getD []
              let diff : UnifiedDiff :=
                { A := SplitLines oldBs, B := SplitLines newBs,
                  FromFile := bytesOf "old " ++ objType, ToFile := bytesOf "new " ++ objType,
                  Context := diffContextLines }
              match GetUnifiedDiffString diff with
              | none => (Outcome.panicked "slice bounds out of range", [])
              | some (_, some err) => (Outcome.returned (some err), [])
              | some (text, none) => (Outcome.returned none, text ++ [0x0a])
    else (Outcome.returned (some (GoError.new (bytesOf "not diffable"))), [])
  | none => (Outcome.returned (some (GoError.new (bytesOf "not diffable"))), [])

/-! ## Sample inputs -/

/-- The `params` of an `object.updated` event of type `session`. -/
def sampleParams (oldObj newObj : JMap) : JMap :=
  [(bytesOf "type", JValue.string (bytesOf "session")),
   (bytesOf "oldObject", JValue.object oldObj),
   (bytesOf "newObject", JValue.object newObj)]

/-- An `object.updated` event of type `session`. -/
def sampleEvent (oldObj newObj : JMap) : JMap :=
  [(bytesOf "method", JValue.string (bytesOf "object.updated")),
   (bytesOf "params", JValue.object (sampleParams oldObj newObj))]

/-- The object `{"a":1,"b":b}`. -/
def sampleObject (b : String) : JMap :=
  [(bytesOf "a", JValue.number (bytesOf "1")), (bytesOf "b", JValue.number (bytesOf b))]

/-! # Theorems -/

/-! ## The look-ahead -/

theorem scanBuffered_eq (buf : List Byte) :
    NextByte.scanBuffered buf = firstUntrimmed buf := by
  induction buf with
  | nil => rfl
  | cons b bs ih =>
    by_cases h : isSpace b = true
    · simp [NextByte.scanBuffered, firstUntrimmed, h, List.find?_cons] at ih ⊢
      exact ih
    · simp [NextByte.scanBuffered, firstUntrimmed, h, List.find?_cons]

theorem peekLoop_fst (rd : List Byte) :
    (NextByte.peekLoop rd).1 = peekResult (firstUntrimmed rd) := by
  induction rd with
  | nil => rfl
  | cons b bs ih =>
    by_cases h : isSpace b = true
    · simp [NextByte.peekLoop, firstUntrimmed, h, List.find?_cons] at ih ⊢
      exact ih
    · simp [NextByte.peekLoop, firstUntrimmed, h, List.find?_cons, peekResult]

theorem peekLoop_snd (rd : List Byte) :
    (NextByte.peekLoop rd).2 = rd.dropWhile isSpace := by
  induction rd with
  | nil => rfl
  | cons b bs ih =>
    by_cases h : isSpace b = true
    · simp [NextByte.peekLoop, h, List.dropWhile_cons, ih]
    · simp [NextByte.peekLoop, h, List.dropWhile_cons]

theorem firstUntrimmed_append (s t : List Byte) :
    firstUntrimmed (s ++ t) = (firstUntrimmed s).or (firstUntrimmed t) := by
  simp [firstUntrimmed, List.find?_append]

theorem firstUntrimmed_dropWhile (s : List Byte) :
    firstUntrimmed (s.dropWhile isSpace) = firstUntrimmed s := by
  induction s with
  | nil => rfl
  | cons b bs ih =>
    by_cases h : isSpace b = true
    · simp [firstUntrimmed, h, List.dropWhile_cons, List.find?_cons] at ih ⊢
      exact ih
    · simp [h, List.dropWhile_cons]

theorem firstUntrimmed_of_spaces (w : List Byte) (hw : ∀ b ∈ w, isSpace b = true) :
    firstUntrimmed w = none := by
  simp [firstUntrimmed, List.find?_eq_none]
  exact hw

/-- What one call of `NextByte` does, in terms of the reference look-ahead. -/
theorem NextByte_spec (d : peekingDecoder) :
    NextByte d =
      (peekResult (firstUntrimmed (d.buf ++ d.rd)),
        if firstUntrimmed d.buf = none then { d with rd := d.rd.dropWhile isSpace } else d) := by
  unfold NextByte
  rw [scanBuffered_eq, firstUntrimmed_append]
  cases h : firstUntrimmed d.buf with
  | none => simp [peekLoop_fst, peekLoop_snd]
  | some b => simp [peekResult]

theorem NextByte_snd_firstUntrimmed (d : peekingDecoder) :
    firstUntrimmed ((NextByte d).2.buf ++ (NextByte d).2.rd) = firstUntrimmed (d.buf ++ d.rd) := by
  rw [NextByte_spec]
  by_cases h : firstUntrimmed d.buf = none
  · simp [h, firstUntrimmed_append, firstUntrimmed_dropWhile]
  · simp [h]

theorem NextByte_twice (d : peekingDecoder) : NextByte (NextByte d).2 = NextByte d := by
  rw [NextByte_spec (NextByte d).2, NextByte_snd_firstUntrimmed]
  conv_rhs => rw [NextByte_spec d]
  rw [NextByte_spec d]
  by_cases h : firstUntrimmed d.buf = none
  · simp [h, List.dropWhile_idempotent]
  · simp [h]

theorem NextByte_times_succ (n : Nat) (d : peekingDecoder) :
    NextByte.times (n + 1) d = (NextByte d).2 := by
  induction n generalizing d with
  | zero => rfl
  | succ k ih =>
    show NextByte.times (k + 1) (NextByte d).2 = (NextByte d).2
    rw [ih, NextByte_twice]

/-- What `NextByte` computes, in terms of the code's own white-space test
(`bytes.TrimSpace`): the first byte of the decoder buffer followed by the I/O
buffer that the test leaves, with no error, and `io.EOF` when there is none;
the byte comes from the decoder buffer (and nothing changes) whenever that
buffer holds such a byte, and from the I/O buffer only otherwise. -/
theorem NextByte_eq_firstUntrimmed (d : peekingDecoder) :
    (NextByte d).1 = peekResult (firstUntrimmed (d.buf ++ d.rd))
    ∧ (∀ b, firstUntrimmed (d.buf ++ d.rd) = some b → (NextByte d).1 = (b, none))
    ∧ (firstUntrimmed (d.buf ++ d.rd) = none → (NextByte d).1 = (0, some GoError.EOF))
    ∧ (∀ b, firstUntrimmed d.buf = some b → NextByte d = ((b, none), d))
    ∧ (firstUntrimmed d.buf = none → (NextByte d).1 = peekResult (firstUntrimmed d.rd)) := by
  have h := NextByte_spec d
  refine ⟨by rw [h], ?_, ?_, ?_, ?_⟩
  · intro b hb; rw [h, hb]; rfl
  · intro hn; rw [h, hn]; rfl
  · intro b hb
    rw [h, firstUntrimmed_append, hb]
    simp [peekResult]
  · intro hn
    rw [h, firstUntrimmed_append, hn]
    simp

/-- C3: any number of consecutive `NextByte` calls return the byte and error
of the first call, and the state after the first call is the state after any
further number of calls. -/
theorem NextByte_idempotent (d : peekingDecoder) (n : Nat) :
    (NextByte (NextByte.times n d)).1 = (NextByte d).1
    ∧ NextByte.times (n + 1) d = (NextByte d).2
    ∧ (NextByte (NextByte.times (n + 1) d)).2 = NextByte.times (n + 1) d := by
  refine ⟨?_, NextByte_times_succ n d, ?_⟩
  · cases n with
    | zero => rfl
    | succ k => rw [NextByte_times_succ, NextByte_twice]
  · rw [NextByte_times_succ, NextByte_twice]

/-- C4: a run `w` of white-space bytes in front of the input does not change
what `NextByte` returns, however the bytes are split between the decoder
buffer and the I/O buffer. -/
theorem NextByte_whitespace_transparent (d1 d2 : peekingDecoder) (w : List Byte)
    (hw : ∀ b ∈ w, isSpace b = true)
    (h : d1.buf ++ d1.rd = w ++ (d2.buf ++ d2.rd)) :
    (NextByte d1).1 = (NextByte d2).1 := by
  rw [NextByte_spec, NextByte_spec, h, firstUntrimmed_append w, firstUntrimmed_of_spaces w hw]
  simp

theorem NextByte_whitespace_transparent_witness :
    (NextByte { buf := bytesOf " \n", err := none, rd := bytesOf "\t \x7b\x7d", ahead := [] }).1
      = (NextByte { buf := [], err := none, rd := bytesOf "\x7b\x7d", ahead := [] }).1 :=
  NextByte_whitespace_transparent _ _ (bytesOf " \n\t ") (by decide) (by decide)

/-! ## The JSON decoder -/

/-- Add `k` to the byte counts of a `readValue` result. -/
theorem readValue_loop_shift (ns : Bool) (k : Nat) (cs : List Byte) :
    ∀ (s : scanner) (n : Nat),
      (readValue.loop ns s cs (n + k)).result
          = (readValue.loop ns s cs n).result.map (· + k)
        ∧ (readValue.loop ns s cs (n + k)).looked = (readValue.loop ns s cs n).looked + k := by
  induction cs with
  | nil =>
    intro s n
    simp only [readValue.loop]
    split_ifs <;> simp [Except.map] <;> omega
  | cons c cs ih =>
    intro s n
    simp only [readValue.loop]
    have e1 : n + k + 1 = (n + 1) + k := by omega
    split <;> (try split_ifs) <;> simp only [e1, ih] <;> simp [Except.map]

theorem doStep_reset_space (c : Byte) (hc : jsonIsSpace c = true) :
    scanner.reset.doStep c = (scanner.reset, ScanOp.scanSkipSpace) := by
  simp [scanner.doStep, scanner.reset, stateBeginValue, hc]

theorem any_nonSpace_cons_space (c : Byte) (cs : List Byte) (hc : jsonIsSpace c = true) :
    (c :: cs).any (fun c => !jsonIsSpace c) = cs.any (fun c => !jsonIsSpace c) := by
  simp [hc]

theorem readValue_cons_space (c : Byte) (cs : List Byte) (hc : jsonIsSpace c = true) :
    (readValue (c :: cs)).result = (readValue cs).result.map (· + 1)
      ∧ (readValue (c :: cs)).looked = (readValue cs).looked + 1 := by
  unfold readValue
  rw [any_nonSpace_cons_space c cs hc]
  simp only [readValue.loop, doStep_reset_space c hc]
  have := readValue_loop_shift (cs.any (fun c => !jsonIsSpace c)) 1 cs scanner.reset 0
  simpa using this

/-- White space in front of a value is not part of it. -/
theorem nextValue_cons_space (c : Byte) (cs : List Byte) (hc : jsonIsSpace c = true) :
    nextValue (c :: cs) = nextValue cs := by
  unfold nextValue
  rw [(readValue_cons_space c cs hc).1]
  cases (readValue cs).result with
  | error e => rfl
  | ok n => simp [Except.map, hc]

theorem nextValue_append_spaces (w t : List Byte) (hw : ∀ b ∈ w, jsonIsSpace b = true) :
    nextValue (w ++ t) = nextValue t := by
  induction w with
  | nil => rfl
  | cons c cs ih =>
    rw [List.cons_append, nextValue_cons_space c _ (hw c (List.mem_cons_self c cs))]
    exact ih (fun b hb => hw b (List.mem_cons_of_mem c hb))

theorem nextValue_dropWhile (s : List Byte) :
    nextValue (s.dropWhile jsonIsSpace) = nextValue s := by
  induction s with
  | nil => rfl
  | cons c cs ih =>
    by_cases hc : jsonIsSpace c = true
    · rw [List.dropWhile_cons_of_pos hc, nextValue_cons_space c cs hc, ih]
    · rw [List.dropWhile_cons_of_neg hc]

/-- A byte that `NextByte` skips and the JSON scanner does not: `\v` or `\f`. -/
theorem space_not_json (c : Byte) (h1 : isSpace c = true) (h2 : jsonIsSpace c = false) :
    c = 0x0b ∨ c = 0x0c := by
  revert h1 h2
  revert c
  decide

theorem nextValue_cons_vt (c : Byte) (cs : List Byte) (h1 : isSpace c = true)
    (h2 : jsonIsSpace c = false) :
    nextValue (c :: cs) = Except.error (GoError.syntaxErr c "looking for beginning of value") := by
  rcases space_not_json c h1 h2 with h | h <;> subst h <;> rfl

theorem readValue_loop_bounds (ns : Bool) (cs : List Byte) :
    ∀ (s : scanner) (n : Nat),
      (readValue.loop ns s cs n).looked ≤ n + cs.length + 1
        ∧ n < (readValue.loop ns s cs n).looked
        ∧ ∀ m, (readValue.loop ns s cs n).result = Except.ok m →
            n ≤ m ∧ m ≤ n + cs.length ∧ m ≤ (readValue.loop ns s cs n).looked := by
  induction cs with
  | nil =>
    intro s n
    simp only [readValue.loop]
    split_ifs <;> simp
  | cons c cs ih =>
    intro s n
    simp only [readValue.loop]
    split <;> (try split_ifs) <;> simp <;>
      first
      | omega
      | (have h := ih (stateEndValue (s.doStep c).1 0x20).1 (n + 1)
         refine ⟨by omega, by omega, fun m hm => ?_⟩
         have := h.2.2 m hm
         omega)
      | (have h := ih (s.doStep c).1 (n + 1)
         refine ⟨by omega, by omega, fun m hm => ?_⟩
         have := h.2.2 m hm
         omega)

theorem doStep_reset_op (c : Byte) :
    (scanner.reset.doStep c).2 ≠ ScanOp.scanEnd
      ∧ (scanner.reset.doStep c).2 ≠ ScanOp.scanEndObject
      ∧ (scanner.reset.doStep c).2 ≠ ScanOp.scanEndArray := by
  revert c
  decide

/-- A value is at least one byte long, lies inside the stream, and the scan
looked at all of it. -/
theorem readValue_ok_bounds (s : List Byte) (m : Nat)
    (h : (readValue s).result = Except.ok m) :
    1 ≤ m ∧ m ≤ s.length ∧ m ≤ (readValue s).looked := by
  have hb := readValue_loop_bounds (s.any (fun c => !jsonIsSpace c)) s scanner.reset 0
  have h2 := hb.2.2 m h
  refine ⟨?_, by omega, h2.2.2⟩
  cases s with
  | nil =>
    have he : (readValue []).result = Except.error GoError.EOF := rfl
    rw [he] at h
    simp at h
  | cons c cs =>
    have hop := doStep_reset_op c
    unfold readValue at h
    simp only [readValue.loop] at h
    split at h
    · exact absurd (by assumption) hop.1
    · exact absurd (by assumption) hop.2.1
    · exact absurd (by assumption) hop.2.2
    · simp at h
    · exact ((readValue_loop_bounds _ cs _ 1).2.2 m h).1

theorem readValue_looked_le (s : List Byte) : (readValue s).looked ≤ s.length + 1 := by
  have hb := readValue_loop_bounds (s.any (fun c => !jsonIsSpace c)) s scanner.reset 0
  simpa [readValue] using hb.1

theorem unmarshal_dropWhile (x : List Byte) :
    unmarshal (x.dropWhile jsonIsSpace) = unmarshal x := by
  unfold unmarshal
  simp [List.dropWhile_idempotent]

theorem Decode_fst (d : peekingDecoder) (h : d.err = none) :
    (Decode d).1 = decodeResult d.remaining := by
  unfold Decode decodeResult nextValue peekingDecoder.remaining
  rw [h]
  simp only
  cases hr : (readValue (d.buf ++ d.rd)).result with
  | error e => rfl
  | ok n => simp [unmarshal_dropWhile]

theorem Decode_err (d : peekingDecoder) (e : GoError) (h : d.err = some e) :
    Decode d = (Except.error e, d) := by
  unfold Decode
  rw [h]

theorem drop_take_append_drop (n i : Nat) (l : List Byte) (h1 : n ≤ i) (h2 : n ≤ l.length) :
    List.drop n (List.take i l) ++ List.drop i l = List.drop n l := by
  conv_rhs => rw [← List.take_append_drop i l]
  rw [List.drop_append_of_le_length]
  rw [List.length_take]
  omega

theorem Decode_snd (d : peekingDecoder) (h : d.err = none) (item rest : List Byte)
    (hv : nextValue d.remaining = Except.ok (item, rest)) :
    (Decode d).2.remaining = rest ∧ (Decode d).2.err = none := by
  unfold nextValue peekingDecoder.remaining at hv
  unfold Decode peekingDecoder.remaining
  rw [h]
  simp only
  cases hr : (readValue (d.buf ++ d.rd)).result with
  | error e => rw [hr] at hv; simp at hv
  | ok n =>
    rw [hr] at hv
    simp only [Except.ok.injEq, Prod.mk.injEq] at hv
    have hb := readValue_ok_bounds _ n hr
    have hl := readValue_looked_le (d.buf ++ d.rd)
    refine ⟨?_, rfl⟩
    simp only
    rw [← hv.2]
    apply drop_take_append_drop _ _ _ _ hb.2.1
    have hlen : d.buf.length ≤ (d.buf ++ d.rd).length := by simp
    split_ifs with hc
    · simp only [decide_eq_true_eq] at hc
      omega
    · simp only [decide_eq_true_eq] at hc
      omega

/-! ## Look-ahead followed by `Decode` -/

theorem jsonIsSpace_isSpace (c : Byte) (h : jsonIsSpace c = true) : isSpace c = true := by
  revert h
  revert c
  decide

theorem nextValue_skip_json (buf w r : List Byte) (hb : ∀ b ∈ buf, isSpace b = true)
    (hw : ∀ b ∈ w, jsonIsSpace b = true) :
    nextValue (buf ++ (w ++ r)) = nextValue (buf ++ r) := by
  induction buf with
  | nil => exact nextValue_append_spaces w r hw
  | cons c cs ih =>
    have hcs : ∀ b ∈ cs, isSpace b = true := fun b hb2 => hb b (List.mem_cons_of_mem c hb2)
    cases hc : jsonIsSpace c with
    | true =>
      rw [List.cons_append, List.cons_append, nextValue_cons_space c _ hc,
        nextValue_cons_space c _ hc]
      exact ih hcs
    | false =>
      have h1 := hb c (List.mem_cons_self c cs)
      rw [List.cons_append, List.cons_append, nextValue_cons_vt c _ h1 hc,
        nextValue_cons_vt c _ h1 hc]

theorem nextValue_dropWhile_isSpace_of_ok (rd : List Byte) (x : List Byte × List Byte)
    (h : nextValue rd = Except.ok x) :
    nextValue (rd.dropWhile isSpace) = nextValue rd := by
  induction rd with
  | nil => rfl
  | cons c cs ih =>
    cases hs : isSpace c with
    | false => rw [List.dropWhile_cons_of_neg (by simp [hs])]
    | true =>
      rw [List.dropWhile_cons_of_pos hs]
      cases hc : jsonIsSpace c with
      | true =>
        rw [nextValue_cons_space c cs hc] at h ⊢
        exact ih h
      | false =>
        rw [nextValue_cons_vt c cs hs hc] at h
        cases h

theorem nextValue_skip_of_ok (buf rd : List Byte) (hb : ∀ b ∈ buf, isSpace b = true)
    (x : List Byte × List Byte) (h : nextValue (buf ++ rd) = Except.ok x) :
    nextValue (buf ++ rd.dropWhile isSpace) = nextValue (buf ++ rd) := by
  induction buf with
  | nil => exact nextValue_dropWhile_isSpace_of_ok rd x h
  | cons c cs ih =>
    have hcs : ∀ b ∈ cs, isSpace b = true := fun b hb2 => hb b (List.mem_cons_of_mem c hb2)
    cases hc : jsonIsSpace c with
    | true =>
      rw [List.cons_append, nextValue_cons_space c _ hc] at h ⊢
      rw [List.cons_append, nextValue_cons_space c _ hc]
      exact ih hcs h
    | false =>
      rw [List.cons_append, nextValue_cons_vt c _ (hb c (List.mem_cons_self c cs)) hc] at h
      cases h

theorem firstUntrimmed_eq_none (s : List Byte) (h : firstUntrimmed s = none) :
    ∀ b ∈ s, isSpace b = true := by
  simpa [firstUntrimmed, List.find?_eq_none] using h

theorem NextByte_err (d : peekingDecoder) : (NextByte d).2.err = d.err := by
  rw [NextByte_spec]
  split_ifs <;> rfl

/-- The bytes `NextByte` removes from the I/O buffer: the white space at its
head, when the decoder buffer holds white space only. -/
theorem NextByte_remaining (d : peekingDecoder) :
    (NextByte d).2.remaining =
      if firstUntrimmed d.buf = none then d.buf ++ d.rd.dropWhile isSpace else d.remaining := by
  rw [NextByte_spec]
  split_ifs <;> rfl

/-- When the next value of the stream is well formed, a look-ahead does not
change it. -/
theorem NextByte_nextValue_of_ok (d : peekingDecoder) (x : List Byte × List Byte)
    (h : nextValue d.remaining = Except.ok x) :
    nextValue (NextByte d).2.remaining = nextValue d.remaining := by
  rw [NextByte_remaining]
  split_ifs with hb
  · exact nextValue_skip_of_ok d.buf d.rd (firstUntrimmed_eq_none _ hb) x h
  · rfl

/-- When the white space at the head of the I/O buffer is JSON white space, a
look-ahead does not change the next value or error. -/
theorem NextByte_nextValue_of_json (d : peekingDecoder)
    (hw : ∀ b ∈ d.rd.takeWhile isSpace, jsonIsSpace b = true) :
    nextValue (NextByte d).2.remaining = nextValue d.remaining := by
  rw [NextByte_remaining]
  split_ifs with hb
  · have := nextValue_skip_json d.buf (d.rd.takeWhile isSpace) (d.rd.dropWhile isSpace)
      (firstUntrimmed_eq_none _ hb) hw
    rw [List.takeWhile_append_dropWhile] at this
    exact this.symm
  · rfl

/-- Look-ahead is transparent for `Decode` as long as the white space it
discards from the I/O buffer is JSON white space: the next `Decode` after any
number of `NextByte` calls then returns what it would have returned without
them. -/
theorem Decode_after_NextByte (d : peekingDecoder) (n : Nat)
    (hw : ∀ b ∈ d.rd.takeWhile isSpace, jsonIsSpace b = true) :
    (Decode (NextByte.times n d)).1 = (Decode d).1 := by
  cases n with
  | zero => rfl
  | succ k =>
    rw [NextByte_times_succ]
    cases he : d.err with
    | some e =>
      rw [Decode_err d e he, Decode_err (NextByte d).2 e (by rw [NextByte_err, he])]
    | none =>
      rw [Decode_fst d he, Decode_fst (NextByte d).2 (by rw [NextByte_err, he])]
      unfold decodeResult
      rw [NextByte_nextValue_of_json d hw]

theorem Decode_after_NextByte_witness :
    (Decode (NextByte.times 2
      { buf := bytesOf " ", err := none, rd := bytesOf "\n [1]", ahead := [] })).1
      = (Decode { buf := bytesOf " ", err := none, rd := bytesOf "\n [1]", ahead := [] }).1 :=
  Decode_after_NextByte _ 2 (by decide)

/-- C1 at the failing input: with `\v` in front of `1` in the I/O buffer,
`Decode` alone reports a syntax error, while after one `NextByte` (which
returns `1` and discards the `\v`) `Decode` returns the number `1`. -/
theorem NextByte_consumes_vertical_tab :
    (Decode { buf := [], err := none, rd := [0x0b, 0x31], ahead := [] }).1
        = Except.error (GoError.syntaxErr 0x0b "looking for beginning of value")
      ∧ (NextByte { buf := [], err := none, rd := [0x0b, 0x31], ahead := [] }).1 = (0x31, none)
      ∧ (Decode (NextByte { buf := [], err := none, rd := [0x0b, 0x31], ahead := [] }).2).1
        = Except.ok (JValue.number [0x31]) := by
  refine ⟨rfl, rfl, rfl⟩

/-- Where the white space in front of the input is JSON white space, the byte
`NextByte` returns is the first byte the next `Decode` does not skip. -/
theorem NextByte_eq_firstNonWhitespace (d : peekingDecoder)
    (hw : ∀ b ∈ (d.buf ++ d.rd).takeWhile isSpace, jsonIsSpace b = true) :
    (NextByte d).1 = peekResult (firstNonWhitespace (d.buf ++ d.rd)) := by
  rw [NextByte_spec]
  show peekResult (firstUntrimmed (d.buf ++ d.rd)) = _
  congr 1
  generalize d.buf ++ d.rd = s at hw
  unfold firstUntrimmed firstNonWhitespace
  induction s with
  | nil => rfl
  | cons c cs ih =>
    by_cases hc : isSpace c = true
    · have hj : jsonIsSpace c = true := hw c (by simp [List.takeWhile, hc])
      simp only [List.find?, hc, hj, Bool.not_true]
      apply ih
      intro b hb
      exact hw b (by simp [List.takeWhile, hc, hb])
    · have hc1 : isSpace c = false := by simpa using hc
      have hj : jsonIsSpace c = false := by
        cases h : jsonIsSpace c with
        | false => rfl
        | true => rw [jsonIsSpace_isSpace c h] at hc1; cases hc1
      simp only [List.find?, hc1, hj, Bool.not_false]

theorem NextByte_eq_firstNonWhitespace_witness :
    (NextByte { buf := bytesOf " \n", err := none, rd := bytesOf "\t \x7b\x7d", ahead := [] }).1
      = peekResult (firstNonWhitespace (bytesOf " \n" ++ bytesOf "\t \x7b\x7d")) :=
  NextByte_eq_firstNonWhitespace _ (by decide)

/-- C2 at the failing inputs: with a vertical tab in front of `1` in the I/O
buffer the first byte that is not white space for the decoder is the tab, and
`NextByte` returns `1`; with a space and a vertical tab in the decoder buffer
and `2` in the I/O buffer, the decoder buffer holds a byte that is not white
space, the tab, and `NextByte` returns `2` from the I/O buffer. -/
theorem NextByte_skips_vertical_tab :
    firstNonWhitespace ([] ++ [0x0b, 0x31]) = some 0x0b
      ∧ (NextByte { buf := [], err := none, rd := [0x0b, 0x31], ahead := [] }).1 = (0x31, none)
      ∧ firstNonWhitespace (bytesOf " \x0b") = some 0x0b
      ∧ firstNonWhitespace (bytesOf " \x0b" ++ bytesOf "2") = some 0x0b
      ∧ (NextByte { buf := bytesOf " \x0b", err := none, rd := bytesOf "2", ahead := [] }).1
          = (0x32, none) := by
  refine ⟨rfl, rfl, rfl, rfl, rfl⟩

/-! ## The sequence matcher finds only real matches -/

theorem indicesOf_mem (line : Line) (b : List Line) :
    ∀ (start j : Nat), j ∈ indicesOf line b start → start ≤ j ∧ b[j - start]? = some line := by
  induction b with
  | nil => intro start j h; simp [indicesOf] at h
  | cons x xs ih =>
    intro start j h
    simp only [indicesOf] at h
    split_ifs at h with hx
    · rcases List.mem_cons.mp h with rfl | h
      · simp [hx]
      · obtain ⟨h1, h2⟩ := ih (start + 1) j h
        refine ⟨by omega, ?_⟩
        obtain ⟨k, hk⟩ : ∃ k, j - start = k + 1 := ⟨j - start - 1, by omega⟩
        rw [hk, List.getElem?_cons_succ]
        have : j - (start + 1) = k := by omega
        rw [← this]; exact h2
    · obtain ⟨h1, h2⟩ := ih (start + 1) j h
      refine ⟨by omega, ?_⟩
      obtain ⟨k, hk⟩ : ∃ k, j - start = k + 1 := ⟨j - start - 1, by omega⟩
      rw [hk, List.getElem?_cons_succ]
      have : j - (start + 1) = k := by omega
      rw [← this]; exact h2

theorem b2jAt_mem (a b : List Line) (i j : Nat) (h : j ∈ b2jAt a b i) :
    sameLine a b i j = true := by
  unfold b2jAt at h
  cases ha : a[i]? with
  | none => rw [ha] at h; simp at h
  | some line =>
    rw [ha] at h
    simp only at h
    unfold b2j at h
    simp only at h
    split_ifs at h
    · simp at h
    · have := (indicesOf_mem line b 0 j h).2
      simp only [Nat.sub_zero] at this
      simp [sameLine, ha, this]

theorem endsAt_one (a b : List Line) (i j : Nat) (h : sameLine a b i j = true) :
    EndsAt a b i j 1 := by
  refine ⟨by omega, by omega, fun t ht => ?_⟩
  obtain rfl : t = 0 := by omega
  simpa using h

theorem endsAt_succ (a b : List Line) (i j k : Nat) (h : sameLine a b (i + 1) (j + 1) = true)
    (he : EndsAt a b i j k) : EndsAt a b (i + 1) (j + 1) (k + 1) := by
  obtain ⟨h1, h2, h3⟩ := he
  refine ⟨by omega, by omega, fun t ht => ?_⟩
  cases t with
  | zero => simpa using h
  | succ t =>
    have := h3 t (by omega)
    have e1 : i + 1 - (t + 1) = i - t := by omega
    have e2 : j + 1 - (t + 1) = j - t := by omega
    rw [e1, e2]; exact this

theorem endsAt_sound (a b : List Line) (i j k : Nat) (he : EndsAt a b i j k) :
    Match.Sound a b { A := i + 1 - k, B := j + 1 - k, Size := k } := by
  obtain ⟨h1, h2, h3⟩ := he
  intro t ht
  simp only at ht ⊢
  have := h3 (k - 1 - t) (by omega)
  have e1 : i - (k - 1 - t) = i + 1 - k + t := by omega
  have e2 : j - (k - 1 - t) = j + 1 - k + t := by omega
  rw [e1, e2] at this; exact this

theorem j2lenPrev_endsAt (a b : List Line) (i j : Nat) (j2len : List (Nat × Nat))
    (hJ : J2lenOk a b i j2len) (h : sameLine a b i j = true) :
    EndsAt a b i j (j2lenPrev j2len j + 1) := by
  cases j with
  | zero => exact endsAt_one a b i 0 h
  | succ j =>
    simp only [j2lenPrev]
    cases hl : List.lookup j j2len with
    | none => exact endsAt_one a b i (j + 1) h
    | some k =>
      have hmem : (j, k) ∈ j2len := by
        clear hJ
        induction j2len with
        | nil => simp at hl
        | cons p ps ih =>
          obtain ⟨p1, p2⟩ := p
          simp only [List.lookup] at hl
          by_cases hj : j = p1
          · subst hj
            simp at hl
            subst hl
            exact List.mem_cons_self _ _
          · have : (j == p1) = false := by simpa using hj
            rw [this] at hl
            exact List.mem_cons_of_mem _ (ih hl)
      obtain ⟨hi, he⟩ := hJ (j, k) hmem
      simp only at he
      obtain ⟨i', rfl⟩ : ∃ i', i = i' + 1 := ⟨i - 1, by omega⟩
      simp only [Nat.add_sub_cancel] at he
      simpa using endsAt_succ a b i' j k h he

theorem inner_sound (a b : List Line) (blo bhi i : Nat) (j2len : List (Nat × Nat))
    (hJ : J2lenOk a b i j2len) :
    ∀ (js : List Nat) (newj2len : List (Nat × Nat)) (best : Match),
      (∀ j ∈ js, sameLine a b i j = true) → J2lenOk a b (i + 1) newj2len →
      Match.Sound a b best →
      J2lenOk a b (i + 1) (findLongestMatch.inner blo bhi i j2len js newj2len best).1
        ∧ Match.Sound a b (findLongestMatch.inner blo bhi i j2len js newj2len best).2 := by
  intro js
  induction js with
  | nil => intro n best _ hn hb; exact ⟨hn, hb⟩
  | cons j js ih =>
    intro n best hjs hn hb
    have hjs' : ∀ j ∈ js, sameLine a b i j = true := fun x hx => hjs x (List.mem_cons_of_mem _ hx)
    simp only [findLongestMatch.inner]
    split_ifs with h1 h2 h3
    · exact ih n best hjs' hn hb
    · exact ⟨hn, hb⟩
    · have he := j2lenPrev_endsAt a b i j j2len hJ (hjs j (List.mem_cons_self _ _))
      apply ih _ _ hjs'
      · intro p hp
        rcases List.mem_cons.mp hp with rfl | hp
        · exact ⟨by omega, by simpa using he⟩
        · exact hn p hp
      · exact endsAt_sound a b i j _ he
    · have he := j2lenPrev_endsAt a b i j j2len hJ (hjs j (List.mem_cons_self _ _))
      apply ih _ _ hjs'
      · intro p hp
        rcases List.mem_cons.mp hp with rfl | hp
        · exact ⟨by omega, by simpa using he⟩
        · exact hn p hp
      · exact hb

theorem outer_sound (a b : List Line) (blo bhi : Nat) :
    ∀ (count i : Nat) (j2len : List (Nat × Nat)) (best : Match),
      J2lenOk a b i j2len → Match.Sound a b best →
      Match.Sound a b (findLongestMatch.outer a b blo bhi count i j2len best) := by
  intro count
  induction count with
  | zero => intro i j2len best _ hb; exact hb
  | succ c ih =>
    intro i j2len best hJ hb
    simp only [findLongestMatch.outer]
    have h := inner_sound a b blo bhi i j2len hJ (b2jAt a b i) [] best
      (fun j hj => b2jAt_mem a b i j hj) (by intro p hp; simp at hp) hb
    exact ih (i + 1) _ _ h.1 h.2

theorem extendLeft_sound (a b : List Line) (alo blo : Nat) :
    ∀ (fuel : Nat) (m : Match), Match.Sound a b m →
      Match.Sound a b (findLongestMatch.extendLeft a b alo blo fuel m) := by
  intro fuel
  induction fuel with
  | zero => intro m hm; exact hm
  | succ f ih =>
    intro m hm
    simp only [findLongestMatch.extendLeft]
    split_ifs with h
    · simp only [Bool.and_eq_true, decide_eq_true_eq] at h
      apply ih
      intro t ht
      simp only at ht ⊢
      cases t with
      | zero => simpa using h.2
      | succ t =>
        have := hm t (by omega)
        have e1 : m.A - 1 + (t + 1) = m.A + t := by omega
        have e2 : m.B - 1 + (t + 1) = m.B + t := by omega
        rw [e1, e2]; exact this
    · exact hm

theorem extendRight_sound (a b : List Line) (ahi bhi : Nat) :
    ∀ (fuel : Nat) (m : Match), Match.Sound a b m →
      Match.Sound a b (findLongestMatch.extendRight a b ahi bhi fuel m) := by
  intro fuel
  induction fuel with
  | zero => intro m hm; exact hm
  | succ f ih =>
    intro m hm
    simp only [findLongestMatch.extendRight]
    split_ifs with h
    · simp only [Bool.and_eq_true, decide_eq_true_eq] at h
      apply ih
      intro t ht
      simp only at ht ⊢
      by_cases htm : t < m.Size
      · exact hm t htm
      · obtain rfl : t = m.Size := by omega
        exact h.2
    · exact hm

theorem findLongestMatch_sound (a b : List Line) (alo ahi blo bhi : Nat) :
    Match.Sound a b (findLongestMatch a b alo ahi blo bhi) := by
  unfold findLongestMatch
  apply extendRight_sound
  apply extendLeft_sound
  apply outer_sound
  · intro p hp; simp at hp
  · intro t ht; simp at ht

theorem matchBlocks_sound (a b : List Line) :
    ∀ (fuel alo ahi blo bhi : Nat) (matched : List Match),
      (∀ m ∈ matched, Match.Sound a b m) →
      ∀ m ∈ matchBlocks a b fuel alo ahi blo bhi matched, Match.Sound a b m := by
  intro fuel
  induction fuel with
  | zero => intro alo ahi blo bhi matched h; exact h
  | succ f ih =>
    intro alo ahi blo bhi matched h
    simp only [matchBlocks]
    have hs := findLongestMatch_sound a b alo ahi blo bhi
    generalize findLongestMatch a b alo ahi blo bhi = mm at hs ⊢
    by_cases h0 : 0 < mm.Size
    · rw [if_pos h0]
      have h1 : ∀ m ∈ (if (decide (alo < mm.A) && decide (blo < mm.B)) = true
          then matchBlocks a b f alo mm.A blo mm.B matched else matched),
          Match.Sound a b m := by
        split_ifs
        · exact ih _ _ _ _ _ h
        · exact h
      generalize (if (decide (alo < mm.A) && decide (blo < mm.B)) = true
          then matchBlocks a b f alo mm.A blo mm.B matched else matched) = m1 at h1 ⊢
      have h2 : ∀ m ∈ m1 ++ [mm], Match.Sound a b m := by
        intro m hm
        rcases List.mem_append.mp hm with hm | hm
        · exact h1 m hm
        · rw [List.mem_singleton.mp hm]; exact hs
      split_ifs
      · exact ih _ _ _ _ _ h2
      · exact h2
    · rw [if_neg h0]; exact h

theorem mergeAdjacent_sound (a b : List Line) :
    ∀ (blocks : List Match) (cur : Match),
      (∀ m ∈ blocks, Match.Sound a b m) → Match.Sound a b cur →
      ∀ m ∈ mergeAdjacent blocks cur, Match.Sound a b m ∧ 0 < m.Size := by
  intro blocks
  induction blocks with
  | nil =>
    intro cur _ hc m hm
    simp only [mergeAdjacent] at hm
    split_ifs at hm with h
    · rw [List.mem_singleton.mp hm]; exact ⟨hc, h⟩
    · simp at hm
  | cons blk rest ih =>
    intro cur hb hc m hm
    have hrest : ∀ m ∈ rest, Match.Sound a b m := fun x hx => hb x (List.mem_cons_of_mem _ hx)
    have hblk := hb blk (List.mem_cons_self _ _)
    simp only [mergeAdjacent] at hm
    split_ifs at hm with h1 h2
    · simp only [Bool.and_eq_true, decide_eq_true_eq] at h1
      apply ih _ hrest _ m hm
      intro t ht
      simp only at ht ⊢
      by_cases htc : t < cur.Size
      · exact hc t htc
      · have := hblk (t - cur.Size) (by omega)
        have e1 : blk.A + (t - cur.Size) = cur.A + t := by omega
        have e2 : blk.B + (t - cur.Size) = cur.B + t := by omega
        rw [e1, e2] at this; exact this
    · rcases List.mem_cons.mp hm with rfl | hm
      · exact ⟨hc, h2⟩
      · exact ih _ hrest hblk m hm
    · exact ih _ hrest hblk m hm

theorem GetMatchingBlocks_sound (a b : List Line) :
    ∃ merged : List Match,
      GetMatchingBlocks a b = merged ++ [{ A := a.length, B := b.length, Size := 0 }]
        ∧ ∀ m ∈ merged, Match.Sound a b m ∧ 0 < m.Size := by
  refine ⟨_, rfl, ?_⟩
  apply mergeAdjacent_sound
  · apply matchBlocks_sound
    intro m hm; simp at hm
  · intro t ht; simp at ht

theorem sameLine_lt (a b : List Line) (i j : Nat) (h : sameLine a b i j = true) :
    i < a.length ∧ j < b.length ∧ a[i]? = b[j]? := by
  unfold sameLine at h
  cases ha : a[i]? with
  | none => rw [ha] at h; simp at h
  | some x =>
    cases hb : b[j]? with
    | none => rw [ha, hb] at h; simp at h
    | some y =>
      rw [ha, hb] at h
      simp only [decide_eq_true_eq] at h
      subst h
      exact ⟨(List.getElem?_eq_some.mp ha).1, (List.getElem?_eq_some.mp hb).1, rfl⟩

/-- A sound match that starts both sequences and reaches the end of both
shows that they are equal. -/
theorem eq_of_full_match (a b : List Line) (m : Match) (hm : Match.Sound a b m)
    (hA : m.A = 0) (hB : m.B = 0) (ha : a.length ≤ m.Size) (hb : b.length ≤ m.Size) :
    a = b := by
  have hall : ∀ t, t < m.Size → t < a.length ∧ t < b.length ∧ a[t]? = b[t]? := by
    intro t ht
    have := sameLine_lt a b _ _ (hm t ht)
    rw [hA, hB] at this
    simpa using this
  have hsa : m.Size ≤ a.length := by
    by_contra hc
    have := (hall a.length (by omega)).1
    omega
  have hsb : m.Size ≤ b.length := by
    by_contra hc
    have := (hall b.length (by omega)).2.1
    omega
  apply List.ext_getElem?
  intro t
  by_cases ht : t < m.Size
  · exact (hall t ht).2.2
  · rw [List.getElem?_eq_none (by omega), List.getElem?_eq_none (by omega)]

theorem GetOpCodes_loop_length (rest : List Match) (m : Match) (i j : Nat) (h : 0 < m.Size) :
    (GetOpCodes.loop rest (m.A + m.Size) (m.B + m.Size)).length + 1
      ≤ (GetOpCodes.loop (m :: rest) i j).length := by
  simp only [GetOpCodes.loop, h, if_true, List.length_append, List.length_singleton]
  omega

/-- When the opcodes are none, or one `equal` opcode, the two sequences are
equal. -/
theorem eq_of_opcodes (a b : List Line)
    (h : GetOpCodes a b = [] ∨ (GetOpCodes a b).map (fun c => c.Tag) = [Tag.equal]) :
    a = b := by
  obtain ⟨merged, hmb, hs⟩ := GetMatchingBlocks_sound a b
  unfold GetOpCodes at h
  rw [hmb] at h
  match merged, hs with
  | [], _ =>
    simp only [List.nil_append, GetOpCodes.loop] at h
    have : a.length = 0 ∧ b.length = 0 := by
      split_ifs at h <;> simp at h <;> constructor <;> omega
    rw [List.length_eq_zero.mp this.1, List.length_eq_zero.mp this.2]
  | [m], hs =>
    obtain ⟨hsound, hpos⟩ := hs m (List.mem_singleton_self m)
    simp only [List.singleton_append, GetOpCodes.loop, hpos, if_true] at h
    have : m.A = 0 ∧ m.B = 0 ∧ a.length ≤ m.Size ∧ b.length ≤ m.Size := by
      split_ifs at h <;> simp at h <;> omega
    exact eq_of_full_match a b m hsound this.1 this.2.1 this.2.2.1 this.2.2.2
  | m1 :: m2 :: rest, hs =>
    exfalso
    have hp1 := (hs m1 (List.mem_cons_self _ _)).2
    have hp2 := (hs m2 (List.mem_cons_of_mem _ (List.mem_cons_self _ _))).2
    have l1 := GetOpCodes_loop_length
      (m2 :: (rest ++ [{ A := a.length, B := b.length, Size := 0 }])) m1 0 0 hp1
    have l2 := GetOpCodes_loop_length (rest ++ [{ A := a.length, B := b.length, Size := 0 }]) m2
      (m1.A + m1.Size) (m1.B + m1.Size) hp2
    simp only [List.cons_append] at h
    rcases h with h | h
    · rw [h] at l1; simp at l1
    · have := congrArg List.length h
      simp only [List.length_map, List.length_singleton] at this
      omega

theorem trimFirst_tags (n : Int) (cs : List OpCode) :
    (trimFirst n cs).map (fun c => c.Tag) = cs.map (fun c => c.Tag) := by
  cases cs with
  | nil => rfl
  | cons c rest =>
    simp only [trimFirst]
    split_ifs <;> rfl

theorem trimLast_tags (n : Int) (cs : List OpCode) :
    (trimLast n cs).map (fun c => c.Tag) = cs.map (fun c => c.Tag) := by
  induction cs with
  | nil => rfl
  | cons c rest ih =>
    cases rest with
    | nil =>
      simp only [trimLast]
      split_ifs <;> rfl
    | cons d rest =>
      simp only [trimLast, List.map_cons] at ih ⊢
      rw [ih]

theorem grouped_loop_nil (n nn : Int) (cs : List OpCode) :
    ∀ group, (GetGroupedOpCodes.loop n nn cs group).1 = [] →
      (GetGroupedOpCodes.loop n nn cs group).2 = group ++ cs := by
  induction cs with
  | nil => intro group _; simp [GetGroupedOpCodes.loop]
  | cons c rest ih =>
    intro group h
    simp only [GetGroupedOpCodes.loop] at h ⊢
    split_ifs at h ⊢ with hc
    · rw [ih _ h]; simp

/-- The unified diff has at least one group unless the two sequences of lines
are equal, whatever the context `n`. -/
theorem GetGroupedOpCodes_ne_nil (a b : List Line) (n : Int) (h : a ≠ b) :
    GetGroupedOpCodes a b n ≠ [] := by
  intro hg
  apply h
  apply eq_of_opcodes
  unfold GetGroupedOpCodes at hg
  simp only at hg
  generalize (if n < 0 then 3 else n) = k at hg
  generalize wrapInt (k + k) = kk at hg
  by_cases h0 : GetOpCodes a b = []
  · exact Or.inl h0
  · right
    rw [if_neg h0] at hg
    generalize hcs : trimLast k (trimFirst k (GetOpCodes a b)) = codes at hg
    have htags : codes.map (fun c => c.Tag) = (GetOpCodes a b).map (fun c => c.Tag) := by
      rw [← hcs, trimLast_tags, trimFirst_tags]
    have hne : codes ≠ [] := by
      intro hc
      rw [hc] at htags
      exact h0 (List.map_eq_nil_iff.mp htags.symm)
    split_ifs at hg with hc
    · simp at hg
    · have h2 := grouped_loop_nil k kk codes [] hg
      simp only [List.nil_append] at h2
      rw [h2] at hc
      rw [← htags]
      simp only [Bool.and_eq_true, decide_eq_true_eq, Bool.not_eq_true', Bool.and_eq_false_imp,
        not_and, Bool.not_eq_false] at hc
      have hlen : 0 < codes.length := List.length_pos.mpr hne
      have := hc hlen
      by_contra hcontra
      apply this
      intro _
      simpa using hcontra

/-! ## The recursion of the sequence matcher is well founded -/

theorem j2lenPrev_bounds (alo blo bhi i j : Nat) (j2len : List (Nat × Nat))
    (hJ : J2lenIn alo blo bhi i j2len) (hi : alo ≤ i) (hj : blo ≤ j) :
    j2lenPrev j2len j + 1 + alo ≤ i + 1 ∧ j2lenPrev j2len j + 1 + blo ≤ j + 1 := by
  cases j with
  | zero => simp only [j2lenPrev]; omega
  | succ j =>
    simp only [j2lenPrev]
    cases hl : List.lookup j j2len with
    | none => simp only [Option.getD_none]; omega
    | some k =>
      have hmem : (j, k) ∈ j2len := by
        clear hJ
        induction j2len with
        | nil => simp at hl
        | cons p ps ih =>
          obtain ⟨p1, p2⟩ := p
          simp only [List.lookup] at hl
          by_cases hjp : j = p1
          · subst hjp
            simp at hl
            subst hl
            exact List.mem_cons_self _ _
          · have : (j == p1) = false := by simpa using hjp
            rw [this] at hl
            exact List.mem_cons_of_mem _ (ih hl)
      have := hJ (j, k) hmem
      simp only at this
      simp only [Option.getD_some]
      omega

theorem inner_bounds (alo ahi blo bhi i : Nat) (j2len : List (Nat × Nat))
    (hJ : J2lenIn alo blo bhi i j2len) (hi : alo ≤ i) (hi2 : i < ahi) :
    ∀ (js : List Nat) (newj2len : List (Nat × Nat)) (best : Match),
      J2lenIn alo blo bhi (i + 1) newj2len → Match.Within alo ahi blo bhi best →
      J2lenIn alo blo bhi (i + 1) (findLongestMatch.inner blo bhi i j2len js newj2len best).1
        ∧ Match.Within alo ahi blo bhi
            (findLongestMatch.inner blo bhi i j2len js newj2len best).2 := by
  intro js
  induction js with
  | nil => intro n best hn hb; exact ⟨hn, hb⟩
  | cons j js ih =>
    intro n best hn hb
    simp only [findLongestMatch.inner]
    by_cases h1 : j < blo
    · rw [if_pos h1]; exact ih n best hn hb
    · rw [if_neg h1]
      by_cases h2 : bhi ≤ j
      · rw [if_pos h2]; exact ⟨hn, hb⟩
      · rw [if_neg h2]
        have hk := j2lenPrev_bounds alo blo bhi i j j2len hJ hi (by omega)
        apply ih
        · intro p hp
          rcases List.mem_cons.mp hp with rfl | hp
          · simp only; omega
          · exact hn p hp
        · split_ifs
          · unfold Match.Within
            simp only
            omega
          · exact hb

theorem outer_bounds (a b : List Line) (alo ahi blo bhi : Nat) :
    ∀ (count i : Nat) (j2len : List (Nat × Nat)) (best : Match),
      alo ≤ i → i + count = ahi → J2lenIn alo blo bhi i j2len →
      Match.Within alo ahi blo bhi best →
      Match.Within alo ahi blo bhi (findLongestMatch.outer a b blo bhi count i j2len best) := by
  intro count
  induction count with
  | zero => intro i j2len best _ _ _ hb; exact hb
  | succ c ih =>
    intro i j2len best hi hc hJ hb
    simp only [findLongestMatch.outer]
    have h := inner_bounds alo ahi blo bhi i j2len hJ hi (by omega) (b2jAt a b i) [] best
      (by intro p hp; simp at hp) hb
    exact ih (i + 1) _ _ (by omega) (by omega) h.1 h.2

theorem extendLeft_bounds (a b : List Line) (alo ahi blo bhi : Nat) :
    ∀ (fuel : Nat) (m : Match), Match.Within alo ahi blo bhi m →
      Match.Within alo ahi blo bhi (findLongestMatch.extendLeft a b alo blo fuel m) := by
  intro fuel
  induction fuel with
  | zero => intro m hm; exact hm
  | succ f ih =>
    intro m hm
    simp only [findLongestMatch.extendLeft]
    split_ifs with h
    · simp only [Bool.and_eq_true, decide_eq_true_eq] at h
      apply ih
      unfold Match.Within at hm ⊢
      simp only
      omega
    · exact hm

theorem extendRight_bounds (a b : List Line) (alo ahi blo bhi : Nat) :
    ∀ (fuel : Nat) (m : Match), Match.Within alo ahi blo bhi m →
      Match.Within alo ahi blo bhi (findLongestMatch.extendRight a b ahi bhi fuel m) := by
  intro fuel
  induction fuel with
  | zero => intro m hm; exact hm
  | succ f ih =>
    intro m hm
    simp only [findLongestMatch.extendRight]
    split_ifs with h
    · simp only [Bool.and_eq_true, decide_eq_true_eq] at h
      apply ih
      unfold Match.Within at hm ⊢
      simp only
      omega
    · exact hm

/-- The longest match lies inside the two ranges it was looked for in. -/
theorem findLongestMatch_bounds (a b : List Line) (alo ahi blo bhi : Nat) (ha : alo ≤ ahi)
    (hb : blo ≤ bhi) : Match.Within alo ahi blo bhi (findLongestMatch a b alo ahi blo bhi) := by
  unfold findLongestMatch
  apply extendRight_bounds
  apply extendLeft_bounds
  apply outer_bounds
  · exact le_refl _
  · omega
  · intro p hp; simp at hp
  · unfold Match.Within; simp only; omega

/-- The recursion of `matchBlocks` ends before its fuel does: any two amounts
of fuel above the length of the range of `a` give the same blocks. -/
theorem matchBlocks_fuel (a b : List Line) :
    ∀ (f1 f2 alo ahi blo bhi : Nat) (matched : List Match),
      alo ≤ ahi → blo ≤ bhi → ahi - alo < f1 → ahi - alo < f2 →
      matchBlocks a b f1 alo ahi blo bhi matched = matchBlocks a b f2 alo ahi blo bhi matched := by
  intro f1
  induction f1 with
  | zero => intro f2 alo ahi blo bhi matched _ _ h1; omega
  | succ f ih =>
    intro f2 alo ahi blo bhi matched ha hb h1 h2
    obtain ⟨g, rfl⟩ : ∃ g, f2 = g + 1 := ⟨f2 - 1, by omega⟩
    simp only [matchBlocks]
    have hw := findLongestMatch_bounds a b alo ahi blo bhi ha hb
    generalize findLongestMatch a b alo ahi blo bhi = mm at hw ⊢
    unfold Match.Within at hw
    by_cases h0 : 0 < mm.Size
    · rw [if_pos h0, if_pos h0]
      have e1 : (if (decide (alo < mm.A) && decide (blo < mm.B)) = true
            then matchBlocks a b f alo mm.A blo mm.B matched else matched)
          = (if (decide (alo < mm.A) && decide (blo < mm.B)) = true
            then matchBlocks a b g alo mm.A blo mm.B matched else matched) := by
        split_ifs
        · exact ih g alo mm.A blo mm.B matched (by omega) (by omega) (by omega) (by omega)
        · rfl
      rw [e1]
      generalize (if (decide (alo < mm.A) && decide (blo < mm.B)) = true
            then matchBlocks a b g alo mm.A blo mm.B matched else matched) = m1
      by_cases h3 : (decide (mm.A + mm.Size < ahi) && decide (mm.B + mm.Size < bhi)) = true
      · rw [if_pos h3, if_pos h3]
        exact ih g _ _ _ _ _ (by omega) (by omega) (by omega) (by omega)
      · rw [if_neg h3, if_neg h3]
    · rw [if_neg h0, if_neg h0]

/-! ## The opcodes stay inside the two sequences -/

theorem ordered_le (ahi bhi : Nat) (ms : List Match) :
    ∀ i j, Ordered i j ahi bhi ms → i ≤ ahi ∧ j ≤ bhi := by
  induction ms with
  | nil => intro i j h; exact h
  | cons m rest ih =>
    intro i j h
    obtain ⟨h1, h2, h3⟩ := h
    have := ih _ _ h3
    omega

theorem ordered_start (ahi bhi : Nat) (ms : List Match) (i j i0 j0 : Nat) (hi : i0 ≤ i)
    (hj : j0 ≤ j) (h : Ordered i j ahi bhi ms) : Ordered i0 j0 ahi bhi ms := by
  cases ms with
  | nil => exact ⟨by have := h.1; omega, by have := h.2; omega⟩
  | cons m rest => exact ⟨by have := h.1; omega, by have := h.2.1; omega, h.2.2⟩

theorem ordered_append (ahi bhi p q : Nat) (ys : List Match) (xs : List Match) :
    ∀ i j, Ordered i j p q xs → Ordered p q ahi bhi ys → Ordered i j ahi bhi (xs ++ ys) := by
  induction xs with
  | nil =>
    intro i j h1 h2
    exact ordered_start ahi bhi ys p q i j h1.1 h1.2 h2
  | cons m rest ih =>
    intro i j h1 h2
    exact ⟨h1.1, h1.2.1, ih _ _ h1.2.2 h2⟩

/-- The blocks `matchBlocks` adds are in increasing order inside the ranges
they were looked for in. -/
theorem matchBlocks_ordered (a b : List Line) :
    ∀ (fuel alo ahi blo bhi : Nat) (matched : List Match), alo ≤ ahi → blo ≤ bhi →
      ∃ added, matchBlocks a b fuel alo ahi blo bhi matched = matched ++ added
        ∧ Ordered alo blo ahi bhi added := by
  intro fuel
  induction fuel with
  | zero =>
    intro alo ahi blo bhi matched ha hb
    exact ⟨[], by simp [matchBlocks], ha, hb⟩
  | succ f ih =>
    intro alo ahi blo bhi matched ha hb
    simp only [matchBlocks]
    have hw := findLongestMatch_bounds a b alo ahi blo bhi ha hb
    generalize findLongestMatch a b alo ahi blo bhi = mm at hw ⊢
    unfold Match.Within at hw
    by_cases h0 : 0 < mm.Size
    · rw [if_pos h0]
      have h1 : ∃ n1, (if (decide (alo < mm.A) && decide (blo < mm.B)) = true
            then matchBlocks a b f alo mm.A blo mm.B matched else matched) = matched ++ n1
          ∧ Ordered alo blo mm.A mm.B n1 := by
        split_ifs
        · exact ih _ _ _ _ _ hw.1 hw.2.2.1
        · exact ⟨[], by simp, hw.1, hw.2.2.1⟩
      obtain ⟨n1, e1, o1⟩ := h1
      rw [e1]
      by_cases h3 : (decide (mm.A + mm.Size < ahi) && decide (mm.B + mm.Size < bhi)) = true
      · rw [if_pos h3]
        obtain ⟨n2, e2, o2⟩ := ih (mm.A + mm.Size) ahi (mm.B + mm.Size) bhi
          (matched ++ n1 ++ [mm]) hw.2.1 hw.2.2.2
        refine ⟨n1 ++ mm :: n2, by rw [e2]; simp, ?_⟩
        exact ordered_append ahi bhi mm.A mm.B (mm :: n2) n1 _ _ o1
          ⟨le_refl _, le_refl _, o2⟩
      · rw [if_neg h3]
        refine ⟨n1 ++ [mm], by simp, ?_⟩
        exact ordered_append ahi bhi mm.A mm.B [mm] n1 _ _ o1
          ⟨le_refl _, le_refl _, hw.2.1, hw.2.2.2⟩
    · rw [if_neg h0]
      exact ⟨[], by simp, ha, hb⟩

theorem mergeAdjacent_ordered (ahi bhi : Nat) (blocks : List Match) :
    ∀ (cur : Match) (i j : Nat), i ≤ cur.A → j ≤ cur.B →
      Ordered (cur.A + cur.Size) (cur.B + cur.Size) ahi bhi blocks →
      Ordered i j ahi bhi (mergeAdjacent blocks cur) := by
  induction blocks with
  | nil =>
    intro cur i j hi hj h
    simp only [mergeAdjacent]
    split_ifs
    · exact ⟨hi, hj, h⟩
    · exact ⟨by have := h.1; omega, by have := h.2; omega⟩
  | cons blk rest ih =>
    intro cur i j hi hj h
    obtain ⟨h1, h2, h3⟩ := h
    simp only [mergeAdjacent]
    split_ifs with c1 c2
    · simp only [Bool.and_eq_true, decide_eq_true_eq] at c1
      have e1 : cur.A + (cur.Size + blk.Size) = blk.A + blk.Size := by omega
      have e2 : cur.B + (cur.Size + blk.Size) = blk.B + blk.Size := by omega
      refine ih { A := cur.A, B := cur.B, Size := cur.Size + blk.Size } i j hi hj ?_
      show Ordered (cur.A + (cur.Size + blk.Size)) (cur.B + (cur.Size + blk.Size)) ahi bhi rest
      rw [e1, e2]
      exact h3
    · exact ⟨hi, hj, ih blk _ _ h1 h2 h3⟩
    · exact ih blk i j (by omega) (by omega) h3

/-- The matching blocks are in increasing order inside the two sequences. -/
theorem GetMatchingBlocks_ordered (a b : List Line) :
    Ordered 0 0 a.length b.length (GetMatchingBlocks a b) := by
  unfold GetMatchingBlocks
  simp only
  obtain ⟨added, e, o⟩ := matchBlocks_ordered a b (a.length + 1) 0 a.length 0 b.length []
    (Nat.zero_le _) (Nat.zero_le _)
  rw [e, List.nil_append]
  apply ordered_append a.length b.length a.length b.length
  · exact mergeAdjacent_ordered a.length b.length added ⟨0, 0, 0⟩ 0 0 (le_refl _) (le_refl _) o
  · exact ⟨le_refl _, le_refl _, le_refl _, le_refl _⟩

theorem GetOpCodes_loop_inRange (la lb : Nat) (ms : List Match) :
    ∀ i j, Ordered i j la lb ms → ∀ c ∈ GetOpCodes.loop ms i j, OpCode.InRange la lb c := by
  induction ms with
  | nil => intro i j _ c hc; simp [GetOpCodes.loop] at hc
  | cons m rest ih =>
    intro i j h c hc
    obtain ⟨h1, h2, h3⟩ := h
    have hle := ordered_le la lb rest _ _ h3
    simp only [GetOpCodes.loop, List.mem_append] at hc
    rcases hc with (hc | hc) | hc
    · split_ifs at hc <;> simp only [List.mem_singleton, List.not_mem_nil] at hc <;>
        (subst hc; unfold OpCode.InRange; simp only; omega)
    · split_ifs at hc <;> simp only [List.mem_singleton, List.not_mem_nil] at hc
      subst hc
      unfold OpCode.InRange
      simp only
      omega
    · exact ih _ _ h3 c hc

/-- Every opcode of `GetOpCodes` names a range of `a` and a range of `b`. -/
theorem GetOpCodes_inRange (a b : List Line) :
    ∀ c ∈ GetOpCodes a b, OpCode.InRange a.length b.length c :=
  GetOpCodes_loop_inRange a.length b.length _ 0 0 (GetMatchingBlocks_ordered a b)

theorem GetOpCodes_ne_nil (a b : List Line) (h : a ≠ []) : GetOpCodes a b ≠ [] := by
  intro hc
  have := eq_of_opcodes a b (Or.inl hc)
  subst this
  obtain ⟨merged, hmb, hs⟩ := GetMatchingBlocks_sound a a
  unfold GetOpCodes at hc
  rw [hmb] at hc
  cases merged with
  | nil =>
    simp only [List.nil_append, GetOpCodes.loop] at hc
    have hl : 0 < a.length := List.length_pos.mpr h
    simp [hl] at hc
  | cons m rest =>
    have hp := (hs m (List.mem_cons_self _ _)).2
    simp only [List.cons_append, GetOpCodes.loop, hp, if_true] at hc
    simp at hc

/-! ## A context below 2^62 does not overflow -/

theorem wrapInt_eq (x : Int) (h1 : -9223372036854775808 ≤ x) (h2 : x < 9223372036854775808) :
    wrapInt x = x := by
  unfold wrapInt
  omega

theorem inRange_trimL (n : Int) (la lb : Nat) (c : OpCode) (hn : 0 ≤ n)
    (hn2 : n < 4611686018427387904) (hla : la < 4611686018427387904)
    (hlb : lb < 4611686018427387904) (h : OpCode.InRange la lb c) :
    OpCode.InRange la lb
      { c with I1 := max c.I1 (wrapInt (c.I2 - n)), J1 := max c.J1 (wrapInt (c.J2 - n)) } := by
  unfold OpCode.InRange at h ⊢
  simp only
  rw [wrapInt_eq (c.I2 - n) (by omega) (by omega), wrapInt_eq (c.J2 - n) (by omega) (by omega)]
  omega

theorem inRange_trimR (n : Int) (la lb : Nat) (c : OpCode) (hn : 0 ≤ n)
    (hn2 : n < 4611686018427387904) (hla : la < 4611686018427387904)
    (hlb : lb < 4611686018427387904) (h : OpCode.InRange la lb c) :
    OpCode.InRange la lb
      { c with I2 := min c.I2 (wrapInt (c.I1 + n)), J2 := min c.J2 (wrapInt (c.J1 + n)) } := by
  unfold OpCode.InRange at h ⊢
  simp only
  rw [wrapInt_eq (c.I1 + n) (by omega) (by omega), wrapInt_eq (c.J1 + n) (by omega) (by omega)]
  omega

theorem trimFirst_inRange (n : Int) (la lb : Nat) (hn : 0 ≤ n)
    (hn2 : n < 4611686018427387904) (hla : la < 4611686018427387904)
    (hlb : lb < 4611686018427387904) (cs : List OpCode)
    (h : ∀ c ∈ cs, OpCode.InRange la lb c) : ∀ c ∈ trimFirst n cs, OpCode.InRange la lb c := by
  cases cs with
  | nil => exact h
  | cons c rest =>
    intro x hx
    simp only [trimFirst] at hx
    split_ifs at hx
    · rcases List.mem_cons.mp hx with rfl | hx
      · exact inRange_trimL n la lb c hn hn2 hla hlb (h c (List.mem_cons_self _ _))
      · exact h x (List.mem_cons_of_mem _ hx)
    · exact h x hx

theorem trimLast_inRange (n : Int) (la lb : Nat) (hn : 0 ≤ n)
    (hn2 : n < 4611686018427387904) (hla : la < 4611686018427387904)
    (hlb : lb < 4611686018427387904) (cs : List OpCode) :
    (∀ c ∈ cs, OpCode.InRange la lb c) → ∀ c ∈ trimLast n cs, OpCode.InRange la lb c := by
  induction cs with
  | nil => intro h; exact h
  | cons c rest ih =>
    intro h x hx
    cases rest with
    | nil =>
      simp only [trimLast] at hx
      split_ifs at hx
      · rw [List.mem_singleton.mp hx]
        exact inRange_trimR n la lb c hn hn2 hla hlb (h c (List.mem_cons_self _ _))
      · exact h x hx
    | cons d rest =>
      simp only [trimLast] at hx
      rcases List.mem_cons.mp hx with rfl | hx
      · exact h _ (List.mem_cons_self _ _)
      · exact ih (fun y hy => h y (List.mem_cons_of_mem _ hy)) x hx

theorem grouped_loop_inRange (n nn : Int) (la lb : Nat) (hn : 0 ≤ n)
    (hn2 : n < 4611686018427387904) (hla : la < 4611686018427387904)
    (hlb : lb < 4611686018427387904) (cs : List OpCode) :
    ∀ group, (∀ c ∈ cs, OpCode.InRange la lb c) → (∀ c ∈ group, OpCode.InRange la lb c) →
      (∀ g ∈ (GetGroupedOpCodes.loop n nn cs group).1, g ≠ [] ∧ ∀ c ∈ g, OpCode.InRange la lb c)
        ∧ ∀ c ∈ (GetGroupedOpCodes.loop n nn cs group).2, OpCode.InRange la lb c := by
  induction cs with
  | nil =>
    intro group _ hg
    simp only [GetGroupedOpCodes.loop]
    exact ⟨fun g hg => by simp at hg, hg⟩
  | cons c rest ih =>
    intro group hcs hg
    have hc := hcs c (List.mem_cons_self _ _)
    have hrest : ∀ x ∈ rest, OpCode.InRange la lb x := fun x hx => hcs x (List.mem_cons_of_mem _ hx)
    simp only [GetGroupedOpCodes.loop]
    split_ifs
    · have hi := ih [{ c with I1 := max c.I1 (wrapInt (c.I2 - n)),
                              J1 := max c.J1 (wrapInt (c.J2 - n)) }] hrest
        (fun x hx => by
          rw [List.mem_singleton.mp hx]
          exact inRange_trimL n la lb c hn hn2 hla hlb hc)
      refine ⟨?_, hi.2⟩
      intro g hgm
      rcases List.mem_cons.mp hgm with rfl | hgm
      · refine ⟨by simp, ?_⟩
        intro x hx
        rcases List.mem_append.mp hx with hx | hx
        · exact hg x hx
        · rw [List.mem_singleton.mp hx]
          exact inRange_trimR n la lb c hn hn2 hla hlb hc
      · exact hi.1 g hgm
    · apply ih _ hrest
      intro x hx
      rcases List.mem_append.mp hx with hx | hx
      · exact hg x hx
      · rw [List.mem_singleton.mp hx]; exact hc

/-- With a context below 2^62 and sequences of fewer than 2^62 lines, every
group of `GetGroupedOpCodes` has an opcode, and every opcode names a range of
`a` and a range of `b`. -/
theorem GetGroupedOpCodes_inRange (a b : List Line) (n : Int) (ha : a ≠ [])
    (hn : n < 4611686018427387904) (hla : a.length < 4611686018427387904)
    (hlb : b.length < 4611686018427387904) :
    ∀ g ∈ GetGroupedOpCodes a b n, g ≠ [] ∧ ∀ c ∈ g, OpCode.InRange a.length b.length c := by
  unfold GetGroupedOpCodes
  simp only
  have hk : (0 : Int) ≤ (if n < 0 then 3 else n) ∧ (if n < 0 then 3 else n) < 4611686018427387904 := by
    split_ifs <;> omega
  generalize (if n < 0 then 3 else n) = k at hk
  rw [if_neg (GetOpCodes_ne_nil a b ha)]
  have hcodes := trimLast_inRange k a.length b.length hk.1 hk.2 hla hlb _
    (trimFirst_inRange k a.length b.length hk.1 hk.2 hla hlb _ (GetOpCodes_inRange a b))
  have hl := grouped_loop_inRange k (wrapInt (k + k)) a.length b.length hk.1 hk.2 hla hlb _ []
    hcodes (fun c hc => by simp at hc)
  generalize GetGroupedOpCodes.loop k (wrapInt (k + k)) (trimLast k (trimFirst k (GetOpCodes a b)))
    [] = r at hl
  intro g hg
  split_ifs at hg with hc
  · rcases List.mem_append.mp hg with hg | hg
    · exact hl.1 g hg
    · rw [List.mem_singleton.mp hg]
      simp only [Bool.and_eq_true, decide_eq_true_eq] at hc
      exact ⟨List.length_pos.mp hc.1, hl.2⟩
  · exact hl.1 g hg

/-! ## No slice expression of `WriteUnifiedDiff` panics on such opcodes -/

theorem markedLines_some (mark : Byte) (a : List Line) (i1 i2 : Int) (h0 : 0 ≤ i1)
    (h1 : i1 ≤ i2) (h2 : i2 ≤ (a.length : Int)) : ∃ text, markedLines mark a i1 i2 = some text := by
  unfold markedLines sliceLines
  rw [if_pos ⟨h0, h1, h2⟩]
  exact ⟨_, rfl⟩

theorem writeOpCode_some (diff : UnifiedDiff) (c : OpCode)
    (h : OpCode.InRange diff.A.length diff.B.length c) : ∃ text, writeOpCode diff c = some text := by
  obtain ⟨h1, h2, h3, h4, h5, h6⟩ := h
  obtain ⟨ta, hta⟩ := markedLines_some 0x20 diff.A c.I1 c.I2 h1 h2 h3
  obtain ⟨tb, htb⟩ := markedLines_some 0x2d diff.A c.I1 c.I2 h1 h2 h3
  obtain ⟨tc, htc⟩ := markedLines_some 0x2b diff.B c.J1 c.J2 h4 h5 h6
  unfold writeOpCode
  rw [hta, htb, htc]
  split_ifs <;> exact ⟨_, rfl⟩

theorem writeOpCodes_some (diff : UnifiedDiff) (g : List OpCode) :
    (∀ c ∈ g, OpCode.InRange diff.A.length diff.B.length c) →
      ∃ text, writeOpCodes diff g = some text := by
  induction g with
  | nil => intro _; exact ⟨_, rfl⟩
  | cons c rest ih =>
    intro h
    obtain ⟨t1, h1⟩ := writeOpCode_some diff c (h c (List.mem_cons_self _ _))
    obtain ⟨t2, h2⟩ := ih (fun x hx => h x (List.mem_cons_of_mem _ hx))
    simp only [writeOpCodes, h1, h2]
    exact ⟨_, rfl⟩

theorem writeGroup_some (diff : UnifiedDiff) (g : List OpCode) (hne : g ≠ [])
    (h : ∀ c ∈ g, OpCode.InRange diff.A.length diff.B.length c) :
    ∃ text, writeGroup diff g = some text := by
  obtain ⟨t, ht⟩ := writeOpCodes_some diff g h
  unfold writeGroup
  cases g with
  | nil => exact absurd rfl hne
  | cons c rest =>
    obtain ⟨l, hl⟩ : ∃ l, (c :: rest).getLast? = some l :=
      ⟨_, List.getLast?_eq_getLast _ (by simp)⟩
    simp only [List.head?_cons, hl, ht]
    exact ⟨_, rfl⟩

theorem writeGroups_some (diff : UnifiedDiff) (gs : List (List OpCode)) :
    (∀ g ∈ gs, g ≠ [] ∧ ∀ c ∈ g, OpCode.InRange diff.A.length diff.B.length c) →
      ∃ text, writeGroups diff gs = some text := by
  induction gs with
  | nil => intro _; exact ⟨_, rfl⟩
  | cons g rest ih =>
    intro h
    obtain ⟨hne, hg⟩ := h g (List.mem_cons_self _ _)
    obtain ⟨t1, h1⟩ := writeGroup_some diff g hne hg
    obtain ⟨t2, h2⟩ := ih (fun x hx => h x (List.mem_cons_of_mem _ hx))
    simp only [writeGroups, h1, h2]
    exact ⟨_, rfl⟩

/-- With a context below 2^62 and fewer than 2^62 lines on either side,
`WriteUnifiedDiff` does not panic: it writes the header and the groups, or
nothing when there is no group. -/
theorem WriteUnifiedDiff_some (diff : UnifiedDiff) (ha : diff.A ≠ [])
    (hn : diff.Context < 4611686018427387904) (hla : diff.A.length < 4611686018427387904)
    (hlb : diff.B.length < 4611686018427387904) :
    ∃ body, writeGroups diff (GetGroupedOpCodes diff.A diff.B diff.Context) = some body
      ∧ WriteUnifiedDiff diff =
          some (if GetGroupedOpCodes diff.A diff.B diff.Context = [] then []
            else writeHeader diff ++ body) := by
  obtain ⟨body, hb⟩ := writeGroups_some diff _
    (GetGroupedOpCodes_inRange diff.A diff.B diff.Context ha hn hla hlb)
  refine ⟨body, hb, ?_⟩
  unfold WriteUnifiedDiff
  cases hg : GetGroupedOpCodes diff.A diff.B diff.Context with
  | nil => simp
  | cons g gs =>
    rw [hg] at hb
    simp only [hb, Option.map_some', reduceCtorEq, if_false]

/-! ## The diff renderer -/

theorem SplitLines_flatten (s : List Byte) : (SplitLines s).flatten = s ++ [0x0a] := by
  induction s with
  | nil => rfl
  | cons c cs ih =>
    simp only [SplitLines]
    split_ifs with hc
    · simp [ih]
    · cases hs : SplitLines cs with
      | nil => rw [hs] at ih; simp at ih
      | cons l ls =>
        rw [hs] at ih
        simp only [List.flatten_cons, List.cons_append] at ih ⊢
        rw [ih]

theorem SplitLines_injective (s t : List Byte) (h : SplitLines s = SplitLines t) : s = t := by
  have := congrArg List.flatten h
  rw [SplitLines_flatten, SplitLines_flatten] at this
  exact List.append_cancel_right this

theorem SplitLines_ne_nil (s : List Byte) : SplitLines s ≠ [] := by
  intro h
  have := SplitLines_flatten s
  rw [h] at this
  simp at this

/-- What `printEventWithDiff` does with an event of the `object.updated` shape. -/
theorem printEventWithDiff_shape (n : Int) (event params oldObj newObj : JMap) (t : List Byte)
    (hm : JMap.get event (bytesOf "method") = some (JValue.string (bytesOf "object.updated")))
    (hp : JMap.get event (bytesOf "params") = some (JValue.object params))
    (ht : JMap.get params (bytesOf "type") = some (JValue.string t))
    (ho : JMap.get params (bytesOf "oldObject") = some (JValue.object oldObj))
    (hn : JMap.get params (bytesOf "newObject") = some (JValue.object newObj)) :
    printEventWithDiff n event =
      match WriteUnifiedDiff
        { A := SplitLines ((MarshalIndent oldObj).getD []),
          B := SplitLines ((MarshalIndent newObj).getD []),
          FromFile := bytesOf "old " ++ t, ToFile := bytesOf "new " ++ t,
          Context := n } with
      | none => (Outcome.panicked "slice bounds out of range", [])
      | some text => (Outcome.returned none, text ++ [0x0a]) := by
  unfold printEventWithDiff
  rw [hm]
  simp only [asString, if_true]
  rw [hp]
  simp only [asMap]
  rw [ht]
  simp only [asString]
  rw [ho]
  simp only [asMap]
  rw [hn]
  simp only [asMap, GetUnifiedDiffString]
  cases WriteUnifiedDiff _ <;> rfl

theorem asString_eq_some (x : Option JValue) (s : List Byte) (h : asString x = some s) :
    x = some (JValue.string s) := by
  unfold asString at h
  split at h
  · simp only [Option.some.injEq] at h; rw [h]
  · cases h

theorem asMap_eq_some (x : Option JValue) (m : JMap) (h : asMap x = some m) :
    x = some (JValue.object m) := by
  unfold asMap at h
  split at h
  · simp only [Option.some.injEq] at h; rw [h]
  · cases h

/-- Either `printEventWithDiff` returns one of its errors before it looks at
the diff, or the event has the `object.updated` shape. -/
theorem printEventWithDiff_cases (n : Int) (event : JMap) :
    (∃ e, printEventWithDiff n event = (Outcome.returned (some e), []))
      ∨ ∃ p t o o2,
        JMap.get event (bytesOf "method") = some (JValue.string (bytesOf "object.updated"))
          ∧ JMap.get event (bytesOf "params") = some (JValue.object p)
          ∧ JMap.get p (bytesOf "type") = some (JValue.string t)
          ∧ JMap.get p (bytesOf "oldObject") = some (JValue.object o)
          ∧ JMap.get p (bytesOf "newObject") = some (JValue.object o2) := by
  unfold printEventWithDiff
  split
  · rename_i method hmeth
    split_ifs with hme
    · split
      · exact Or.inl ⟨_, rfl⟩
      · rename_i p hp
        split
        · exact Or.inl ⟨_, rfl⟩
        · rename_i t ht
          split
          · exact Or.inl ⟨_, rfl⟩
          · rename_i o ho
            split
            · exact Or.inl ⟨_, rfl⟩
            · rename_i o2 hn
              right
              refine ⟨p, t, o, o2, ?_, asMap_eq_some _ _ hp, asString_eq_some _ _ ht,
                asMap_eq_some _ _ ho, asMap_eq_some _ _ hn⟩
              rw [asString_eq_some _ _ hmeth, hme]
    · exact Or.inl ⟨_, rfl⟩
  · exact Or.inl ⟨_, rfl⟩

/-- C8 at the failing input: the event with `type` `session`, `oldObject`
`{"a":1,"b":2}` and `newObject` `{"a":1,"b":3}` has the `object.updated`
shape, and with `-diff-context=9223372036854775807` `printEventWithDiff` does
not return nil on it: `i1 + n` wraps around in `GetGroupedOpCodes` and a slice
expression of `WriteUnifiedDiff` panics. -/
theorem printEventWithDiff_panics_at_max_context :
    JMap.get (sampleEvent (sampleObject "2") (sampleObject "3")) (bytesOf "method")
        = some (JValue.string (bytesOf "object.updated"))
      ∧ JMap.get (sampleEvent (sampleObject "2") (sampleObject "3")) (bytesOf "params")
        = some (JValue.object (sampleParams (sampleObject "2") (sampleObject "3")))
      ∧ JMap.get (sampleParams (sampleObject "2") (sampleObject "3")) (bytesOf "type")
        = some (JValue.string (bytesOf "session"))
      ∧ JMap.get (sampleParams (sampleObject "2") (sampleObject "3")) (bytesOf "oldObject")
        = some (JValue.object (sampleObject "2"))
      ∧ JMap.get (sampleParams (sampleObject "2") (sampleObject "3")) (bytesOf "newObject")
        = some (JValue.object (sampleObject "3"))
      ∧ printEventWithDiff 9223372036854775807
          (sampleEvent (sampleObject "2") (sampleObject "3"))
        = (Outcome.panicked "slice bounds out of range", [])
      ∧ (printEventWithDiff 9223372036854775807
          (sampleEvent (sampleObject "2") (sampleObject "3"))).1 ≠ Outcome.returned none := by
  have h : printEventWithDiff 9223372036854775807
      (sampleEvent (sampleObject "2") (sampleObject "3"))
      = (Outcome.panicked "slice bounds out of range", []) := rfl
  refine ⟨rfl, rfl, rfl, rfl, rfl, h, ?_⟩
  rw [h]
  exact Outcome.noConfusion

/-- From a context of 2^62 on, `n + n` wraps around in `GetGroupedOpCodes`:
with `-diff-context=4611686018427387904` two equal objects are printed as a
header and a hunk without a change, where every smaller context prints
nothing. -/
theorem printEventWithDiff_context_wraps :
    printEventWithDiff 4611686018427387904 (sampleEvent (sampleObject "2") (sampleObject "2"))
        = (Outcome.returned none,
            bytesOf ("--- old session\n+++ new session\n@@ -1,4 +1,4 @@\n \x7b\n   \"a\": 1,\n"
              ++ "   \"b\": 2\n \x7d\n\n"))
      ∧ printEventWithDiff 4611686018427387903
          (sampleEvent (sampleObject "2") (sampleObject "2"))
        = (Outcome.returned none, [0x0a]) := by
  refine ⟨rfl, rfl⟩

/-- C8, amended: with a context below 2^62 and objects that serialize to fewer
than 2^62 lines, `printEventWithDiff` returns, and it returns an error exactly
when `method` is not the string `object.updated`, or `params` is not a mapping,
or `params.type` is not a string, or `params.oldObject` or `params.newObject`
is not a mapping (a missing field being none of these); for every other event
it returns nil. -/
theorem printEventWithDiff_error_iff (n : Int) (event : JMap)
    (hctx : n < 4611686018427387904)
    (hsize : ∀ p o, JMap.get event (bytesOf "params") = some (JValue.object p) →
      (JMap.get p (bytesOf "oldObject") = some (JValue.object o)
        ∨ JMap.get p (bytesOf "newObject") = some (JValue.object o)) →
      (SplitLines ((MarshalIndent o).getD [])).length < 4611686018427387904) :
    ∃ err, (printEventWithDiff n event).1 = Outcome.returned err ∧
      (err ≠ none ↔
        (JMap.get event (bytesOf "method") ≠ some (JValue.string (bytesOf "object.updated"))
          ∨ (∀ p, JMap.get event (bytesOf "params") ≠ some (JValue.object p))
          ∨ ∃ p, JMap.get event (bytesOf "params") = some (JValue.object p)
              ∧ ((∀ t, JMap.get p (bytesOf "type") ≠ some (JValue.string t))
                ∨ (∀ o, JMap.get p (bytesOf "oldObject") ≠ some (JValue.object o))
                ∨ (∀ o, JMap.get p (bytesOf "newObject") ≠ some (JValue.object o))))) := by
  have hshape : ∀ p t o o2,
      JMap.get event (bytesOf "method") = some (JValue.string (bytesOf "object.updated")) →
      JMap.get event (bytesOf "params") = some (JValue.object p) →
      JMap.get p (bytesOf "type") = some (JValue.string t) →
      JMap.get p (bytesOf "oldObject") = some (JValue.object o) →
      JMap.get p (bytesOf "newObject") = some (JValue.object o2) →
      (printEventWithDiff n event).1 = Outcome.returned none := by
    intro p t o o2 hm hp ht ho hn
    rw [printEventWithDiff_shape n event p o o2 t hm hp ht ho hn]
    obtain ⟨body, -, hw⟩ := WriteUnifiedDiff_some
      { A := SplitLines ((MarshalIndent o).getD []),
        B := SplitLines ((MarshalIndent o2).getD []),
        FromFile := bytesOf "old " ++ t, ToFile := bytesOf "new " ++ t, Context := n }
      (SplitLines_ne_nil _) hctx (hsize p o hp (Or.inl ho)) (hsize p o2 hp (Or.inr hn))
    rw [hw]
  have hno : ∀ p t o o2,
      JMap.get event (bytesOf "method") = some (JValue.string (bytesOf "object.updated")) →
      JMap.get event (bytesOf "params") = some (JValue.object p) →
      JMap.get p (bytesOf "type") = some (JValue.string t) →
      JMap.get p (bytesOf "oldObject") = some (JValue.object o) →
      JMap.get p (bytesOf "newObject") = some (JValue.object o2) →
      ¬ (JMap.get event (bytesOf "method") ≠ some (JValue.string (bytesOf "object.updated"))
          ∨ (∀ p, JMap.get event (bytesOf "params") ≠ some (JValue.object p))
          ∨ ∃ p, JMap.get event (bytesOf "params") = some (JValue.object p)
              ∧ ((∀ t, JMap.get p (bytesOf "type") ≠ some (JValue.string t))
                ∨ (∀ o, JMap.get p (bytesOf "oldObject") ≠ some (JValue.object o))
                ∨ (∀ o, JMap.get p (bytesOf "newObject") ≠ some (JValue.object o)))) := by
    intro p ty o o2 hm hp ht ho hn h
    rcases h with h | h | ⟨q, hq, h⟩
    · exact h hm
    · exact h p hp
    · rw [hp] at hq
      simp only [Option.some.injEq, JValue.object.injEq] at hq
      subst hq
      rcases h with h | h | h
      · exact h ty ht
      · exact h o ho
      · exact h o2 hn
  rcases printEventWithDiff_cases n event with ⟨e, he⟩ | ⟨p, t, o, o2, hm, hp, ht, ho, hn⟩
  · refine ⟨some e, by rw [he], ?_⟩
    constructor
    · intro _
      by_contra hc
      push_neg at hc
      obtain ⟨hm, ⟨p, hp⟩, hrest⟩ := hc
      obtain ⟨⟨t, ht⟩, ⟨o, ho⟩, ⟨o2, hn⟩⟩ := hrest p hp
      have := hshape p t o o2 hm hp ht ho hn
      rw [he] at this
      cases this
    · intro _ h
      cases h
  · refine ⟨none, hshape p t o o2 hm hp ht ho hn, ?_⟩
    constructor
    · intro h
      exact absurd rfl h
    · intro h
      exact absurd h (hno p t o o2 hm hp ht ho hn)

theorem printEventWithDiff_error_iff_witness :
    (printEventWithDiff 2 (sampleEvent (sampleObject "2") (sampleObject "3"))).1
        = Outcome.returned none
      ∧ ∃ e, (printEventWithDiff 2 [(bytesOf "method", JValue.string (bytesOf "x.y"))]).1
        = Outcome.returned (some e) := by
  obtain ⟨err, h1, h2⟩ := printEventWithDiff_error_iff 2
    (sampleEvent (sampleObject "2") (sampleObject "3")) (by decide)
    (by
      intro p o hp ho
      have e : JMap.get (sampleEvent (sampleObject "2") (sampleObject "3")) (bytesOf "params")
          = some (JValue.object (sampleParams (sampleObject "2") (sampleObject "3"))) := rfl
      rw [e] at hp
      cases hp
      rcases ho with ho | ho
      · have e1 : JMap.get (sampleParams (sampleObject "2") (sampleObject "3"))
            (bytesOf "oldObject") = some (JValue.object (sampleObject "2")) := rfl
        rw [e1] at ho
        cases ho
        decide
      · have e1 : JMap.get (sampleParams (sampleObject "2") (sampleObject "3"))
            (bytesOf "newObject") = some (JValue.object (sampleObject "3")) := rfl
        rw [e1] at ho
        cases ho
        decide)
  obtain ⟨err2, h3, h4⟩ := printEventWithDiff_error_iff 2
    [(bytesOf "method", JValue.string (bytesOf "x.y"))] (by decide)
    (by
      intro p o hp
      have e : JMap.get [(bytesOf "method", JValue.string (bytesOf "x.y"))] (bytesOf "params")
          = none := rfl
      rw [e] at hp
      cases hp)
  constructor
  · rw [h1]
    cases err with
    | none => rfl
    | some e =>
      have hh : (printEventWithDiff 2 (sampleEvent (sampleObject "2") (sampleObject "3"))).1
          = Outcome.returned none := rfl
      rw [hh] at h1
      cases h1
  · cases err2 with
    | none =>
      have hh : (printEventWithDiff 2 [(bytesOf "method", JValue.string (bytesOf "x.y"))]).1
          = Outcome.returned (some (GoError.new (bytesOf "not diffable"))) := rfl
      rw [hh] at h3
      cases h3
    | some e => exact ⟨e, h3⟩

/-- C9 at the failing input: for the well-formed `object.updated` event with
`type` `session` and `oldObject` = `newObject` = `{"a":1,"b":2}`,
`printEventWithDiff` returns nil and prints an empty text (only the new line of
`Println`), which contains neither `old session` nor `new session`. -/
theorem printEventWithDiff_equal_objects_no_header :
    printEventWithDiff 2 (sampleEvent (sampleObject "2") (sampleObject "2"))
        = (Outcome.returned none, [0x0a])
      ∧ ¬ (bytesOf "old session"
          <:+: (printEventWithDiff 2 (sampleEvent (sampleObject "2") (sampleObject "2"))).2)
      ∧ ¬ (bytesOf "new session"
          <:+: (printEventWithDiff 2 (sampleEvent (sampleObject "2") (sampleObject "2"))).2) := by
  have h : printEventWithDiff 2 (sampleEvent (sampleObject "2") (sampleObject "2"))
      = (Outcome.returned none, [0x0a]) := rfl
  rw [h]
  refine ⟨rfl, ?_, ?_⟩ <;>
  · intro h
    have := h.length_le
    revert this
    decide

/-- C9, amended: for a well-formed `object.updated` event with `params.type` =
`t`, a context below 2^62 and objects that serialize to fewer than 2^62 lines,
`printEventWithDiff` returns nil and prints what `WriteUnifiedDiff` writes for
the lines of the two 2-space-indented serializations, with `old t` and `new t`
as file names and the configured context; whenever the two serializations
differ, the text begins with the header lines `--- old t` and `+++ new t`. -/
theorem printEventWithDiff_headers (n : Int) (event params oldObj newObj : JMap) (t : List Byte)
    (hm : JMap.get event (bytesOf "method") = some (JValue.string (bytesOf "object.updated")))
    (hp : JMap.get event (bytesOf "params") = some (JValue.object params))
    (ht : JMap.get params (bytesOf "type") = some (JValue.string t))
    (ho : JMap.get params (bytesOf "oldObject") = some (JValue.object oldObj))
    (hn : JMap.get params (bytesOf "newObject") = some (JValue.object newObj))
    (hctx : n < 4611686018427387904)
    (hold : (SplitLines ((MarshalIndent oldObj).getD [])).length < 4611686018427387904)
    (hnew : (SplitLines ((MarshalIndent newObj).getD [])).length < 4611686018427387904) :
    (∃ text, WriteUnifiedDiff
          { A := SplitLines ((MarshalIndent oldObj).getD []),
            B := SplitLines ((MarshalIndent newObj).getD []),
            FromFile := bytesOf "old " ++ t, ToFile := bytesOf "new " ++ t,
            Context := n } = some text
        ∧ printEventWithDiff n event = (Outcome.returned none, text ++ [0x0a]))
      ∧ ((MarshalIndent oldObj).getD [] ≠ (MarshalIndent newObj).getD [] →
          (bytesOf "--- old " ++ t ++ [0x0a] ++ bytesOf "+++ new " ++ t ++ [0x0a])
              <+: (printEventWithDiff n event).2
            ∧ (bytesOf "old " ++ t) <:+: (printEventWithDiff n event).2
            ∧ (bytesOf "new " ++ t) <:+: (printEventWithDiff n event).2) := by
  have hs := printEventWithDiff_shape n event params oldObj newObj t hm hp ht ho hn
  obtain ⟨body, hb, hw⟩ := WriteUnifiedDiff_some
    { A := SplitLines ((MarshalIndent oldObj).getD []),
      B := SplitLines ((MarshalIndent newObj).getD []),
      FromFile := bytesOf "old " ++ t, ToFile := bytesOf "new " ++ t, Context := n }
    (SplitLines_ne_nil _) hctx hold hnew
  simp only at hw
  rw [hw] at hs
  simp only at hs
  refine ⟨⟨_, hw, hs⟩, fun hne => ?_⟩
  have hlines : SplitLines ((MarshalIndent oldObj).getD [])
      ≠ SplitLines ((MarshalIndent newObj).getD []) :=
    fun h => hne (SplitLines_injective _ _ h)
  have hg := GetGroupedOpCodes_ne_nil _ _ n hlines
  rw [hs, if_neg hg]
  have hhead : writeHeader
      { A := SplitLines ((MarshalIndent oldObj).getD []),
        B := SplitLines ((MarshalIndent newObj).getD []),
        FromFile := bytesOf "old " ++ t, ToFile := bytesOf "new " ++ t, Context := n }
      = bytesOf "--- old " ++ t ++ [0x0a] ++ bytesOf "+++ new " ++ t ++ [0x0a] := by
    unfold writeHeader
    have e1 : (bytesOf "old " ++ t ≠ []) := by
      intro h
      have := congrArg List.length h
      simp [bytesOf] at this
    simp only [e1]
    show bytesOf "--- " ++ (bytesOf "old " ++ t) ++ [0x0a]
        ++ bytesOf "+++ " ++ (bytesOf "new " ++ t) ++ [0x0a] = _
    have e2 : bytesOf "--- old " = bytesOf "--- " ++ bytesOf "old " := by decide
    have e3 : bytesOf "+++ new " = bytesOf "+++ " ++ bytesOf "new " := by decide
    rw [e2, e3]
    simp only [List.append_assoc]
  rw [hhead]
  refine ⟨?_, ?_, ?_⟩
  · exact ⟨body ++ [0x0a], by simp only [List.append_assoc]⟩
  · have e2 : bytesOf "--- old " = bytesOf "--- " ++ bytesOf "old " := by decide
    rw [e2]
    refine ⟨bytesOf "--- ", [0x0a] ++ bytesOf "+++ new " ++ t ++ [0x0a] ++ body ++ [0x0a], ?_⟩
    simp only [List.append_assoc]
  · have e3 : bytesOf "+++ new " = bytesOf "+++ " ++ bytesOf "new " := by decide
    rw [e3]
    refine ⟨bytesOf "--- old " ++ t ++ [0x0a] ++ bytesOf "+++ ", [0x0a] ++ body ++ [0x0a], ?_⟩
    simp only [List.append_assoc]

theorem printEventWithDiff_headers_witness :
    (bytesOf "old session"
        <:+: (printEventWithDiff 2 (sampleEvent (sampleObject "2") (sampleObject "3"))).2)
      ∧ (printEventWithDiff 2 (sampleEvent (sampleObject "2") (sampleObject "3")))
        = (Outcome.returned none,
            bytesOf ("--- old session\n+++ new session\n@@ -1,4 +1,4 @@\n \x7b\n   \"a\": 1,\n"
              ++ "-  \"b\": 2\n+  \"b\": 3\n \x7d\n\n")) :=
  ⟨((printEventWithDiff_headers 2 (sampleEvent (sampleObject "2") (sampleObject "3"))
      (sampleParams (sampleObject "2") (sampleObject "3")) (sampleObject "2") (sampleObject "3")
      (bytesOf "session") rfl rfl rfl rfl rfl (by decide) (by decide) (by decide)).2
      (by decide)).2.1, by rfl⟩

/-! ## What the scanner has validated, the decoder can build -/

theorem scansAll_nil (ns : Bool) (s : scanner) (k : Nat) (h : ScansAll ns s [] k) :
    (s.doStep 0x20).2 = ScanOp.scanEnd := by
  unfold ScansAll at h
  simp only [readValue.loop] at h
  by_contra hc
  rw [if_neg hc] at h
  split_ifs at h

theorem scansAll_cons (ns : Bool) (s : scanner) (c : Byte) (cs : List Byte) (k : Nat)
    (h : ScansAll ns s (c :: cs) k) :
    (s.doStep c).2 ≠ ScanOp.scanError ∧ (s.doStep c).2 ≠ ScanOp.scanEnd
      ∧ (((s.doStep c).2 = ScanOp.scanEndObject ∨ (s.doStep c).2 = ScanOp.scanEndArray) →
          if (stateEndValue (s.doStep c).1 0x20).2 = ScanOp.scanEnd then cs = []
          else ScansAll ns (stateEndValue (s.doStep c).1 0x20).1 cs (k + 1))
      ∧ ((s.doStep c).2 ≠ ScanOp.scanEndObject → (s.doStep c).2 ≠ ScanOp.scanEndArray →
          ScansAll ns (s.doStep c).1 cs (k + 1)) := by
  unfold ScansAll at h ⊢
  simp only [readValue.loop, List.length_cons] at h
  have e : k + (cs.length + 1) = k + 1 + cs.length := by omega
  cases hop : (s.doStep c).2 <;> rw [hop] at h <;> simp only at h <;>
    simp only [ne_eq, reduceCtorEq, not_false_eq_true, not_true_eq_false, false_or, or_false,
      or_self, true_and, false_and, and_true, false_implies, forall_const, imp_false,
      implies_true, not_true, IsEmpty.forall_iff] <;>
    first
    | (rw [e] at h; exact h)
    | (simp only [Except.ok.injEq] at h; omega)
    | (split_ifs at h ⊢ with hc
       · simp only [Except.ok.injEq] at h
         have : cs.length = 0 := by omega
         exact List.length_eq_zero.mp this
       · rw [e] at h; exact h)
    | cases h

theorem endState_of_endValue (s : scanner) (h : s.step = Step.endValue) : EndState s := by
  intro c _
  simp only [scanner.doStep, h]

/-! ### The literals `true`, `false`, `null` -/

theorem scansAll_literal (ns : Bool) (s : scanner) (want : Byte) (next : Step) (ctx : String)
    (w : List Byte) (k : Nat) (hd : ∀ c, s.doStep c = stateLiteral want next ctx s c)
    (hw : want ≠ 0x20) (h : ScansAll ns s w k) :
    ∃ w', w = want :: w' ∧ ScansAll ns { s with step := next } w' (k + 1) := by
  cases w with
  | nil =>
    have := scansAll_nil ns s k h
    rw [hd] at this
    simp only [stateLiteral] at this
    rw [if_neg (fun hc => hw hc.symm)] at this
    simp [scanner.error] at this
  | cons c cs =>
    obtain ⟨h1, -, -, h4⟩ := scansAll_cons ns s c cs k h
    rw [hd] at h1 h4
    simp only [stateLiteral] at h1 h4
    by_cases hc : c = want
    · subst hc
      simp only [if_true] at h4
      exact ⟨cs, rfl, h4 (by simp) (by simp)⟩
    · rw [if_neg hc] at h1
      simp [scanner.error] at h1

theorem scansAll_null (ns : Bool) (s : scanner) (w : List Byte) (k : Nat)
    (hs : s.step = Step.n) (h : ScansAll ns s w k) :
    ∃ w', w = 0x75 :: 0x6c :: 0x6c :: w'
      ∧ ScansAll ns { s with step := Step.endValue } w' (k + 3) := by
  obtain ⟨w1, rfl, h1⟩ := scansAll_literal ns s 0x75 Step.nu
    "in literal null (expecting 'u')" w k
    (fun c => by simp only [scanner.doStep, hs]) (by decide) h
  obtain ⟨w2, rfl, h2⟩ := scansAll_literal ns _ 0x6c Step.nul
    "in literal null (expecting 'l')" w1 (k + 1)
    (fun c => by simp only [scanner.doStep]) (by decide) h1
  obtain ⟨w3, rfl, h3⟩ := scansAll_literal ns _ 0x6c Step.endValue
    "in literal null (expecting 'l')" w2 (k + 1 + 1)
    (fun c => by simp only [scanner.doStep]) (by decide) h2
  exact ⟨w3, rfl, h3⟩

theorem scansAll_true (ns : Bool) (s : scanner) (w : List Byte) (k : Nat)
    (hs : s.step = Step.t) (h : ScansAll ns s w k) :
    ∃ w', w = 0x72 :: 0x75 :: 0x65 :: w'
      ∧ ScansAll ns { s with step := Step.endValue } w' (k + 3) := by
  obtain ⟨w1, rfl, h1⟩ := scansAll_literal ns s 0x72 Step.tr
    "in literal true (expecting 'r')" w k
    (fun c => by simp only [scanner.doStep, hs]) (by decide) h
  obtain ⟨w2, rfl, h2⟩ := scansAll_literal ns _ 0x75 Step.tru
    "in literal true (expecting 'u')" w1 (k + 1)
    (fun c => by simp only [scanner.doStep]) (by decide) h1
  obtain ⟨w3, rfl, h3⟩ := scansAll_literal ns _ 0x65 Step.endValue
    "in literal true (expecting 'e')" w2 (k + 1 + 1)
    (fun c => by simp only [scanner.doStep]) (by decide) h2
  exact ⟨w3, rfl, h3⟩

theorem scansAll_false (ns : Bool) (s : scanner) (w : List Byte) (k : Nat)
    (hs : s.step = Step.f) (h : ScansAll ns s w k) :
    ∃ w', w = 0x61 :: 0x6c :: 0x73 :: 0x65 :: w'
      ∧ ScansAll ns { s with step := Step.endValue } w' (k + 4) := by
  obtain ⟨w1, rfl, h1⟩ := scansAll_literal ns s 0x61 Step.fa
    "in literal false (expecting 'a')" w k
    (fun c => by simp only [scanner.doStep, hs]) (by decide) h
  obtain ⟨w2, rfl, h2⟩ := scansAll_literal ns _ 0x6c Step.fal
    "in literal false (expecting 'l')" w1 (k + 1)
    (fun c => by simp only [scanner.doStep]) (by decide) h1
  obtain ⟨w3, rfl, h3⟩ := scansAll_literal ns _ 0x73 Step.fals
    "in literal false (expecting 's')" w2 (k + 1 + 1)
    (fun c => by simp only [scanner.doStep]) (by decide) h2
  obtain ⟨w4, rfl, h4⟩ := scansAll_literal ns _ 0x65 Step.endValue
    "in literal false (expecting 'e')" w3 (k + 1 + 1 + 1)
    (fun c => by simp only [scanner.doStep]) (by decide) h3
  exact ⟨w4, rfl, h4⟩

/-! ### Numbers -/

theorem numberByte_facts (c : Byte) (h : isNumberByte c = true) :
    jsonIsSpace c = false ∧ c.val ≠ 0x3a ∧ c.val ≠ 0x2c ∧ c.val ≠ 0x7d ∧ c.val ≠ 0x5d := by
  revert h
  revert c
  decide

theorem isDigit19_isDigit (c : Byte) (h : isDigit19 c = true) : isDigit c = true := by
  revert h
  revert c
  decide

theorem stateEndValue_numberByte (s : scanner) (c : Byte) (h : isNumberByte c = true) :
    (stateEndValue s c).2 = ScanOp.scanError ∨ (stateEndValue s c).2 = ScanOp.scanEnd := by
  obtain ⟨h1, h2, h3, h4, h5⟩ := numberByte_facts c h
  unfold stateEndValue
  cases hp : s.parseState with
  | nil =>
    right
    simp only [stateEndTop]
    split_ifs <;> rfl
  | cons ps rest =>
    left
    simp only [h1, Bool.false_eq_true, if_false]
    cases ps <;> simp [h2, h3, h4, h5, scanner.error]

theorem num_step_cases (s : scanner) (c : Byte) (hs : isNumStep s.step = true) :
    (isNumberByte c = true ∧
        ∃ st, isNumStep st = true ∧ s.doStep c = ({ s with step := st }, ScanOp.scanContinue))
      ∨ (s.doStep c).2 = ScanOp.scanError
      ∨ (isEndNumStep s.step = true ∧ s.doStep c = stateEndValue s c) := by
  obtain ⟨st, e, ps, er⟩ := s
  simp only at hs
  have d19 := isDigit19_isDigit c
  cases st <;> simp [isNumStep] at hs
  · -- neg
    simp only [scanner.doStep, stateNeg]
    split_ifs with h1 h2
    · left
      exact ⟨by simp [isNumberByte, isDigit, h1], Step.zero, rfl, rfl⟩
    · left
      exact ⟨by simp [isNumberByte, d19 h2], Step.one, rfl, rfl⟩
    · right; left; rfl
  · -- one
    simp only [scanner.doStep, state1, state0]
    split_ifs with h1 h2 h3
    · left
      exact ⟨by simp [isNumberByte, h1], Step.one, rfl, rfl⟩
    · left
      exact ⟨by simp [isNumberByte, h2], Step.dot, rfl, rfl⟩
    · left
      refine ⟨?_, Step.e, rfl, rfl⟩
      simp only [Bool.or_eq_true, decide_eq_true_eq] at h3
      rcases h3 with h3 | h3 <;> simp [isNumberByte, h3]
    · right; right; exact ⟨rfl, rfl⟩
  · -- zero
    simp only [scanner.doStep, state0]
    split_ifs with h2 h3
    · left
      exact ⟨by simp [isNumberByte, h2], Step.dot, rfl, rfl⟩
    · left
      refine ⟨?_, Step.e, rfl, rfl⟩
      simp only [Bool.or_eq_true, decide_eq_true_eq] at h3
      rcases h3 with h3 | h3 <;> simp [isNumberByte, h3]
    · right; right; exact ⟨rfl, rfl⟩
  · -- dot
    simp only [scanner.doStep, stateDot]
    split_ifs with h1
    · left
      exact ⟨by simp [isNumberByte, h1], Step.dot0, rfl, rfl⟩
    · right; left; rfl
  · -- dot0
    simp only [scanner.doStep, stateDot0]
    split_ifs with h1 h3
    · left
      exact ⟨by simp [isNumberByte, h1], Step.dot0, rfl, rfl⟩
    · left
      refine ⟨?_, Step.e, rfl, rfl⟩
      simp only [Bool.or_eq_true, decide_eq_true_eq] at h3
      rcases h3 with h3 | h3 <;> simp [isNumberByte, h3]
    · right; right; exact ⟨rfl, rfl⟩
  · -- e
    simp only [scanner.doStep, stateE, stateESign]
    split_ifs with h1 h2
    · left
      refine ⟨?_, Step.eSign, rfl, rfl⟩
      simp only [Bool.or_eq_true, decide_eq_true_eq] at h1
      rcases h1 with h1 | h1 <;> simp [isNumberByte, h1]
    · left
      exact ⟨by simp [isNumberByte, h2], Step.e0, rfl, rfl⟩
    · right; left; rfl
  · -- eSign
    simp only [scanner.doStep, stateESign]
    split_ifs with h2
    · left
      exact ⟨by simp [isNumberByte, h2], Step.e0, rfl, rfl⟩
    · right; left; rfl
  · -- e0
    simp only [scanner.doStep, stateE0]
    split_ifs with h1
    · left
      exact ⟨by simp [isNumberByte, h1], Step.e0, rfl, rfl⟩
    · right; right; exact ⟨rfl, rfl⟩

theorem not_numberByte_facts (c : Byte) (h : isNumberByte c = false) :
    isDigit c = false ∧ ¬ c.val = 0x2e ∧ ¬ c.val = 0x65 ∧ ¬ c.val = 0x45 := by
  revert h
  revert c
  decide

theorem endState_of_endNumStep (s : scanner) (h : isEndNumStep s.step = true) : EndState s := by
  intro c hc
  rcases num_step_cases s c (by
    revert h
    cases s.step <;> simp [isEndNumStep, isNumStep]) with ⟨h1, -⟩ | h2 | ⟨-, h3⟩
  · rw [hc] at h1; cases h1
  · -- an error step of an end state is the error of `stateEndValue`
    obtain ⟨st, e, ps, er⟩ := s
    simp only at h
    have hb := not_numberByte_facts c hc
    cases st <;> simp [isEndNumStep] at h <;>
      simp [scanner.doStep, state1, state0, stateDot0, stateE0, hb.1, hb.2.1, hb.2.2.1, hb.2.2.2]
  · exact h3

/-- The scan of a number: it runs through the bytes a number is made of and is
then in a state a value has ended in. -/
theorem scansAll_number (ns : Bool) (w : List Byte) :
    ∀ (s : scanner) (k : Nat), isNumStep s.step = true → ScansAll ns s w k →
      ∃ s', ScansAll ns s' (w.dropWhile isNumberByte) (k + (w.takeWhile isNumberByte).length)
        ∧ s'.parseState = s.parseState ∧ EndState s' := by
  induction w with
  | nil =>
    intro s k hs h
    refine ⟨s, by simpa using h, rfl, ?_⟩
    have h0 := scansAll_nil ns s k h
    rcases num_step_cases s 0x20 hs with ⟨h1, -⟩ | h2 | ⟨h3, -⟩
    · exact absurd h1 (by decide)
    · rw [h2] at h0; cases h0
    · exact endState_of_endNumStep s h3
  | cons c cs ih =>
    intro s k hs h
    obtain ⟨h1, h2, -, h4⟩ := scansAll_cons ns s c cs k h
    rcases num_step_cases s c hs with ⟨hb, st, hst, hd⟩ | herr | ⟨hend, hd⟩
    · rw [hd] at h4
      obtain ⟨s', hs', hp, he⟩ := ih _ (k + 1) hst (h4 (by simp) (by simp))
      refine ⟨s', ?_, hp, he⟩
      rw [List.dropWhile_cons_of_pos hb, List.takeWhile_cons_of_pos hb, List.length_cons]
      have e : k + ((List.takeWhile isNumberByte cs).length + 1)
          = k + 1 + (List.takeWhile isNumberByte cs).length := by omega
      rw [e]; exact hs'
    · exact absurd herr h1
    · cases hb : isNumberByte c with
      | true =>
        rw [hd] at h1 h2
        rcases stateEndValue_numberByte s c hb with h | h
        · exact absurd h h1
        · exact absurd h h2
      | false =>
        refine ⟨s, ?_, rfl, endState_of_endNumStep s hend⟩
        rw [List.dropWhile_cons_of_neg (by simp [hb]), List.takeWhile_cons_of_neg (by simp [hb])]
        simpa using h

/-! ### Strings -/

theorem scansAll_hex (ns : Bool) (s : scanner) (next : Step) (w : List Byte) (k : Nat)
    (hd : ∀ c, s.doStep c = stateInStringEscHex next s c) (h : ScansAll ns s w k) :
    ∃ x w', w = x :: w' ∧ isHex x = true ∧ ScansAll ns { s with step := next } w' (k + 1) := by
  cases w with
  | nil =>
    have := scansAll_nil ns s k h
    rw [hd] at this
    simp only [stateInStringEscHex] at this
    rw [if_neg (by decide)] at this
    simp [scanner.error] at this
  | cons c cs =>
    obtain ⟨h1, -, -, h4⟩ := scansAll_cons ns s c cs k h
    rw [hd] at h1 h4
    simp only [stateInStringEscHex] at h1 h4
    by_cases hc : isHex c = true
    · rw [if_pos hc] at h4
      exact ⟨c, cs, rfl, hc, h4 (by simp) (by simp)⟩
    · rw [if_neg hc] at h1
      simp [scanner.error] at h1

/-- The scan of a string from behind its opening quote: it runs through a
well-formed body up to the closing quote. -/
theorem scansAll_string (ns : Bool) :
    ∀ (n : Nat) (w : List Byte) (s : scanner) (k : Nat), w.length ≤ n →
      s.step = Step.inString → ScansAll ns s w k →
      ∃ body w', w = body ++ 0x22 :: w' ∧ StrBody body
        ∧ ScansAll ns { s with step := Step.endValue } w' (k + body.length + 1) := by
  intro n
  induction n with
  | zero =>
    intro w s k hl hs h
    obtain rfl : w = [] := List.length_eq_zero.mp (by omega)
    have := scansAll_nil ns s k h
    rw [show s.doStep 0x20 = stateInString s 0x20 by simp only [scanner.doStep, hs]] at this
    exact absurd this (by rw [show (stateInString s 0x20).2 = ScanOp.scanContinue from rfl]; simp)
  | succ n ih =>
    intro w s k hl hs h
    cases w with
    | nil =>
      have := scansAll_nil ns s k h
      rw [show s.doStep 0x20 = stateInString s 0x20 by simp only [scanner.doStep, hs]] at this
      exact absurd this (by rw [show (stateInString s 0x20).2 = ScanOp.scanContinue from rfl]; simp)
    | cons c cs =>
      simp only [List.length_cons] at hl
      obtain ⟨h1, -, -, h4⟩ := scansAll_cons ns s c cs k h
      have hd : s.doStep c = stateInString s c := by simp only [scanner.doStep, hs]
      rw [hd] at h1 h4
      simp only [stateInString] at h1 h4
      by_cases hq : c.val = 0x22
      · rw [if_pos hq] at h4
        have hc : c = 0x22 := Fin.ext hq
        subst hc
        exact ⟨[], cs, rfl, StrBody.nil, by simpa using h4 (by simp) (by simp)⟩
      · rw [if_neg hq] at h1 h4
        by_cases hb : c.val = 0x5c
        · rw [if_pos hb] at h4
          have hc : c = 0x5c := Fin.ext hb
          subst hc
          have h5 := h4 (by simp) (by simp)
          -- the escape
          cases cs with
          | nil =>
            have := scansAll_nil ns _ _ h5
            exact absurd this (by
              simp only [scanner.doStep]
              rw [show ∀ t : scanner, (stateInStringEsc t 0x20).2 = ScanOp.scanError from
                fun _ => rfl]
              simp)
          | cons e cs2 =>
            obtain ⟨g1, -, -, g4⟩ := scansAll_cons ns _ e cs2 _ h5
            simp only [scanner.doStep, stateInStringEsc] at g1 g4
            by_cases he : isSimpleEsc e = true
            · have he' := he
              simp only [isSimpleEsc] at he'
              rw [if_pos he'] at g4
              obtain ⟨body, w', hw, hbody, hsc⟩ := ih cs2 _ (k + 1 + 1) (by
                simp only [List.length_cons] at hl; omega) rfl (g4 (by simp) (by simp))
              refine ⟨0x5c :: e :: body, w', by rw [hw]; rfl, StrBody.esc e body he hbody, ?_⟩
              simp only [List.length_cons]
              have e1 : k + (body.length + 1 + 1) + 1 = k + 1 + 1 + body.length + 1 := by omega
              rw [e1]; exact hsc
            · have he' := he
              simp only [isSimpleEsc] at he'
              rw [if_neg he'] at g1 g4
              by_cases hu : e.val = 0x75
              · rw [if_pos hu] at g4
                have hc : e = 0x75 := Fin.ext hu
                subst hc
                have g5 := g4 (by simp) (by simp)
                obtain ⟨x1, v1, rfl, hx1, g6⟩ := scansAll_hex ns _ Step.inStringEscU1 cs2 _
                  (fun c => by simp only [scanner.doStep]) g5
                obtain ⟨x2, v2, rfl, hx2, g7⟩ := scansAll_hex ns _ Step.inStringEscU12 v1 _
                  (fun c => by simp only [scanner.doStep]) g6
                obtain ⟨x3, v3, rfl, hx3, g8⟩ := scansAll_hex ns _ Step.inStringEscU123 v2 _
                  (fun c => by simp only [scanner.doStep]) g7
                obtain ⟨x4, v4, rfl, hx4, g9⟩ := scansAll_hex ns _ Step.inString v3 _
                  (fun c => by simp only [scanner.doStep]) g8
                obtain ⟨body, w', hw, hbody, hsc⟩ := ih v4 _ _ (by
                  simp only [List.length_cons] at hl; omega) rfl g9
                refine ⟨0x5c :: 0x75 :: x1 :: x2 :: x3 :: x4 :: body, w', by rw [hw]; rfl,
                  StrBody.uni x1 x2 x3 x4 body hx1 hx2 hx3 hx4 hbody, ?_⟩
                simp only [List.length_cons]
                have e1 : k + (body.length + 1 + 1 + 1 + 1 + 1 + 1) + 1
                    = k + 1 + 1 + 1 + 1 + 1 + 1 + body.length + 1 := by omega
                rw [e1]; exact hsc
              · rw [if_neg hu] at g1
                simp [scanner.error] at g1
        · rw [if_neg hb] at h1 h4
          by_cases hlow : c.val < 0x20
          · rw [if_pos hlow] at h1
            simp [scanner.error] at h1
          · rw [if_neg hlow] at h4
            obtain ⟨body, w', hw, hbody, hsc⟩ := ih cs s (k + 1) (by omega) hs
              (h4 (by simp) (by simp))
            refine ⟨c :: body, w', by rw [hw]; rfl,
              StrBody.char c body hq hb (by omega) hbody, ?_⟩
            simp only [List.length_cons]
            have e1 : k + (body.length + 1) + 1 = k + 1 + body.length + 1 := by omega
            rw [e1]; exact hsc

theorem isHex_facts (x : Byte) (h : isHex x = true) :
    x.val ≠ 0x22 ∧ x.val ≠ 0x5c ∧ (hexVal x).isSome = true := by
  revert h
  revert x
  decide

theorem rescanString_quote (acc w' : List Byte) :
    rescanString acc (0x22 :: w') = some ((0x22 :: acc).reverse, w') := by
  rw [rescanString.eq_def]
  simp only
  rw [if_pos (by decide)]

theorem rescanString_char (acc cs : List Byte) (c : Byte) (hq : c.val ≠ 0x22)
    (hb : c.val ≠ 0x5c) : rescanString acc (c :: cs) = rescanString (c :: acc) cs := by
  rw [rescanString.eq_def]
  simp only
  rw [if_neg hq, if_neg hb]

theorem rescanString_esc (acc cs : List Byte) (e : Byte) :
    rescanString acc (0x5c :: e :: cs) = rescanString (e :: 0x5c :: acc) cs := by
  rw [rescanString.eq_def]
  simp only
  rw [if_neg (by decide), if_pos (by decide)]

/-- `rescanLiteral` finds the closing quote the scanner found. -/
theorem rescanString_body (body : List Byte) (hb : StrBody body) :
    ∀ (acc w' : List Byte),
      rescanString acc (body ++ 0x22 :: w') = some (acc.reverse ++ body ++ [0x22], w') := by
  induction hb with
  | nil =>
    intro acc w'
    rw [List.nil_append, rescanString_quote]
    simp
  | char c rest hq hbs _ _ ih =>
    intro acc w'
    rw [List.cons_append, rescanString_char _ _ c hq hbs, ih]
    simp
  | esc e rest _ _ ih =>
    intro acc w'
    rw [List.cons_append, List.cons_append, rescanString_esc, ih]
    simp
  | uni h1 h2 h3 h4 rest g1 g2 g3 g4 _ ih =>
    intro acc w'
    obtain ⟨a1, b1, -⟩ := isHex_facts h1 g1
    obtain ⟨a2, b2, -⟩ := isHex_facts h2 g2
    obtain ⟨a3, b3, -⟩ := isHex_facts h3 g3
    obtain ⟨a4, b4, -⟩ := isHex_facts h4 g4
    simp only [List.cons_append]
    rw [rescanString_esc, rescanString_char _ _ h1 a1 b1, rescanString_char _ _ h2 a2 b2,
      rescanString_char _ _ h3 a3 b3, rescanString_char _ _ h4 a4 b4, ih]
    simp

theorem strBody_tail_of_high (b : Byte) (l : List Byte) (hb : 0x80 ≤ b.val)
    (h : StrBody (b :: l)) : StrBody l := by
  cases h with
  | char _ _ _ _ _ hr => exact hr
  | esc _ _ _ _ => exact absurd hb (by decide)
  | uni _ _ _ _ _ _ _ _ _ _ => exact absurd hb (by decide)

theorem strBody_drop_of_high (pre post : List Byte) (hp : ∀ b ∈ pre, 0x80 ≤ b.val)
    (h : StrBody (pre ++ post)) : StrBody post := by
  induction pre with
  | nil => exact h
  | cons b l ih =>
    apply ih (fun x hx => hp x (List.mem_cons_of_mem _ hx))
    exact strBody_tail_of_high b _ (hp b (List.mem_cons_self _ _)) h

/-- A well-formed multi-byte sequence is the lead byte followed by bytes
`>= 0x80`. -/
theorem utf8SeqLen_high (c : Byte) (rest : List Byte) (n : Nat) (hc : 0x80 ≤ c.val)
    (h : utf8SeqLen (c :: rest) = some n) :
    ∃ pre post, rest = pre ++ post ∧ pre.length + 1 = n ∧ ∀ b ∈ pre, 0x80 ≤ b.val := by
  unfold utf8SeqLen at h
  simp only at h
  rw [if_neg (by omega)] at h
  have hlo1 : ∀ x : Nat, 0x80 ≤ (if c.val = 0xe0 then 0xa0 else 0x80 : Nat) := by
    intro _; split_ifs <;> omega
  have hlo2 : ∀ x : Nat, 0x80 ≤ (if c.val = 0xf0 then 0x90 else 0x80 : Nat) := by
    intro _; split_ifs <;> omega
  generalize (if c.val = 0xe0 then 0xa0 else 0x80 : Nat) = lo1 at h hlo1
  generalize (if c.val = 0xed then 0x9f else 0xbf : Nat) = hi1 at h
  generalize (if c.val = 0xf0 then 0x90 else 0x80 : Nat) = lo2 at h hlo2
  generalize (if c.val = 0xf4 then 0x8f else 0xbf : Nat) = hi2 at h
  have hlo1 := hlo1 0
  have hlo2 := hlo2 0
  split_ifs at h with h1 h2 h3
  · cases rest with
    | nil => simp at h
    | cons b1 r =>
      simp only at h
      split_ifs at h with hb
      simp only [Option.some.injEq] at h
      refine ⟨[b1], r, rfl, by simpa using h, ?_⟩
      intro b hb1
      simp only [List.mem_singleton] at hb1
      subst hb1
      simp only [Bool.and_eq_true, decide_eq_true_eq] at hb
      exact hb.1
  · match rest, h with
    | [], h => simp at h
    | [_], h => simp at h
    | b1 :: b2 :: r, h =>
      simp only at h
      split_ifs at h with hb
      simp only [Option.some.injEq] at h
      refine ⟨[b1, b2], r, rfl, by simpa using h, ?_⟩
      intro b hb1
      simp only [Bool.and_eq_true, decide_eq_true_eq] at hb
      simp only [List.mem_cons, List.mem_singleton, List.not_mem_nil, or_false] at hb1
      rcases hb1 with rfl | rfl
      · have := hb.1.1
        omega
      · exact hb.2.1
  · match rest, h with
    | [], h => simp at h
    | [_], h => simp at h
    | [_, _], h => simp at h
    | b1 :: b2 :: b3 :: r, h =>
      simp only at h
      split_ifs at h with hb
      simp only [Option.some.injEq] at h
      refine ⟨[b1, b2, b3], r, rfl, by simpa using h, ?_⟩
      intro b hb1
      simp only [Bool.and_eq_true, decide_eq_true_eq] at hb
      simp only [List.mem_cons, List.mem_singleton, List.not_mem_nil, or_false] at hb1
      rcases hb1 with rfl | rfl | rfl
      · have := hb.1.1.1
        omega
      · exact hb.1.2.1
      · exact hb.2.1

theorem getu4_of_hex (h1 h2 h3 h4 : Byte) (rest : List Byte) (g1 : isHex h1 = true)
    (g2 : isHex h2 = true) (g3 : isHex h3 = true) (g4 : isHex h4 = true) :
    ∃ rr, getu4 (0x5c :: 0x75 :: h1 :: h2 :: h3 :: h4 :: rest) = some rr := by
  obtain ⟨-, -, a1⟩ := isHex_facts h1 g1
  obtain ⟨-, -, a2⟩ := isHex_facts h2 g2
  obtain ⟨-, -, a3⟩ := isHex_facts h3 g3
  obtain ⟨-, -, a4⟩ := isHex_facts h4 g4
  obtain ⟨v1, e1⟩ := Option.isSome_iff_exists.mp a1
  obtain ⟨v2, e2⟩ := Option.isSome_iff_exists.mp a2
  obtain ⟨v3, e3⟩ := Option.isSome_iff_exists.mp a3
  obtain ⟨v4, e4⟩ := Option.isSome_iff_exists.mp a4
  refine ⟨v1 * 4096 + v2 * 256 + v3 * 16 + v4, ?_⟩
  unfold getu4
  simp only
  rw [if_pos (by decide), e1, e2, e3, e4]

theorem getu4_some_inv (l : List Byte) (r : Nat) (h : getu4 l = some r) :
    ∃ g1 g2 g3 g4 rest, l = 0x5c :: 0x75 :: g1 :: g2 :: g3 :: g4 :: rest := by
  unfold getu4 at h
  split at h
  · rename_i b u g1 g2 g3 g4 rest
    split_ifs at h with hc
    simp only [Bool.and_eq_true, decide_eq_true_eq] at hc
    obtain rfl : b = 0x5c := Fin.ext hc.1
    obtain rfl : u = 0x75 := Fin.ext hc.2
    exact ⟨g1, g2, g3, g4, rest, rfl⟩
  · cases h

theorem strBody_after_uni (g1 g2 g3 g4 : Byte) (rest : List Byte)
    (h : StrBody (0x5c :: 0x75 :: g1 :: g2 :: g3 :: g4 :: rest)) : StrBody rest := by
  cases h with
  | char _ _ _ hb _ _ => exact absurd rfl hb
  | esc _ _ he _ => exact absurd he (by decide)
  | uni _ _ _ _ _ _ _ _ _ hr => exact hr

theorem unquoteBody_cons (fuel : Nat) (c : Byte) (cs : List Byte) :
    unquoteBody (fuel + 1) (c :: cs) =
      if c.val = 0x5c then
        match cs with
        | [] => none
        | e :: rest =>
          let lit (b : Byte) : Option (List Byte) := (unquoteBody fuel rest).map (b :: ·)
          if e.val = 0x22 || e.val = 0x5c || e.val = 0x2f || e.val = 0x27 then lit e
          else if e.val = 0x62 then lit 0x08
          else if e.val = 0x66 then lit 0x0c
          else if e.val = 0x6e then lit 0x0a
          else if e.val = 0x72 then lit 0x0d
          else if e.val = 0x74 then lit 0x09
          else if e.val = 0x75 then
            match getu4 (c :: cs) with
            | none => none
            | some rr =>
              let after := cs.drop 5
              if 0xd800 ≤ rr && rr < 0xe000 then
                let dec := utf16DecodeRune rr (getu4 after)
                if dec ≠ 0xfffd then
                  (unquoteBody fuel (after.drop 6)).map (encodeRune dec ++ ·)
                else (unquoteBody fuel after).map (encodeRune 0xfffd ++ ·)
              else (unquoteBody fuel after).map (encodeRune rr ++ ·)
          else none
      else if c.val = 0x22 || c.val < 0x20 then none
      else if c.val < 0x80 then (unquoteBody fuel cs).map (c :: ·)
      else
        match utf8SeqLen (c :: cs) with
        | some n => (unquoteBody fuel ((c :: cs).drop n)).map ((c :: cs).take n ++ ·)
        | none => (unquoteBody fuel cs).map (runeErrorBytes ++ ·) := rfl

/-- `unquoteBytes` succeeds on the body of a string the scanner accepts. -/
theorem unquoteBody_ok :
    ∀ (fuel : Nat) (body : List Byte), StrBody body → body.length ≤ fuel →
      (unquoteBody fuel body).isSome = true := by
  intro fuel
  induction fuel with
  | zero =>
    intro body _ hl
    obtain rfl : body = [] := List.length_eq_zero.mp (by omega)
    rfl
  | succ f ih =>
    intro body hb hl
    cases hb with
    | nil => rfl
    | char c rest hq hbs h20 hr =>
      simp only [List.length_cons] at hl
      rw [unquoteBody_cons]
      rw [if_neg hbs, if_neg (by simp only [Bool.or_eq_true, decide_eq_true_eq]; omega)]
      split_ifs with h80
      · rw [Option.isSome_map']
        exact ih rest hr (by omega)
      · cases hu : utf8SeqLen (c :: rest) with
        | none =>
          simp only
          rw [Option.isSome_map']
          exact ih rest hr (by omega)
        | some n =>
          simp only
          rw [Option.isSome_map']
          obtain ⟨pre, post, hrest, hn, hhigh⟩ := utf8SeqLen_high c rest n (by omega) hu
          have hd : List.drop n (c :: rest) = post := by
            rw [← hn, hrest, List.drop_succ_cons, List.drop_left]
          rw [hd]
          apply ih post (strBody_drop_of_high pre post hhigh (hrest ▸ hr))
          rw [hrest, List.length_append] at hl
          omega
    | esc e rest he hr =>
      simp only [List.length_cons] at hl
      rw [unquoteBody_cons]
      rw [if_pos (by decide)]
      simp only
      have hrec : (unquoteBody f rest).isSome = true := ih rest hr (by omega)
      simp only [isSimpleEsc, Bool.or_eq_true, decide_eq_true_eq] at he
      rcases he with ((((((he | he) | he) | he) | he) | he) | he) | he <;>
        simp [he, Option.isSome_map', hrec]
    | uni h1 h2 h3 h4 rest g1 g2 g3 g4 hr =>
      simp only [List.length_cons] at hl
      obtain ⟨rr, hrr⟩ := getu4_of_hex h1 h2 h3 h4 rest g1 g2 g3 g4
      rw [unquoteBody_cons]
      rw [if_pos (by decide)]
      simp only
      rw [if_neg (by decide), if_neg (by decide), if_neg (by decide), if_neg (by decide),
        if_neg (by decide), if_neg (by decide), if_pos (by decide), hrr]
      simp only [List.drop_succ_cons, List.drop_zero]
      have hrec : (unquoteBody f rest).isSome = true := ih rest hr (by omega)
      split_ifs with hsur hdec
      · rw [Option.isSome_map']
        cases hg : getu4 rest with
        | none => rw [hg] at hdec; simp [utf16DecodeRune] at hdec
        | some r2 =>
          obtain ⟨x1, x2, x3, x4, rest2, rfl⟩ := getu4_some_inv rest r2 hg
          simp only [List.drop_succ_cons, List.drop_zero]
          apply ih rest2 (strBody_after_uni _ _ _ _ _ hr)
          simp only [List.length_cons] at hl
          omega
      · rw [Option.isSome_map']; exact hrec
      · rw [Option.isSome_map']; exact hrec

/-- `unquote` succeeds on a string literal the scanner accepts. -/
theorem unquote_ok (body : List Byte) (hb : StrBody body) :
    (unquote (0x22 :: (body ++ [0x22]))).isSome = true := by
  unfold unquote
  simp only
  rw [if_pos (by simp; decide)]
  simp only [List.dropLast_concat]
  exact unquoteBody_ok _ body hb (by simp)

/-- `parseString` reads a string literal the scanner accepts, white space in
front of it included. -/
theorem parseString_ok (ws body w' : List Byte) (hws : ∀ b ∈ ws, jsonIsSpace b = true)
    (hb : StrBody body) :
    ∃ str, parseString (ws ++ 0x22 :: (body ++ 0x22 :: w')) = some (str, w') := by
  obtain ⟨str, hstr⟩ := Option.isSome_iff_exists.mp (unquote_ok body hb)
  refine ⟨str, ?_⟩
  unfold parseString
  have hd : (ws ++ 0x22 :: (body ++ 0x22 :: w')).dropWhile jsonIsSpace
      = 0x22 :: (body ++ 0x22 :: w') := by
    rw [List.dropWhile_append_of_pos hws]
    rw [List.dropWhile_cons_of_neg (by decide)]
  rw [hd]
  simp only
  rw [if_pos (by decide), rescanString_body body hb]
  simp only [List.reverse_cons, List.reverse_nil, List.nil_append, List.singleton_append,
    List.cons_append]
  rw [hstr]
  rfl

/-! ### Values -/

theorem valueInterface_succ (fuel : Nat) (s : List Byte) :
    valueInterface (fuel + 1) s =
      match s.dropWhile jsonIsSpace with
      | [] => none
      | c :: cs =>
        if c.val = 0x7b then
          match cs.dropWhile jsonIsSpace with
          | [] => none
          | c1 :: rest =>
            if c1.val = 0x7d then some (JValue.object [], rest)
            else objectInterface fuel (c1 :: rest) []
        else if c.val = 0x5b then
          match cs.dropWhile jsonIsSpace with
          | [] => none
          | c1 :: rest =>
            if c1.val = 0x5d then some (JValue.array [], rest)
            else arrayInterface fuel (c1 :: rest) []
        else if c.val = 0x22 then
          (parseString (c :: cs)).map (fun r => (JValue.string r.1, r.2))
        else if c.val = 0x6e then some (JValue.null, cs.drop 3)
        else if c.val = 0x74 then some (JValue.bool true, cs.drop 3)
        else if c.val = 0x66 then some (JValue.bool false, cs.drop 4)
        else if c.val = 0x2d || isDigit c then
          some (JValue.number (c :: cs.takeWhile isNumberByte), cs.dropWhile isNumberByte)
        else none := rfl

theorem objectInterface_succ (fuel : Nat) (s : List Byte) (m : JMap) :
    objectInterface (fuel + 1) s m =
      match parseString s with
      | none => none
      | some (key, afterKey) =>
        match afterKey.dropWhile jsonIsSpace with
        | [] => none
        | colon :: afterColon =>
          if colon.val ≠ 0x3a then none
          else match valueInterface fuel afterColon with
            | none => none
            | some (v, afterValue) =>
              match afterValue.dropWhile jsonIsSpace with
              | [] => none
              | sep :: rest =>
                if sep.val = 0x7d then some (JValue.object (m.set key v), rest)
                else if sep.val = 0x2c then objectInterface fuel rest (m.set key v)
                else none := rfl

theorem arrayInterface_succ (fuel : Nat) (s : List Byte) (acc : List JValue) :
    arrayInterface (fuel + 1) s acc =
      match valueInterface fuel s with
      | none => none
      | some (v, afterValue) =>
        match afterValue.dropWhile jsonIsSpace with
        | [] => none
        | sep :: rest =>
          if sep.val = 0x5d then some (JValue.array (acc ++ [v]), rest)
          else if sep.val = 0x2c then arrayInterface fuel rest (acc ++ [v])
          else none := rfl

/-- What `stateEndValue` does is the same whatever function the scanner was
in. -/
theorem stateEndValue_step (s : scanner) (st : Step) (c : Byte) :
    stateEndValue { s with step := st } c = stateEndValue s c := by
  obtain ⟨st0, e, ps, er⟩ := s
  unfold stateEndValue
  cases ps with
  | nil => rfl
  | cons p rest =>
    simp only
    split_ifs <;> rfl

theorem loop_congr (ns : Bool) (s1 s2 : scanner) (w : List Byte) (k : Nat)
    (h : ∀ c, (w.head?.getD 0x20 = c) → s1.doStep c = s2.doStep c) :
    readValue.loop ns s1 w k = readValue.loop ns s2 w k := by
  cases w with
  | nil =>
    simp only [readValue.loop]
    rw [h 0x20 rfl]
  | cons c cs =>
    simp only [readValue.loop]
    rw [h c rfl]

/-- After a number the scan goes on as after any other value. -/
theorem scansAll_endState (ns : Bool) (s : scanner) (w : List Byte) (k : Nat)
    (he : EndState s) (hw : ∀ c rest, w = c :: rest → isNumberByte c = false)
    (h : ScansAll ns s w k) : ScansAll ns { s with step := Step.endValue } w k := by
  unfold ScansAll at h ⊢
  rw [← h]
  congr 1
  apply loop_congr
  intro c hc
  have hnb : isNumberByte c = false := by
    cases w with
    | nil => simp at hc; subst hc; decide
    | cons x xs => simp at hc; subst hc; exact hw x xs rfl
  rw [he c hnb]
  simp only [scanner.doStep]
  rw [stateEndValue_step]

/-- White space is skipped in a state that leaves it alone; the input does not
end there. -/
theorem scansAll_skip (ns : Bool) (s : scanner) (hskip : ∀ c, jsonIsSpace c = true →
    s.doStep c = (s, ScanOp.scanSkipSpace)) :
    ∀ (w : List Byte) (k : Nat), ScansAll ns s w k →
      ∃ c rest, w.dropWhile jsonIsSpace = c :: rest ∧ jsonIsSpace c = false
        ∧ ScansAll ns s (c :: rest) (k + (w.length - (c :: rest).length)) := by
  intro w
  induction w with
  | nil =>
    intro k h
    have := scansAll_nil ns s k h
    rw [hskip 0x20 (by decide)] at this
    cases this
  | cons c cs ih =>
    intro k h
    cases hc : jsonIsSpace c with
    | true =>
      obtain ⟨-, -, -, h4⟩ := scansAll_cons ns s c cs k h
      rw [hskip c hc] at h4
      obtain ⟨c1, rest, hd, hc1, hs⟩ := ih (k + 1) (h4 (by simp) (by simp))
      refine ⟨c1, rest, by rw [List.dropWhile_cons_of_pos hc, hd], hc1, ?_⟩
      have hle : (c1 :: rest).length ≤ cs.length := by
        rw [← hd]
        exact (List.dropWhile_sublist (l := cs) jsonIsSpace).length_le
      have e : k + ((c :: cs).length - (c1 :: rest).length)
          = k + 1 + (cs.length - (c1 :: rest).length) := by
        simp only [List.length_cons] at hle ⊢
        omega
      rw [e]; exact hs
    | false =>
      refine ⟨c, cs, List.dropWhile_cons_of_neg (by simp [hc]), hc, ?_⟩
      simpa using h

theorem endValue_skip (s : scanner) (hs : s.step = Step.endValue) (p : ParseState)
    (ps : List ParseState) (hp : s.parseState = p :: ps) (c : Byte) (hc : jsonIsSpace c = true) :
    s.doStep c = (s, ScanOp.scanSkipSpace) := by
  obtain ⟨st, e, q, er⟩ := s
  simp only at hs hp
  subst hs hp
  simp [scanner.doStep, stateEndValue, hc]

theorem beginValue_skip (s : scanner) (hs : s.step = Step.beginValue) (c : Byte)
    (hc : jsonIsSpace c = true) : s.doStep c = (s, ScanOp.scanSkipSpace) := by
  simp [scanner.doStep, hs, stateBeginValue, hc]

theorem beginString_skip (s : scanner) (hs : s.step = Step.beginString) (c : Byte)
    (hc : jsonIsSpace c = true) : s.doStep c = (s, ScanOp.scanSkipSpace) := by
  simp [scanner.doStep, hs, stateBeginString, hc]

theorem beginStringOrEmpty_skip (s : scanner) (hs : s.step = Step.beginStringOrEmpty) (c : Byte)
    (hc : jsonIsSpace c = true) : s.doStep c = (s, ScanOp.scanSkipSpace) := by
  simp [scanner.doStep, hs, stateBeginStringOrEmpty, hc]

theorem beginValueOrEmpty_skip (s : scanner) (hs : s.step = Step.beginValueOrEmpty) (c : Byte)
    (hc : jsonIsSpace c = true) : s.doStep c = (s, ScanOp.scanSkipSpace) := by
  simp [scanner.doStep, hs, stateBeginValueOrEmpty, hc]

theorem scansAll_shift (ns : Bool) (s : scanner) (w : List Byte) (k j : Nat)
    (h : ScansAll ns s w k) : ScansAll ns s w j := by
  unfold ScansAll at h ⊢
  have h0 := (readValue_loop_shift ns k w s 0).1
  rw [Nat.zero_add, h] at h0
  have hj := (readValue_loop_shift ns j w s 0).1
  rw [Nat.zero_add] at hj
  rw [hj]
  cases hr : (readValue.loop ns s w 0).result with
  | error e => rw [hr] at h0; cases h0
  | ok n =>
    rw [hr] at h0
    simp only [Except.map, Except.ok.injEq] at h0 ⊢
    omega

/-- A closing bracket ends the value; what follows is scanned in the enclosing
value, or is nothing at the top. -/
theorem pop_after (ns : Bool) (s s0 : scanner) (c : Byte) (rest : List Byte) (op : ScanOp)
    (p : ParseState) (π : List ParseState) (k : Nat)
    (hd : s.doStep c = (s0.popParseState, op))
    (hop : op = ScanOp.scanEndObject ∨ op = ScanOp.scanEndArray)
    (hp : s0.parseState = p :: π) (h : ScansAll ns s (c :: rest) k) :
    AfterValue ns π rest := by
  obtain ⟨-, -, h3, -⟩ := scansAll_cons ns s c rest k h
  rw [hd] at h3
  have h3 := h3 hop
  obtain ⟨st, e, ps, er⟩ := s0
  simp only at hp
  subst hp
  cases π with
  | nil =>
    left
    refine ⟨rfl, ?_⟩
    simpa [scanner.popParseState, stateEndValue, stateEndTop] using h3
  | cons q π1 =>
    right
    refine ⟨by simp, ?_⟩
    have e : stateEndValue (scanner.popParseState ⟨st, e, p :: q :: π1, er⟩) 0x20
        = (⟨Step.endValue, e, q :: π1, er⟩, ScanOp.scanSkipSpace) := rfl
    rw [e] at h3
    rw [if_neg (by simp)] at h3
    exact ⟨_, rfl, rfl, scansAll_shift _ _ _ _ _ h3⟩

theorem after_of_endValue (ns : Bool) (s : scanner) (w : List Byte) (k : Nat)
    (hs : s.step = Step.endValue) (h : ScansAll ns s w k) :
    AfterValue ns s.parseState w := by
  cases hp : s.parseState with
  | nil =>
    left
    refine ⟨rfl, ?_⟩
    cases w with
    | nil => rfl
    | cons c cs =>
      obtain ⟨-, h2, -, -⟩ := scansAll_cons ns s c cs k h
      exfalso
      apply h2
      obtain ⟨st, e, ps, er⟩ := s
      simp only at hs hp
      subst hs hp
      simp only [scanner.doStep, stateEndValue, stateEndTop]
      split_ifs <;> rfl
  | cons q π1 =>
    right
    exact ⟨by simp, s, hs, hp, scansAll_shift _ _ _ _ _ h⟩

theorem after_of_endState (ns : Bool) (s : scanner) (w : List Byte) (k : Nat)
    (he : EndState s) (hw : ∀ c rest, w = c :: rest → isNumberByte c = false)
    (h : ScansAll ns s w k) : AfterValue ns s.parseState w := by
  have := after_of_endValue ns { s with step := Step.endValue } w k rfl
    (scansAll_endState ns s w k he hw h)
  exact this

/-! ### What the scanner does at the first byte of a value -/

theorem beginValue_object (s : scanner) (hs : s.step = Step.beginValue) (c : Byte)
    (hc : c.val = 0x7b) (hne : (s.doStep c).2 ≠ ScanOp.scanError) :
    s.doStep c = ({ s with step := Step.beginStringOrEmpty,
                           parseState := ParseState.parseObjectKey :: s.parseState },
                  ScanOp.scanBeginObject) := by
  obtain rfl : c = 0x7b := Fin.ext hc
  have e : s.doStep 0x7b = { s with step := Step.beginStringOrEmpty }.pushParseState 0x7b
      ParseState.parseObjectKey ScanOp.scanBeginObject := by
    simp only [scanner.doStep, hs]
    rfl
  rw [e] at hne ⊢
  unfold scanner.pushParseState at hne ⊢
  simp only at hne ⊢
  split_ifs at hne ⊢ with hd
  · rfl
  · exact absurd rfl hne

theorem beginValue_array (s : scanner) (hs : s.step = Step.beginValue) (c : Byte)
    (hc : c.val = 0x5b) (hne : (s.doStep c).2 ≠ ScanOp.scanError) :
    s.doStep c = ({ s with step := Step.beginValueOrEmpty,
                           parseState := ParseState.parseArrayValue :: s.parseState },
                  ScanOp.scanBeginArray) := by
  obtain rfl : c = 0x5b := Fin.ext hc
  have e : s.doStep 0x5b = { s with step := Step.beginValueOrEmpty }.pushParseState 0x5b
      ParseState.parseArrayValue ScanOp.scanBeginArray := by
    simp only [scanner.doStep, hs]
    rfl
  rw [e] at hne ⊢
  unfold scanner.pushParseState at hne ⊢
  simp only at hne ⊢
  split_ifs at hne ⊢ with hd
  · rfl
  · exact absurd rfl hne

theorem beginValue_quote (s : scanner) (hs : s.step = Step.beginValue) :
    s.doStep 0x22 = ({ s with step := Step.inString }, ScanOp.scanBeginLiteral) := by
  simp only [scanner.doStep, hs]
  rfl

theorem beginValue_n (s : scanner) (hs : s.step = Step.beginValue) :
    s.doStep 0x6e = ({ s with step := Step.n }, ScanOp.scanBeginLiteral) := by
  simp only [scanner.doStep, hs]
  rfl

theorem beginValue_t (s : scanner) (hs : s.step = Step.beginValue) :
    s.doStep 0x74 = ({ s with step := Step.t }, ScanOp.scanBeginLiteral) := by
  simp only [scanner.doStep, hs]
  rfl

theorem beginValue_f (s : scanner) (hs : s.step = Step.beginValue) :
    s.doStep 0x66 = ({ s with step := Step.f }, ScanOp.scanBeginLiteral) := by
  simp only [scanner.doStep, hs]
  rfl

theorem numberStart_facts (c : Byte) (h : (c.val = 0x2d || isDigit c) = true) :
    jsonIsSpace c = false ∧ c.val ≠ 0x7b ∧ c.val ≠ 0x5b ∧ c.val ≠ 0x22
      ∧ (c.val = 0x2d ∨ (c.val ≠ 0x2d ∧ c.val = 0x30)
        ∨ (c.val ≠ 0x2d ∧ c.val ≠ 0x30 ∧ c.val ≠ 0x74 ∧ c.val ≠ 0x66 ∧ c.val ≠ 0x6e
            ∧ isDigit19 c = true)) := by
  revert h
  revert c
  decide

theorem beginValue_number (s : scanner) (hs : s.step = Step.beginValue) (c : Byte)
    (h : (c.val = 0x2d || isDigit c) = true) :
    isNumStep (s.doStep c).1.step = true ∧ (s.doStep c).1.parseState = s.parseState
      ∧ (s.doStep c).2 = ScanOp.scanBeginLiteral := by
  obtain ⟨h1, h2, h3, h4, h5⟩ := numberStart_facts c h
  simp only [scanner.doStep, hs, stateBeginValue, h1, Bool.false_eq_true, if_false, h2, h3, h4]
  rcases h5 with h5 | ⟨h5, h6⟩ | ⟨h5, h6, h7, h8, h9, h10⟩
  · simp [h5, isNumStep]
  · simp [h5, h6, isNumStep]
  · simp [h5, h6, h7, h8, h9, h10, isNumStep]

theorem notValueStart_facts (c : Byte) (h : (c.val = 0x2d || isDigit c) = false) :
    c.val ≠ 0x2d ∧ c.val ≠ 0x30 ∧ isDigit19 c = false := by
  revert h
  revert c
  decide

theorem beginValue_other (s : scanner) (hs : s.step = Step.beginValue) (c : Byte)
    (h0 : jsonIsSpace c = false) (h1 : c.val ≠ 0x7b) (h2 : c.val ≠ 0x5b) (h3 : c.val ≠ 0x22)
    (h4 : c.val ≠ 0x6e) (h5 : c.val ≠ 0x74) (h6 : c.val ≠ 0x66)
    (h7 : (c.val = 0x2d || isDigit c) = false) :
    (s.doStep c).2 = ScanOp.scanError := by
  obtain ⟨h8, h9, h10⟩ := notValueStart_facts c h7
  simp [scanner.doStep, hs, stateBeginValue, h0, h1, h2, h3, h4, h5, h6, h8, h9, h10,
    scanner.error]

/-! ### What the scanner does after a key, a member, an element -/

theorem endValue_key (s : scanner) (hs : s.step = Step.endValue) (π : List ParseState)
    (hp : s.parseState = ParseState.parseObjectKey :: π) (c : Byte)
    (hc : jsonIsSpace c = false) (hne : (s.doStep c).2 ≠ ScanOp.scanError) :
    c.val = 0x3a ∧ s.doStep c
      = ({ s.setTop ParseState.parseObjectValue with step := Step.beginValue },
          ScanOp.scanObjectKey) := by
  have e : s.doStep c = stateEndValue s c := by simp only [scanner.doStep, hs]
  rw [e] at hne ⊢
  unfold stateEndValue at hne ⊢
  rw [hp] at hne ⊢
  simp only [hc, Bool.false_eq_true, if_false] at hne ⊢
  split_ifs at hne ⊢ with h1
  · exact ⟨h1, rfl⟩
  · exact absurd rfl hne

theorem endValue_member (s : scanner) (hs : s.step = Step.endValue) (π : List ParseState)
    (hp : s.parseState = ParseState.parseObjectValue :: π) (c : Byte)
    (hc : jsonIsSpace c = false) (hne : (s.doStep c).2 ≠ ScanOp.scanError) :
    (c.val = 0x2c ∧ c.val ≠ 0x7d ∧ s.doStep c
        = ({ s.setTop ParseState.parseObjectKey with step := Step.beginString },
            ScanOp.scanObjectValue))
      ∨ (c.val = 0x7d ∧ s.doStep c = (s.popParseState, ScanOp.scanEndObject)) := by
  have e : s.doStep c = stateEndValue s c := by simp only [scanner.doStep, hs]
  rw [e] at hne ⊢
  unfold stateEndValue at hne ⊢
  rw [hp] at hne ⊢
  simp only [hc, Bool.false_eq_true, if_false] at hne ⊢
  split_ifs at hne ⊢ with h1 h2
  · exact Or.inl ⟨h1, by omega, rfl⟩
  · exact Or.inr ⟨h2, rfl⟩
  · exact absurd rfl hne

theorem endValue_element (s : scanner) (hs : s.step = Step.endValue) (π : List ParseState)
    (hp : s.parseState = ParseState.parseArrayValue :: π) (c : Byte)
    (hc : jsonIsSpace c = false) (hne : (s.doStep c).2 ≠ ScanOp.scanError) :
    (c.val = 0x2c ∧ c.val ≠ 0x5d ∧ s.doStep c
        = ({ s with step := Step.beginValue }, ScanOp.scanArrayValue))
      ∨ (c.val = 0x5d ∧ s.doStep c = (s.popParseState, ScanOp.scanEndArray)) := by
  have e : s.doStep c = stateEndValue s c := by simp only [scanner.doStep, hs]
  rw [e] at hne ⊢
  unfold stateEndValue at hne ⊢
  rw [hp] at hne ⊢
  simp only [hc, Bool.false_eq_true, if_false] at hne ⊢
  split_ifs at hne ⊢ with h1 h2
  · exact Or.inl ⟨h1, by omega, rfl⟩
  · exact Or.inr ⟨h2, rfl⟩
  · exact absurd rfl hne

theorem beginString_quote (s : scanner) (hs : s.step = Step.beginString) (c : Byte)
    (hc : jsonIsSpace c = false) (hne : (s.doStep c).2 ≠ ScanOp.scanError) :
    c = 0x22 ∧ s.doStep c = ({ s with step := Step.inString }, ScanOp.scanBeginLiteral) := by
  have e : s.doStep c = stateBeginString s c := by simp only [scanner.doStep, hs]
  rw [e] at hne ⊢
  unfold stateBeginString at hne ⊢
  simp only [hc, Bool.false_eq_true, if_false] at hne ⊢
  split_ifs at hne ⊢ with h1
  · exact ⟨Fin.ext h1, rfl⟩
  · exact absurd rfl hne

/-- After `{`: a closing brace, or the scan goes on as before a key. -/
theorem beginStringOrEmpty_cases (s : scanner) (hs : s.step = Step.beginStringOrEmpty)
    (c : Byte) (hc : jsonIsSpace c = false) :
    (c.val = 0x7d ∧ s.doStep c
        = ((s.setTop ParseState.parseObjectValue).popParseState, ScanOp.scanEndObject))
      ∨ (c.val ≠ 0x7d ∧ s.doStep c = { s with step := Step.beginString }.doStep c) := by
  simp only [scanner.doStep, hs, stateBeginStringOrEmpty, hc, Bool.false_eq_true, if_false]
  by_cases h : c.val = 0x7d
  · left
    refine ⟨h, ?_⟩
    rw [if_pos h]
    simp only [stateEndValue, scanner.setTop, hc, Bool.false_eq_true, if_false]
    rw [if_neg (by omega), if_pos h]
  · right
    refine ⟨h, ?_⟩
    rw [if_neg h]
    obtain ⟨st, e, ps, er⟩ := s
    simp only [stateBeginString, hc, Bool.false_eq_true, if_false]
    split_ifs <;> rfl

/-- After `[`: a closing bracket, or the scan goes on as before a value. -/
theorem beginValueOrEmpty_cases (s : scanner) (hs : s.step = Step.beginValueOrEmpty)
    (π : List ParseState) (hp : s.parseState = ParseState.parseArrayValue :: π)
    (c : Byte) (hc : jsonIsSpace c = false) :
    (c.val = 0x5d ∧ s.doStep c = (s.popParseState, ScanOp.scanEndArray))
      ∨ (c.val ≠ 0x5d ∧ s.doStep c = { s with step := Step.beginValue }.doStep c) := by
  simp only [scanner.doStep, hs, stateBeginValueOrEmpty, hc, Bool.false_eq_true, if_false]
  by_cases h : c.val = 0x5d
  · left
    refine ⟨h, ?_⟩
    rw [if_pos h]
    simp only [stateEndValue, hp, hc, Bool.false_eq_true, if_false]
    rw [if_neg (by omega), if_pos h]
  · right
    refine ⟨h, ?_⟩
    rw [if_neg h]
    obtain ⟨st, e, ps, er⟩ := s
    simp only [stateBeginValue, hc, Bool.false_eq_true, if_false, scanner.pushParseState,
      scanner.error]

theorem dropWhile_length_le (p : Byte → Bool) (w : List Byte) :
    (w.dropWhile p).length ≤ w.length :=
  (List.dropWhile_sublist p).length_le

theorem dropWhile_head_not (p : Byte → Bool) (w : List Byte) (c : Byte) (rest : List Byte)
    (h : w.dropWhile p = c :: rest) : p c = false := by
  induction w with
  | nil => simp at h
  | cons x xs ih =>
    by_cases hx : p x = true
    · rw [List.dropWhile_cons_of_pos hx] at h
      exact ih h
    · rw [List.dropWhile_cons_of_neg hx] at h
      cases h
      simpa using hx

theorem scansAll_congr (ns : Bool) (s1 s2 : scanner) (d : Byte) (rest : List Byte) (k : Nat)
    (h : ScansAll ns s1 (d :: rest) k) (e : s1.doStep d = s2.doStep d) :
    ScansAll ns s2 (d :: rest) 0 := by
  refine scansAll_shift ns _ _ k 0 ?_
  unfold ScansAll at h ⊢
  rw [← h]
  congr 1
  refine (loop_congr ns _ _ _ _ ?_).symm
  intro x hx
  simp only [List.head?_cons, Option.getD_some] at hx
  subst hx
  exact e

/-- After `{` and white space: the closing brace of an empty object, or the
first key. -/
theorem object_open (ns : Bool) (s : scanner) (d : Byte) (rest : List Byte) (k : Nat)
    (h : ScansAll ns s (d :: rest) k) (hs : s.step = Step.beginStringOrEmpty)
    (π : List ParseState) (hp : s.parseState = ParseState.parseObjectKey :: π)
    (hd : jsonIsSpace d = false) :
    (d.val = 0x7d ∧ AfterValue ns π rest)
      ∨ (d.val ≠ 0x7d ∧ ScansAll ns { s with step := Step.beginString } (d :: rest) 0) := by
  rcases beginStringOrEmpty_cases s hs d hd with ⟨d1, e1⟩ | ⟨d1, e1⟩
  · left
    refine ⟨d1, ?_⟩
    exact pop_after ns s _ d rest _ ParseState.parseObjectValue π k e1 (Or.inl rfl)
      (by simp [scanner.setTop, hp]) h
  · right
    exact ⟨d1, scansAll_congr ns s _ d rest k h e1⟩

/-- After `[` and white space: the closing bracket of an empty array, or the
first element. -/
theorem array_open (ns : Bool) (s : scanner) (d : Byte) (rest : List Byte) (k : Nat)
    (h : ScansAll ns s (d :: rest) k) (hs : s.step = Step.beginValueOrEmpty)
    (π : List ParseState) (hp : s.parseState = ParseState.parseArrayValue :: π)
    (hd : jsonIsSpace d = false) :
    (d.val = 0x5d ∧ AfterValue ns π rest)
      ∨ (d.val ≠ 0x5d ∧ ScansAll ns { s with step := Step.beginValue } (d :: rest) 0) := by
  rcases beginValueOrEmpty_cases s hs π hp d hd with ⟨d1, e1⟩ | ⟨d1, e1⟩
  · left
    refine ⟨d1, ?_⟩
    exact pop_after ns s _ d rest _ ParseState.parseArrayValue π k e1 (Or.inr rfl) hp h
  · right
    exact ⟨d1, scansAll_congr ns s _ d rest k h e1⟩

theorem value_step (ns : Bool) (fuel : Nat) (hO : ObjectOk ns fuel) (hA : ArrayOk ns fuel) :
    ValueOk ns (fuel + 1) := by
  intro w s hs h hf
  obtain ⟨c, rest, hd, hc, h1⟩ := scansAll_skip ns s (beginValue_skip s hs) w 0 h
  have hlen : (c :: rest).length ≤ w.length := by
    rw [← hd]; exact dropWhile_length_le _ _
  simp only [List.length_cons] at hlen
  rw [valueInterface_succ, hd]
  simp only
  obtain ⟨g1, -, -, g4⟩ := scansAll_cons ns s c rest _ h1
  by_cases c1 : c.val = 0x7b
  · -- an object
    rw [if_pos c1]
    have e := beginValue_object s hs c c1 g1
    rw [e] at g4
    have h2 := g4 (by simp) (by simp)
    obtain ⟨d, rest1, hd1, hcd, h3⟩ := scansAll_skip ns _
      (beginStringOrEmpty_skip _ rfl) rest _ h2
    have hlen1 : (d :: rest1).length ≤ rest.length := by
      rw [← hd1]; exact dropWhile_length_le _ _
    simp only [List.length_cons] at hlen1
    rw [hd1]
    simp only
    rcases object_open ns _ d rest1 _ h3 rfl s.parseState rfl hcd with ⟨d1, r⟩ | ⟨d1, h4⟩
    · rw [if_pos d1]
      exact ⟨_, _, rfl, by omega, r⟩
    · rw [if_neg d1]
      obtain ⟨v, w', r1, r2, r3⟩ := hO (d :: rest1) _ s.parseState [] rfl rfl h4
        (by simp only [List.length_cons]; omega)
      refine ⟨v, w', r1, ?_, r3⟩
      simp only [List.length_cons] at r2
      omega
  · rw [if_neg c1]
    by_cases c2 : c.val = 0x5b
    · -- an array
      rw [if_pos c2]
      have e := beginValue_array s hs c c2 g1
      rw [e] at g4
      have h2 := g4 (by simp) (by simp)
      obtain ⟨d, rest1, hd1, hcd, h3⟩ := scansAll_skip ns _
        (beginValueOrEmpty_skip _ rfl) rest _ h2
      have hlen1 : (d :: rest1).length ≤ rest.length := by
        rw [← hd1]; exact dropWhile_length_le _ _
      simp only [List.length_cons] at hlen1
      rw [hd1]
      simp only
      rcases array_open ns _ d rest1 _ h3 rfl s.parseState rfl hcd with ⟨d1, r⟩ | ⟨d1, h4⟩
      · rw [if_pos d1]
        exact ⟨_, _, rfl, by omega, r⟩
      · rw [if_neg d1]
        obtain ⟨v, w', r1, r2, r3⟩ := hA (d :: rest1) _ s.parseState [] rfl rfl h4
          (by simp only [List.length_cons]; omega)
        refine ⟨v, w', r1, ?_, r3⟩
        simp only [List.length_cons] at r2
        omega
    · rw [if_neg c2]
      by_cases c3 : c.val = 0x22
      · -- a string
        rw [if_pos c3]
        obtain rfl : c = 0x22 := Fin.ext c3
        rw [beginValue_quote s hs] at g4
        have h2 := g4 (by simp) (by simp)
        obtain ⟨body, w', rfl, hb, h3⟩ := scansAll_string ns rest.length rest _ _ (le_refl _)
          rfl h2
        obtain ⟨str, hstr⟩ := parseString_ok [] body w' (by simp) hb
        rw [List.nil_append] at hstr
        rw [hstr]
        refine ⟨_, _, rfl, ?_, ?_⟩
        · simp only [List.length_append, List.length_cons] at hlen ⊢
          omega
        · (have r := after_of_endValue ns _ w' _ rfl h3; exact r)
      · rw [if_neg c3]
        by_cases c4 : c.val = 0x6e
        · rw [if_pos c4]
          obtain rfl : c = 0x6e := Fin.ext c4
          rw [beginValue_n s hs] at g4
          have h2 := g4 (by simp) (by simp)
          obtain ⟨w', rfl, h3⟩ := scansAll_null ns _ rest _ rfl h2
          refine ⟨_, w', rfl, ?_, ?_⟩
          · simp only [List.length_cons] at hlen
            omega
          · (have r := after_of_endValue ns _ w' _ rfl h3; exact r)
        · rw [if_neg c4]
          by_cases c5 : c.val = 0x74
          · rw [if_pos c5]
            obtain rfl : c = 0x74 := Fin.ext c5
            rw [beginValue_t s hs] at g4
            have h2 := g4 (by simp) (by simp)
            obtain ⟨w', rfl, h3⟩ := scansAll_true ns _ rest _ rfl h2
            refine ⟨_, w', rfl, ?_, ?_⟩
            · simp only [List.length_cons] at hlen
              omega
            · (have r := after_of_endValue ns _ w' _ rfl h3; exact r)
          · rw [if_neg c5]
            by_cases c6 : c.val = 0x66
            · rw [if_pos c6]
              obtain rfl : c = 0x66 := Fin.ext c6
              rw [beginValue_f s hs] at g4
              have h2 := g4 (by simp) (by simp)
              obtain ⟨w', rfl, h3⟩ := scansAll_false ns _ rest _ rfl h2
              refine ⟨_, w', rfl, ?_, ?_⟩
              · simp only [List.length_cons] at hlen
                omega
              · (have r := after_of_endValue ns _ w' _ rfl h3; exact r)
            · rw [if_neg c6]
              cases c7 : (c.val = 0x2d || isDigit c) with
              | true =>
                simp only [if_true]
                obtain ⟨n1, n2, n3⟩ := beginValue_number s hs c c7
                have h2 := g4 (by rw [n3]; simp) (by rw [n3]; simp)
                obtain ⟨s', h3, hp, he⟩ := scansAll_number ns rest _ _ n1 h2
                refine ⟨_, _, rfl, ?_, ?_⟩
                · have := dropWhile_length_le isNumberByte rest
                  omega
                · rw [← n2, ← hp]
                  exact after_of_endState ns s' _ _ he
                    (fun x xs hx => dropWhile_head_not _ _ _ _ hx) h3
              | false =>
                exact absurd (beginValue_other s hs c hc c1 c2 c3 c4 c5 c6 c7) g1

theorem array_step (ns : Bool) (fuel : Nat) (hV : ValueOk ns fuel) (hA : ArrayOk ns fuel) :
    ArrayOk ns (fuel + 1) := by
  intro w s π acc hs hp h hf
  obtain ⟨v, w1, r1, r2, r3⟩ := hV w s hs h (by omega)
  rw [arrayInterface_succ, r1]
  simp only
  rw [hp] at r3
  rcases r3 with ⟨r3, -⟩ | ⟨-, s4, hs4, hp4, h4⟩
  · cases r3
  obtain ⟨sep, rest, hd, hc, h5⟩ := scansAll_skip ns s4
    (endValue_skip s4 hs4 _ _ hp4) w1 0 h4
  have hlen : (sep :: rest).length ≤ w1.length := by
    rw [← hd]; exact dropWhile_length_le _ _
  simp only [List.length_cons] at hlen
  rw [hd]
  simp only
  obtain ⟨g1, -, -, g4⟩ := scansAll_cons ns s4 sep rest _ h5
  rcases endValue_element s4 hs4 π hp4 sep hc g1 with ⟨d1, d2, e⟩ | ⟨d1, e⟩
  · rw [if_neg d2, if_pos d1]
    rw [e] at g4
    have h6 : ScansAll ns { s4 with step := Step.beginValue } rest 0 :=
      scansAll_shift ns _ _ _ 0 (g4 (by simp) (by simp))
    obtain ⟨v', w', q1, q2, q3⟩ := hA rest { s4 with step := Step.beginValue } π (acc ++ [v])
      rfl hp4 h6 (by omega)
    exact ⟨v', w', q1, by omega, q3⟩
  · rw [if_pos d1]
    refine ⟨_, _, rfl, by omega, ?_⟩
    exact pop_after ns s4 s4 sep rest _ _ π _ e (Or.inr rfl) hp4 h5

theorem parseString_dropWhile (w : List Byte) :
    parseString (w.dropWhile jsonIsSpace) = parseString w := by
  unfold parseString
  rw [List.dropWhile_idempotent]

theorem object_step (ns : Bool) (fuel : Nat) (hV : ValueOk ns fuel) (hO : ObjectOk ns fuel) :
    ObjectOk ns (fuel + 1) := by
  intro w s π m hs hp h hf
  -- the key
  obtain ⟨c, rest, hd, hc, h1⟩ := scansAll_skip ns s (beginString_skip s hs) w 0 h
  have hlen : (c :: rest).length ≤ w.length := by
    rw [← hd]; exact dropWhile_length_le _ _
  simp only [List.length_cons] at hlen
  obtain ⟨g1, -, -, g4⟩ := scansAll_cons ns s c rest _ h1
  obtain ⟨rfl, e⟩ := beginString_quote s hs c hc g1
  rw [e] at g4
  have h2 := g4 (by simp) (by simp)
  obtain ⟨body, w1, rfl, hb, h3⟩ := scansAll_string ns rest.length rest _ _ (le_refl _) rfl h2
  obtain ⟨key, hkey⟩ := parseString_ok [] body w1 (by simp) hb
  rw [List.nil_append, ← hd, parseString_dropWhile] at hkey
  rw [objectInterface_succ, hkey]
  simp only [List.length_append, List.length_cons] at hlen
  simp only
  -- the colon
  have h3n : ScansAll ns { s with step := Step.endValue } w1 0 := scansAll_shift ns _ _ _ 0 h3
  obtain ⟨colon, afterColon, hd1, hc1, h4⟩ := scansAll_skip ns { s with step := Step.endValue }
    (endValue_skip { s with step := Step.endValue } rfl _ _ hp) w1 0 h3n
  have hlen1 : (colon :: afterColon).length ≤ w1.length := by
    rw [← hd1]; exact dropWhile_length_le _ _
  simp only [List.length_cons] at hlen1
  rw [hd1]
  simp only
  obtain ⟨k1, -, -, k4⟩ := scansAll_cons ns { s with step := Step.endValue } colon afterColon
    _ h4
  obtain ⟨e1, e2⟩ := endValue_key { s with step := Step.endValue } rfl π hp colon hc1 k1
  rw [e2] at k4
  obtain ⟨s3, hs3, hp3, h5⟩ : ∃ s3 : scanner, s3.step = Step.beginValue
      ∧ s3.parseState = ParseState.parseObjectValue :: π ∧ ScansAll ns s3 afterColon 0 :=
    ⟨_, rfl, by simp [scanner.setTop, hp], scansAll_shift ns _ _ _ 0 (k4 (by simp) (by simp))⟩
  rw [if_neg (by simpa using e1)]
  -- the value
  obtain ⟨v, w2, r1, r2, r3⟩ := hV afterColon s3 hs3 h5 (by omega)
  rw [r1]
  simp only
  rw [hp3] at r3
  rcases r3 with ⟨r3, -⟩ | ⟨-, s4, hs4, hp4, h6⟩
  · cases r3
  -- the comma or the closing brace
  obtain ⟨sep, rest2, hd2, hc2, h7⟩ := scansAll_skip ns s4
    (endValue_skip s4 hs4 _ _ hp4) w2 0 h6
  have hlen2 : (sep :: rest2).length ≤ w2.length := by
    rw [← hd2]; exact dropWhile_length_le _ _
  simp only [List.length_cons] at hlen2
  rw [hd2]
  simp only
  obtain ⟨m1, -, -, m4⟩ := scansAll_cons ns s4 sep rest2 _ h7
  rcases endValue_member s4 hs4 π hp4 sep hc2 m1 with ⟨d1, d2, e3⟩ | ⟨d1, e3⟩
  · rw [if_neg d2, if_pos d1]
    rw [e3] at m4
    obtain ⟨s5, hs5, hp5, h8⟩ : ∃ s5 : scanner, s5.step = Step.beginString
        ∧ s5.parseState = ParseState.parseObjectKey :: π ∧ ScansAll ns s5 rest2 0 :=
      ⟨_, rfl, by simp [scanner.setTop, hp4], scansAll_shift ns _ _ _ 0 (m4 (by simp) (by simp))⟩
    obtain ⟨v', w', q1, q2, q3⟩ := hO rest2 s5 π (m.set key v) hs5 hp5 h8 (by omega)
    exact ⟨v', w', q1, by omega, q3⟩
  · rw [if_pos d1]
    refine ⟨_, _, rfl, by omega, ?_⟩
    exact pop_after ns s4 s4 sep rest2 _ _ π _ e3 (Or.inl rfl) hp4 h7

/-- Bytes the scanner accepts as one value are built into a value, whatever the
nesting: `valueInterface`, `objectInterface` and `arrayInterface` never meet
an unexpected byte there. -/
theorem builder_ok (ns : Bool) (fuel : Nat) :
    ValueOk ns fuel ∧ ObjectOk ns fuel ∧ ArrayOk ns fuel := by
  induction fuel with
  | zero =>
    refine ⟨?_, ?_, ?_⟩
    · intro w s _ _ hf; omega
    · intro w s π m _ _ _ hf; omega
    · intro w s π acc _ _ _ hf; omega
  | succ n ih =>
    obtain ⟨hV, hO, hA⟩ := ih
    exact ⟨value_step ns n hO hA, object_step ns n hV hO, array_step ns n hV hA⟩

theorem stateEndValue_step_ne (s : scanner) (c : Byte) :
    (stateEndValue s c).1.step ≠ Step.beginValueOrEmpty := by
  obtain ⟨st, e, ps, er⟩ := s
  unfold stateEndValue
  cases ps with
  | nil =>
    simp only [stateEndTop, scanner.error]
    split_ifs <;> simp
  | cons p rest =>
    cases p <;> simp only [scanner.setTop, scanner.popParseState, scanner.error] <;>
      split_ifs <;> simp

theorem good_of_step_ne (s : scanner) (h : s.step ≠ Step.beginValueOrEmpty) : Good s :=
  fun h1 => absurd h1 h

theorem push_cases (s : scanner) (c : Byte) (p : ParseState) (op : ScanOp) :
    s.pushParseState c p op = ({ s with parseState := p :: s.parseState }, op)
      ∨ (s.pushParseState c p op).1.step = Step.error := by
  unfold scanner.pushParseState
  simp only
  split_ifs
  · left; rfl
  · right; rfl

theorem good_push_object (s : scanner) (c : Byte) :
    Good (s.pushParseState c ParseState.parseObjectKey ScanOp.scanBeginObject).1 := by
  have := push_cases s c ParseState.parseObjectKey ScanOp.scanBeginObject
  generalize s.pushParseState c ParseState.parseObjectKey ScanOp.scanBeginObject = q at this ⊢
  rcases this with e | e
  · subst e
    intro _
    simp
  · exact good_of_step_ne _ (by rw [e]; simp)

theorem good_push_array (s : scanner) (c : Byte) :
    Good (s.pushParseState c ParseState.parseArrayValue ScanOp.scanBeginArray).1 := by
  have := push_cases s c ParseState.parseArrayValue ScanOp.scanBeginArray
  generalize s.pushParseState c ParseState.parseArrayValue ScanOp.scanBeginArray = q at this ⊢
  rcases this with e | e
  · subst e
    intro _
    simp
  · exact good_of_step_ne _ (by rw [e]; simp)

theorem stateBeginValue_cases (s : scanner) (c : Byte) :
    stateBeginValue s c = (s, ScanOp.scanSkipSpace)
    ∨ stateBeginValue s c = { s with step := Step.beginStringOrEmpty }.pushParseState c
        ParseState.parseObjectKey ScanOp.scanBeginObject
    ∨ stateBeginValue s c = { s with step := Step.beginValueOrEmpty }.pushParseState c
        ParseState.parseArrayValue ScanOp.scanBeginArray
    ∨ (stateBeginValue s c).1.step ≠ Step.beginValueOrEmpty := by
  unfold stateBeginValue
  by_cases h0 : jsonIsSpace c = true
  · left
    rw [if_pos h0]
  right
  rw [if_neg h0]
  by_cases h1 : c.val = 0x7b
  · left
    rw [if_pos h1]
  right
  rw [if_neg h1]
  by_cases h2 : c.val = 0x5b
  · left
    rw [if_pos h2]
  right
  rw [if_neg h2]
  simp only [scanner.error]
  split_ifs <;> exact Step.noConfusion

theorem good_stateBeginValue (s : scanner) (c : Byte) (h : Good s) :
    Good (stateBeginValue s c).1 := by
  rcases stateBeginValue_cases s c with e | e | e | e
  · rw [e]; exact h
  · rw [e]; exact good_push_object _ c
  · rw [e]; exact good_push_array _ c
  · exact good_of_step_ne _ e

theorem good_doStep (s : scanner) (c : Byte) (h : Good s) : Good (s.doStep c).1 := by
  by_cases hs : s.step = Step.beginValueOrEmpty
  · simp only [scanner.doStep, hs, stateBeginValueOrEmpty]
    split_ifs with h1 h2
    · exact h
    · exact good_of_step_ne _ (stateEndValue_step_ne s c)
    · exact good_stateBeginValue s c h
  · by_cases hs1 : s.step = Step.beginValue
    · simp only [scanner.doStep, hs1]
      exact good_stateBeginValue s c h
    · apply good_of_step_ne
      obtain ⟨st, e, ps, er⟩ := s
      simp only at hs hs1
      cases st <;> first
        | exact absurd rfl hs
        | exact absurd rfl hs1
        | exact stateEndValue_step_ne _ c
        | (simp only [scanner.doStep]; decide)
        | (simp only [scanner.doStep, stateBeginStringOrEmpty, stateBeginString,
            stateEndTop, stateInString, stateInStringEsc, stateInStringEscHex, state0, state1,
            stateNeg, stateDot, stateDot0, stateESign, stateE, stateE0, stateLiteral,
            scanner.error]
           split_ifs <;> first
            | exact stateEndValue_step_ne _ c
            | simp)

theorem stateEndValue_end (s : scanner) (c : Byte)
    (h : (stateEndValue s c).2 = ScanOp.scanEnd) : s.parseState = [] := by
  obtain ⟨st, e, ps, er⟩ := s
  cases ps with
  | nil => rfl
  | cons p rest =>
    exfalso
    revert h
    unfold stateEndValue
    cases p <;> simp only [scanner.error] <;> split_ifs <;> simp

theorem stateEndValue_top (s : scanner) (c : Byte) (h : s.parseState = []) :
    (stateEndValue s c).2 = ScanOp.scanEnd := by
  obtain ⟨st, e, ps, er⟩ := s
  simp only at h
  subst h
  simp only [stateEndValue, stateEndTop]
  split_ifs <;> rfl

theorem push_op_ne_end (s : scanner) (c : Byte) (p : ParseState) (op : ScanOp)
    (h : op ≠ ScanOp.scanEnd) : (s.pushParseState c p op).2 ≠ ScanOp.scanEnd := by
  unfold scanner.pushParseState
  simp only
  split_ifs
  · exact h
  · simp [scanner.error]

theorem stateBeginValue_ne_end (s : scanner) (c : Byte) :
    (stateBeginValue s c).2 ≠ ScanOp.scanEnd := by
  unfold stateBeginValue
  by_cases h0 : jsonIsSpace c = true
  · rw [if_pos h0]; simp
  rw [if_neg h0]
  by_cases h1 : c.val = 0x7b
  · rw [if_pos h1]; exact push_op_ne_end _ _ _ _ (by simp)
  rw [if_neg h1]
  by_cases h2 : c.val = 0x5b
  · rw [if_pos h2]; exact push_op_ne_end _ _ _ _ (by simp)
  rw [if_neg h2]
  simp only [scanner.error]
  split_ifs <;> simp

/-- A scan that ends before some byte also ends before a space: the value is
complete where the stream is cut. -/
theorem doStep_end_space (s : scanner) (c : Byte) (hg : Good s)
    (h : (s.doStep c).2 = ScanOp.scanEnd) : (s.doStep 0x20).2 = ScanOp.scanEnd := by
  by_cases hn : isNumStep s.step = true
  · rcases num_step_cases s c hn with ⟨-, st, -, e⟩ | e | ⟨he, e⟩
    · rw [e] at h; cases h
    · rw [e] at h; cases h
    · rw [e] at h
      rw [endState_of_endNumStep s he 0x20 (by decide)]
      exact stateEndValue_top s _ (stateEndValue_end s c h)
  · by_cases hv : s.step = Step.beginValueOrEmpty
    · exfalso
      have hp := hg hv
      revert h
      simp only [scanner.doStep, hv, stateBeginValueOrEmpty]
      split_ifs with h1 h2
      · simp
      · intro h
        exact hp (stateEndValue_end s c h)
      · exact stateBeginValue_ne_end s c
    · by_cases hb : s.step = Step.beginValue
      · exfalso
        revert h
        simp only [scanner.doStep, hb]
        exact stateBeginValue_ne_end s c
      · by_cases he : s.step = Step.endValue
        · have e1 : ∀ x, s.doStep x = stateEndValue s x := fun x => by
            simp only [scanner.doStep, he]
          rw [e1] at h ⊢
          exact stateEndValue_top s _ (stateEndValue_end s c h)
        · by_cases ho : s.step = Step.beginStringOrEmpty
          · exfalso
            revert h
            simp only [scanner.doStep, ho, stateBeginStringOrEmpty, stateBeginString,
              scanner.error]
            split_ifs
            · simp
            · intro h
              have := stateEndValue_end _ c h
              simp [scanner.setTop] at this
            · simp
            · simp
          · obtain ⟨st, e, ps, er⟩ := s
            simp only at hn hv hb he ho
            revert h
            cases st <;> first
              | exact absurd rfl hv
              | exact absurd rfl hb
              | exact absurd rfl he
              | exact absurd rfl ho
              | exact absurd rfl hn
              | (intro _; simp only [scanner.doStep, stateEndTop]; split_ifs <;> rfl)
              | (simp only [scanner.doStep, stateBeginString, stateInString, stateInStringEsc,
                  stateInStringEscHex, stateLiteral, scanner.error]
                 split_ifs <;> simp)
              | (simp only [scanner.doStep]; simp)

theorem loop_cons_other (ns : Bool) (s : scanner) (c : Byte) (cs : List Byte) (k : Nat)
    (h1 : (s.doStep c).2 ≠ ScanOp.scanEnd) (h2 : (s.doStep c).2 ≠ ScanOp.scanEndObject)
    (h3 : (s.doStep c).2 ≠ ScanOp.scanEndArray) (h4 : (s.doStep c).2 ≠ ScanOp.scanError) :
    readValue.loop ns s (c :: cs) k = readValue.loop ns (s.doStep c).1 cs (k + 1) := by
  simp only [readValue.loop]

theorem loop_cons_close (ns : Bool) (s : scanner) (c : Byte) (cs : List Byte) (k : Nat)
    (h : (s.doStep c).2 = ScanOp.scanEndObject ∨ (s.doStep c).2 = ScanOp.scanEndArray) :
    readValue.loop ns s (c :: cs) k =
      if (stateEndValue (s.doStep c).1 0x20).2 = ScanOp.scanEnd then
        { result := Except.ok (k + 1), looked := k + 1 }
      else readValue.loop ns (stateEndValue (s.doStep c).1 0x20).1 cs (k + 1) := by
  simp only [readValue.loop]
  rcases h with h | h <;> rw [h]

theorem loop_cons_end (ns : Bool) (s : scanner) (c : Byte) (cs : List Byte) (k : Nat)
    (h : (s.doStep c).2 = ScanOp.scanEnd) :
    readValue.loop ns s (c :: cs) k = { result := Except.ok k, looked := k + 1 } := by
  simp only [readValue.loop]
  rw [h]

theorem loop_cons_error (ns : Bool) (s : scanner) (c : Byte) (cs : List Byte) (k : Nat)
    (h : (s.doStep c).2 = ScanOp.scanError) :
    (readValue.loop ns s (c :: cs) k).result
      = Except.error ((s.doStep c).1.err.getD GoError.phase) := by
  simp only [readValue.loop]
  rw [h]

/-- The bytes up to where the scan of a value ends are scanned to their end as
one value. -/
theorem loop_cut (ns ns' : Bool) (w : List Byte) :
    ∀ (s : scanner) (k n : Nat), Good s → (readValue.loop ns s w k).result = Except.ok n →
      (readValue.loop ns' s (w.take (n - k)) k).result = Except.ok n := by
  induction w with
  | nil =>
    intro s k n _ h
    simp only [readValue.loop, List.take_nil] at h ⊢
    split_ifs at h ⊢ with h1 h2
    exact h
  | cons c cs ih =>
    intro s k n hg h
    have hb := (readValue_loop_bounds ns (c :: cs) s k).2.2 n h
    by_cases e1 : (s.doStep c).2 = ScanOp.scanEnd
    · rw [loop_cons_end ns s c cs k e1] at h
      simp only [Except.ok.injEq] at h
      subst h
      simp only [Nat.sub_self, List.take_zero, readValue.loop]
      rw [if_pos (doStep_end_space s c hg e1)]
    · by_cases e2 : (s.doStep c).2 = ScanOp.scanEndObject ∨ (s.doStep c).2 = ScanOp.scanEndArray
      · rw [loop_cons_close ns s c cs k e2] at h
        by_cases e3 : (stateEndValue (s.doStep c).1 0x20).2 = ScanOp.scanEnd
        · rw [if_pos e3] at h
          simp only [Except.ok.injEq] at h
          subst h
          rw [show k + 1 - k = 1 by omega, List.take_succ_cons, List.take_zero,
            loop_cons_close ns' s c [] k e2, if_pos e3]
        · rw [if_neg e3] at h
          have hb1 := (readValue_loop_bounds ns cs _ (k + 1)).2.2 n h
          have := ih _ (k + 1) n (good_of_step_ne _ (stateEndValue_step_ne _ _)) h
          rw [show n - k = (n - (k + 1)) + 1 by omega, List.take_succ_cons,
            loop_cons_close ns' s c _ k e2, if_neg e3]
          exact this
      · by_cases e4 : (s.doStep c).2 = ScanOp.scanError
        · rw [loop_cons_error ns s c cs k e4] at h
          cases h
        · rw [loop_cons_other ns s c cs k e1 (fun x => e2 (Or.inl x)) (fun x => e2 (Or.inr x))
            e4] at h
          have hb1 := (readValue_loop_bounds ns cs _ (k + 1)).2.2 n h
          have := ih _ (k + 1) n (good_doStep s c hg) h
          rw [show n - k = (n - (k + 1)) + 1 by omega, List.take_succ_cons,
            loop_cons_other ns' s c _ k e1 (fun x => e2 (Or.inl x)) (fun x => e2 (Or.inr x)) e4]
          exact this

theorem good_reset : Good scanner.reset := good_of_step_ne _ (by decide)

/-- The bytes `readValue` delimits are, scanned on their own, one whole
value. -/
theorem readValue_cut (ns : Bool) (stream : List Byte) (n : Nat)
    (h : (readValue stream).result = Except.ok n) :
    ScansAll ns scanner.reset (stream.take n) 0 := by
  have hb := readValue_ok_bounds stream n h
  have := loop_cut _ ns stream scanner.reset 0 n good_reset h
  unfold ScansAll
  rw [Nat.sub_zero] at this
  rw [this, List.length_take]
  congr 1
  omega

/-- Every value `readValue` delimits is built by `unmarshal`: the scanner and
the value builder agree, `panic(phasePanicMsg)` is never reached. -/
theorem nextValue_unmarshal (stream item rest : List Byte)
    (h : nextValue stream = Except.ok (item, rest)) : ∃ v, unmarshal item = Except.ok v := by
  unfold nextValue at h
  cases hr : (readValue stream).result with
  | error e => rw [hr] at h; cases h
  | ok n =>
    rw [hr] at h
    simp only [Except.ok.injEq, Prod.mk.injEq] at h
    obtain ⟨rfl, -⟩ := h
    have h1 := readValue_cut false stream n hr
    obtain ⟨c, tl, hd, hc, h2⟩ := scansAll_skip false scanner.reset
      (beginValue_skip scanner.reset rfl) _ 0 h1
    rw [hd]
    obtain ⟨v, w', hv, -, -⟩ := (builder_ok false (2 * (c :: tl).length + 2)).1 (c :: tl)
      scanner.reset rfl (scansAll_shift false _ _ _ 0 h2) (by omega)
    refine ⟨v, ?_⟩
    unfold unmarshal
    simp only
    rw [List.dropWhile_cons_of_neg (by simp [hc]), hv]

theorem nextValue_decodes (stream item rest : List Byte)
    (h : nextValue stream = Except.ok (item, rest)) : decodes item = true := by
  obtain ⟨v, hv⟩ := nextValue_unmarshal stream item rest h
  unfold decodes
  rw [hv]

theorem objectInterface_object (fuel : Nat) :
    ∀ (w : List Byte) (m : JMap) (v : JValue) (w' : List Byte),
      objectInterface fuel w m = some (v, w') → ∃ m', v = JValue.object m' := by
  induction fuel with
  | zero =>
    intro w m v w' h
    cases h
  | succ n ih =>
    intro w m v w' h
    rw [objectInterface_succ] at h
    split at h
    · cases h
    · split at h
      · cases h
      · split_ifs at h
        split at h
        · cases h
        · split at h
          · cases h
          · split_ifs at h
            · simp only [Option.some.injEq, Prod.mk.injEq] at h
              exact ⟨_, h.1.symm⟩
            · exact ih _ _ _ _ h

/-- A value that starts with `{` decodes to a map. -/
theorem unmarshal_object (item : List Byte) (v : JValue) (hh : item.head? = some 0x7b)
    (h : unmarshal item = Except.ok v) : ∃ m, v = JValue.object m := by
  cases item with
  | nil => cases hh
  | cons c cs =>
    simp only [List.head?_cons, Option.some.injEq] at hh
    subst hh
    unfold unmarshal at h
    simp only at h
    rw [List.dropWhile_cons_of_neg (by decide)] at h
    have e : 2 * ((0x7b : Byte) :: cs).length + 2 = (2 * cs.length + 3) + 1 := by
      simp only [List.length_cons]; omega
    rw [e, valueInterface_succ, List.dropWhile_cons_of_neg (by decide)] at h
    simp only at h
    rw [if_pos (by decide)] at h
    cases hd : cs.dropWhile jsonIsSpace with
    | nil => rw [hd] at h; cases h
    | cons c1 rest1 =>
      rw [hd] at h
      simp only at h
      split_ifs at h
      · simp only [Except.ok.injEq] at h
        exact ⟨_, h.symm⟩
      · cases ho : objectInterface (2 * cs.length + 3) (c1 :: rest1) [] with
        | none => rw [ho] at h; cases h
        | some r =>
          rw [ho] at h
          simp only [Except.ok.injEq] at h
          obtain ⟨m', hm⟩ := objectInterface_object _ _ _ r.1 r.2 ho
          exact ⟨m', by rw [← h, hm]⟩

/-- The reply `readValue` delimits, starting with `{`, decodes to the map
`replyMap` gives. -/
theorem nextValue_replyMap (stream reply rest : List Byte)
    (h : nextValue stream = Except.ok (reply, rest)) (hh : reply.head? = some 0x7b) :
    unmarshal reply = Except.ok (JValue.object (replyMap reply)) := by
  obtain ⟨v, hv⟩ := nextValue_unmarshal stream reply rest h
  obtain ⟨m, rfl⟩ := unmarshal_object reply v hh hv
  unfold replyMap
  rw [hv]

/-! ## The subscription handshake -/

theorem nextValue_ok_inv (s item rest : List Byte) (h : nextValue s = Except.ok (item, rest)) :
    ∃ n, (readValue s).result = Except.ok n ∧ item = (s.take n).dropWhile jsonIsSpace
      ∧ rest = s.drop n := by
  unfold nextValue at h
  cases hr : (readValue s).result with
  | error e => rw [hr] at h; cases h
  | ok n =>
    rw [hr] at h
    simp only [Except.ok.injEq, Prod.mk.injEq] at h
    exact ⟨n, rfl, h.1.symm, h.2.symm⟩

/-- The rest of the stream after a value is shorter than the stream. -/
theorem nextValue_rest_length (s item rest : List Byte)
    (h : nextValue s = Except.ok (item, rest)) : rest.length < s.length := by
  obtain ⟨n, hn, -, hrest⟩ := nextValue_ok_inv s item rest h
  have hb := readValue_ok_bounds s n hn
  rw [hrest, List.length_drop]
  omega

/-- The first byte of the next value is the byte the look-ahead reports. -/
theorem nextValue_head (s : List Byte) :
    ∀ item rest, nextValue s = Except.ok (item, rest) →
      ∃ c, item.head? = some c ∧ firstUntrimmed s = some c := by
  induction s with
  | nil => intro item rest h; cases h
  | cons c cs ih =>
    intro item rest h
    cases hc : jsonIsSpace c with
    | true =>
      rw [nextValue_cons_space c cs hc] at h
      obtain ⟨c1, h1, h2⟩ := ih item rest h
      refine ⟨c1, h1, ?_⟩
      rw [← h2]
      simp [firstUntrimmed, List.find?_cons, jsonIsSpace_isSpace c hc]
    | false =>
      cases hs : isSpace c with
      | true => rw [nextValue_cons_vt c cs hs hc] at h; cases h
      | false =>
        obtain ⟨n, hn, hitem, -⟩ := nextValue_ok_inv _ item rest h
        have hb := readValue_ok_bounds _ n hn
        obtain ⟨k, rfl⟩ : ∃ k, n = k + 1 := ⟨n - 1, by omega⟩
        refine ⟨c, ?_, ?_⟩
        · rw [hitem]
          simp [hc, List.take_succ_cons]
        · simp [firstUntrimmed, List.find?_cons, hs]

theorem NextByte_remaining_length (d : peekingDecoder) :
    (NextByte d).2.remaining.length ≤ d.remaining.length := by
  rw [NextByte_remaining]
  split_ifs
  · simp only [peekingDecoder.remaining, List.length_append]
    have := (List.dropWhile_sublist (l := d.rd) isSpace).length_le
    omega
  · exact le_refl _

theorem Decode_ok_inv (d : peekingDecoder) (v : JValue) (h : (Decode d).1 = Except.ok v) :
    d.err = none ∧ ∃ item rest, nextValue d.remaining = Except.ok (item, rest) := by
  cases he : d.err with
  | some e => rw [Decode_err d e he] at h; cases h
  | none =>
    refine ⟨rfl, ?_⟩
    rw [Decode_fst d he] at h
    unfold decodeResult at h
    cases hv : nextValue d.remaining with
    | error e => rw [hv] at h; cases h
    | ok x => exact ⟨x.1, x.2, rfl⟩

/-- The skipping loop of `readResult` ends within the rounds `readResult`
allows it: it decodes at least one byte in every round it goes through. -/
theorem readResult_loop_fuel (fuel : Nat) :
    ∀ d : peekingDecoder, d.remaining.length < fuel →
      (readResult.loop fuel d).1 ≠ LoopExit.outOfFuel := by
  induction fuel with
  | zero => intro d h; omega
  | succ k ih =>
    intro d h
    simp only [readResult.loop]
    split
    · simp
    · split_ifs
      · simp
      · split
        · simp
        · rename_i v hv
          obtain ⟨he, item, rest, hnv⟩ := Decode_ok_inv _ v hv
          have h1 := (Decode_snd _ he item rest hnv).1
          have h2 := nextValue_rest_length _ _ _ hnv
          have h3 := NextByte_remaining_length d
          apply ih
          rw [h1]
          omega

/-- What one look-ahead reports on a stream that carries a value next. -/
theorem NextByte_of_nextValue (d : peekingDecoder) (item rest : List Byte)
    (hv : nextValue d.remaining = Except.ok (item, rest)) :
    ∃ c, item.head? = some c ∧ (NextByte d).1 = (c, none)
      ∧ nextValue (NextByte d).2.remaining = Except.ok (item, rest) := by
  obtain ⟨c, h1, h2⟩ := nextValue_head _ _ _ hv
  refine ⟨c, h1, ?_, ?_⟩
  · rw [NextByte_spec]
    show peekResult (firstUntrimmed d.remaining) = _
    rw [h2]; rfl
  · rw [NextByte_nextValue_of_ok d _ hv, hv]

/-- The skipping loop of `readResult` on a stream that carries the values
`vals`, none of them starting with `{`, then `reply`, which does: the loop
stops in front of `reply` with everything before it consumed. -/
theorem readResult_loop_reply (vals : List (List Byte)) :
    ∀ (fuel : Nat) (d : peekingDecoder) (reply post : List Byte),
      d.err = none → d.remaining.length < fuel →
      carries d.remaining (vals ++ [reply]) post = true →
      (∀ v ∈ vals, v.head? ≠ some 0x7b) → reply.head? = some 0x7b →
      ∃ d1, readResult.loop fuel d = (LoopExit.reply, d1) ∧ d1.err = none
        ∧ nextValue d1.remaining = Except.ok (reply, post) := by
  induction vals with
  | nil =>
    intro fuel d reply post he hf hc _ hr
    obtain ⟨k, rfl⟩ : ∃ k, fuel = k + 1 := ⟨fuel - 1, by omega⟩
    simp only [List.nil_append, carries] at hc
    cases hv : nextValue d.remaining with
    | error e => rw [hv] at hc; simp at hc
    | ok x =>
      obtain ⟨item, rest⟩ := x
      rw [hv] at hc
      simp only [Bool.and_eq_true, decide_eq_true_eq] at hc
      obtain ⟨rfl, rfl⟩ := hc
      obtain ⟨c, hc1, hc2, hc3⟩ := NextByte_of_nextValue d _ _ hv
      rw [hr] at hc1
      obtain rfl : (0x7b : Byte) = c := Option.some.inj hc1
      refine ⟨(NextByte d).2, ?_, by rw [NextByte_err, he], hc3⟩
      simp only [readResult.loop]
      rw [hc2]
      simp only
      rw [if_pos (by decide)]
  | cons v vs ih =>
    intro fuel d reply post he hf hc hvals hr
    obtain ⟨k, rfl⟩ : ∃ k, fuel = k + 1 := ⟨fuel - 1, by omega⟩
    simp only [List.cons_append, carries] at hc
    cases hv : nextValue d.remaining with
    | error e => rw [hv] at hc; simp at hc
    | ok x =>
      obtain ⟨item, rest⟩ := x
      rw [hv] at hc
      simp only [Bool.and_eq_true, decide_eq_true_eq] at hc
      obtain ⟨rfl, hc⟩ := hc
      have hne := hvals item (List.mem_cons_self _ _)
      have hdec := nextValue_decodes _ _ _ hv
      obtain ⟨c, hc1, hc2, hv1⟩ := NextByte_of_nextValue d _ _ hv
      have he1 : (NextByte d).2.err = none := by rw [NextByte_err, he]
      have hd := Decode_snd _ he1 item rest hv1
      have hdf := Decode_fst _ he1
      have hlen := nextValue_rest_length _ _ _ hv
      obtain ⟨d1, hd1, he2, hv2⟩ := ih k (Decode (NextByte d).2).2 reply post hd.2
        (by rw [hd.1]; omega) (by rw [hd.1]; exact hc)
        (fun w hw => hvals w (List.mem_cons_of_mem _ hw)) hr
      refine ⟨d1, ?_, he2, hv2⟩
      simp only [readResult.loop]
      have hcne : ¬ c.val = 0x7b := by
        intro hcv
        apply hne
        rw [hc1]
        congr 1
        exact Fin.ext hcv
      rw [hc2]
      simp only [hcne, if_false]
      rw [hdf]
      unfold decodeResult
      rw [hv1]
      simp only
      unfold decodes at hdec
      cases hu : unmarshal item with
      | error e => rw [hu] at hdec; cases hdec
      | ok val => exact hd1

theorem DecodeMap_of_nextValue (d : peekingDecoder) (he : d.err = none) (reply post : List Byte)
    (hv : nextValue d.remaining = Except.ok (reply, post)) :
    (DecodeMap d).1.1 = replyMap reply ∧ (DecodeMap d).2.remaining = post
      ∧ (DecodeMap d).2.err = none := by
  have h1 := Decode_fst d he
  have h2 := Decode_snd d he reply post hv
  unfold decodeResult at h1
  rw [hv] at h1
  simp only at h1
  unfold DecodeMap replyMap
  simp only
  rw [h1]
  cases hu : unmarshal reply with
  | error e => exact ⟨rfl, h2⟩
  | ok v => cases v <;> exact ⟨rfl, h2⟩

/-- `readResult` on a stream that carries the values `vals`, none of them
starting with `{`, then `reply`, which does, then `post`. -/
theorem readResult_of_carries (d : peekingDecoder) (vals : List (List Byte))
    (reply post : List Byte) (he : d.err = none)
    (hc : carries d.remaining (vals ++ [reply]) post = true)
    (hvals : ∀ v ∈ vals, v.head? ≠ some 0x7b)
    (hr : reply.head? = some 0x7b) :
    (∃ d1, readResult.loop (d.remaining.length + 1) d = (LoopExit.reply, d1)
        ∧ nextValue d1.remaining = Except.ok (reply, post))
      ∧ (readResult d).1 = readResult.reply (replyMap reply)
      ∧ (readResult d).2.remaining = post
      ∧ (readResult d).2.err = none := by
  obtain ⟨d1, h1, h2, h3⟩ := readResult_loop_reply vals (d.remaining.length + 1) d reply post he
    (Nat.lt_succ_self _) hc hvals hr
  have hm := DecodeMap_of_nextValue d1 h2 reply post h3
  refine ⟨⟨d1, h1, h3⟩, ?_, ?_, ?_⟩
  · unfold readResult
    simp only [h1]
    rw [hm.1]
  · unfold readResult
    simp only [h1]
    exact hm.2.1
  · unfold readResult
    simp only [h1]
    exact hm.2.2

/-- C5: on a stream that carries well-formed values of which the first one
starting with `{` is `reply`, `readResult` decodes and discards exactly the
values in front of `reply` (its skipping loop stops with `reply` as the next
value), decodes `reply` as the reply, and leaves the stream after `reply`
unread, with the decoder ready for the event loop. -/
theorem readResult_reply_is_first_object (d : peekingDecoder) (vals : List (List Byte))
    (reply post : List Byte) (he : d.err = none)
    (hc : carries d.remaining (vals ++ [reply]) post = true)
    (hvals : ∀ v ∈ vals, v.head? ≠ some 0x7b)
    (hr : reply.head? = some 0x7b) :
    (∃ d1, readResult.loop (d.remaining.length + 1) d = (LoopExit.reply, d1)
        ∧ nextValue d1.remaining = Except.ok (reply, post))
      ∧ (readResult d).1 = readResult.reply (replyMap reply)
      ∧ (readResult d).2.remaining = post
      ∧ (readResult d).2.err = none :=
  readResult_of_carries d vals reply post he hc hvals hr

theorem readResult_reply_is_first_object_witness :
    (readResult (newPeekingDecoder
        (bytesOf "[1,2] 3 \"x\"\n\x7b\"id\":1,\"result\":true\x7d\n\x7b\"method\":\"x.y\"\x7d") [2, 0, 5])).1
        = Outcome.returned none
      ∧ (readResult (newPeekingDecoder
        (bytesOf "[1,2] 3 \"x\"\n\x7b\"id\":1,\"result\":true\x7d\n\x7b\"method\":\"x.y\"\x7d") [2, 0, 5])).2.remaining
        = bytesOf "\n\x7b\"method\":\"x.y\"\x7d" := by
  have h := readResult_reply_is_first_object
    (newPeekingDecoder
      (bytesOf "[1,2] 3 \"x\"\n\x7b\"id\":1,\"result\":true\x7d\n\x7b\"method\":\"x.y\"\x7d") [2, 0, 5])
    [bytesOf "[1,2]", bytesOf "3", bytesOf "\"x\""] (bytesOf "\x7b\"id\":1,\"result\":true\x7d")
    (bytesOf "\n\x7b\"method\":\"x.y\"\x7d") rfl (by decide) (by decide) (by decide)
  exact ⟨h.2.1.trans rfl, h.2.2.1⟩

/-- The error field decides what the end of `readResult` returns. -/
theorem readResult_reply_spec (m : JMap) :
    (readResult.reply m = Outcome.returned none ↔ m.get (bytesOf "error") = none)
      ∧ ∀ e msg, m.get (bytesOf "error") = some (JValue.object e) →
          JMap.get e (bytesOf "message") = some (JValue.string msg) →
          readResult.reply m = Outcome.returned (some (GoError.new msg)) := by
  constructor
  · unfold readResult.reply
    constructor
    · intro h
      split at h
      · assumption
      · split at h <;> cases h
      · cases h
    · intro h
      rw [h]
  · intro e msg h1 h2
    unfold readResult.reply
    rw [h1]
    simp only
    rw [h2]

/-- C6: the reply (the first value starting with `{`) decodes to a map, and
`readResult` returns nil exactly when that map has no `error` field; when
`error` is a mapping whose `message` is the string `msg` it returns an error
whose message is `msg`. -/
theorem readResult_outcome_by_error_field (d : peekingDecoder) (vals : List (List Byte))
    (reply post : List Byte) (he : d.err = none)
    (hc : carries d.remaining (vals ++ [reply]) post = true)
    (hvals : ∀ v ∈ vals, v.head? ≠ some 0x7b)
    (hr : reply.head? = some 0x7b) :
    unmarshal reply = Except.ok (JValue.object (replyMap reply))
      ∧ ((readResult d).1 = Outcome.returned none
          ↔ (replyMap reply).get (bytesOf "error") = none)
      ∧ ∀ e msg, (replyMap reply).get (bytesOf "error") = some (JValue.object e) →
          JMap.get e (bytesOf "message") = some (JValue.string msg) →
          (readResult d).1 = Outcome.returned (some (GoError.new msg)) := by
  obtain ⟨⟨d1, -, hv⟩, h, -⟩ := readResult_of_carries d vals reply post he hc hvals hr
  refine ⟨nextValue_replyMap _ reply post hv hr, ?_⟩
  rw [h]
  exact readResult_reply_spec (replyMap reply)

theorem readResult_outcome_by_error_field_witness :
    (readResult (newPeekingDecoder (bytesOf "\x7b\"error\":\x7b\"message\":\"denied\"\x7d\x7d") [])).1
        = Outcome.returned (some (GoError.new (bytesOf "denied")))
      ∧ (readResult (newPeekingDecoder (bytesOf "\x7b\"id\":1,\"result\":true\x7d") [])).1
        = Outcome.returned none :=
  ⟨(readResult_outcome_by_error_field
      (newPeekingDecoder (bytesOf "\x7b\"error\":\x7b\"message\":\"denied\"\x7d\x7d") []) []
      (bytesOf "\x7b\"error\":\x7b\"message\":\"denied\"\x7d\x7d") []
      rfl (by decide) (by simp) (by decide)).2.2
      [(bytesOf "message", JValue.string (bytesOf "denied"))] (bytesOf "denied") rfl rfl,
   ((readResult_outcome_by_error_field
      (newPeekingDecoder (bytesOf "\x7b\"id\":1,\"result\":true\x7d") []) []
      (bytesOf "\x7b\"id\":1,\"result\":true\x7d") []
      rfl (by decide) (by simp) (by decide)).2.1).mpr rfl⟩

/-- The two checked errors of `readResult` propagate: when the skipping loop
ends on a failed `NextByte` or a failed `Decode` of a skipped value,
`readResult` returns that error, and so does the subscribe function. -/
theorem readResult_loop_fail (d : peekingDecoder) (e : GoError)
    (h : (readResult.loop (d.remaining.length + 1) d).1 = LoopExit.fail e) :
    (readResult d).1 = Outcome.returned (some e)
      ∧ (subscribeSessions none d).1 = Outcome.returned (some e) := by
  have : (readResult d).1 = Outcome.returned (some e) := by
    unfold readResult
    simp only [h]
  exact ⟨this, this⟩

/-- The error of the reply's `Decode` is never returned: whenever the skipping
loop stops in front of a `{` and `Decode(&v)` then fails, `readResult` returns
nil. -/
theorem readResult_reply_error_dropped (d : peekingDecoder) (e : GoError)
    (h : (readResult.loop (d.remaining.length + 1) d).1 = LoopExit.reply)
    (he : (Decode (readResult.loop (d.remaining.length + 1) d).2).1 = Except.error e) :
    (readResult d).1 = Outcome.returned none := by
  unfold readResult
  simp only [h]
  unfold DecodeMap
  simp only [he]
  rfl

/-- C7 at the failing input: on the truncated reply `{"error":` the look-ahead
reports `{`, `Decode(&v)` fails with `io.ErrUnexpectedEOF`, and `readResult`
and `subscribeSessions` nevertheless return nil. -/
theorem readResult_drops_reply_decode_error :
    (readResult.loop 10 (newPeekingDecoder (bytesOf "\x7b\"error\":") [])).1 = LoopExit.reply
      ∧ (DecodeMap (readResult.loop 10 (newPeekingDecoder (bytesOf "\x7b\"error\":") [])).2).1.2
        = some GoError.UnexpectedEOF
      ∧ (readResult (newPeekingDecoder (bytesOf "\x7b\"error\":") [])).1 = Outcome.returned none
      ∧ (subscribeSessions none (newPeekingDecoder (bytesOf "\x7b\"error\":") [])).1
        = Outcome.returned none := by
  refine ⟨rfl, rfl, rfl, rfl⟩

/-- The end of `readResult` panics exactly when the reply has an `error` field
that is not a mapping with a string `message`. -/
theorem readResult_reply_panics_iff (m : JMap) :
    (∃ what, readResult.reply m = Outcome.panicked what) ↔
      ∃ err, JMap.get m (bytesOf "error") = some err
        ∧ ∀ e msg, err = JValue.object e →
            JMap.get e (bytesOf "message") ≠ some (JValue.string msg) := by
  unfold readResult.reply
  constructor
  · rintro ⟨what, h⟩
    split at h
    · cases h
    · rename_i e he
      refine ⟨JValue.object e, he, ?_⟩
      intro e2 msg heq hmsg
      simp only [JValue.object.injEq] at heq
      subst heq
      rw [hmsg] at h
      cases h
    · rename_i err hnot herr
      refine ⟨err, herr, ?_⟩
      intro e2 msg heq
      exact absurd heq (hnot e2)
  · rintro ⟨err, herr, hno⟩
    rw [herr]
    cases err with
    | object e =>
      simp only
      cases hm : JMap.get e (bytesOf "message") with
      | none => exact ⟨_, rfl⟩
      | some v =>
        cases v with
        | string msg => exact absurd hm (hno e msg rfl)
        | _ => exact ⟨_, rfl⟩
    | _ => exact ⟨_, rfl⟩

/-- C10 at the failing input: on the reply `{"error":"denied"}`, whose `error`
field is a string, the type assertion `err.(map[string]interface{})` aborts
`readResult` with a panic; so does `.(string)` on the reply
`{"error":{"message":1}}`. -/
theorem readResult_panics_on_error_shape :
    (readResult (newPeekingDecoder (bytesOf "\x7b\"error\":\"denied\"\x7d") [])).1
        = Outcome.panicked "interface conversion: interface \x7b\x7d is not map[string]interface \x7b\x7d"
      ∧ (readResult (newPeekingDecoder (bytesOf "\x7b\"error\":\x7b\"message\":1\x7d\x7d") [])).1
        = Outcome.panicked "interface conversion: interface \x7b\x7d is not string" := by
  refine ⟨rfl, rfl⟩

end PsmEvents
